import Mathlib

/-! # MyCache: LRU, LFU, LRU-K, ARC and sharded LRU

A shallow embedding of `LruBase.h`, `LfuBase.h`, `kLruCache.h`, `ArcLruPart.h`,
`ArcLfuPart.h`, `ArcCache.h` and `HashLruCache.h`, and the properties proved
about them.

Conventions of the embedding.

* A `std::shared_ptr` to a list node is a node handle.  In `LruBase` every live
  node is owned by `nodeMap_` under its own key, so the handle of a node is the
  key it is stored under: `nodeMap` holds the node records (key, value, access
  count) keyed by `Key`, and `chain` is the sequence of handles found by
  following `next_` from `dummyHead_` to `dummyTail_` (sentinels excluded).  The
  two parts of `ArcCache` are embedded the same way.
* In `LfuBase` a node can stay linked in a frequency list after its key has
  left `nodeMap_`, so nodes live in an explicit `heap` and a handle is the
  index of the node in it; the sentinels of a `FreqList` are heap nodes too.
* A dereference of a null or dangling handle is `none` in the `Option` monad.
* `std::unordered_map` is an association list; `find`, `erase`, `size` and
  `operator[]` are `List.lookup`, `mapErase`, `List.length` and `mapAssign`.
* The mutex is not modelled: every member function runs to completion under
  the lock, so a call is one atomic state transformer.
* `int` is `Int`; the claims concern traces far below `2^31` operations.  The
  conversions between `int` and `size_t` in `KLruCache` and `HashLruCaches` are
  explicit (`intOfSize`, `sizeOfInt`).
* `handleOverMaxAverageNum` reads an identifier `INI8_MAX` that no file declares;
  it is a parameter (`LfuEnv.INI8_MAX`), as are the key and value of a sentinel
  node.  The loop of that function visits `nodeMap_` in the order of the
  association list; `std::unordered_map` fixes no order.
* What the sources take from the standard library and the embedding does not
  compute (`std::hash`, `hardware_concurrency`, a ceiling in double precision)
  is a parameter (`HashEnv`), as are `Value{}` and the literal `""` compared with
  a `Value` in `KLruCache` (`KLruEnv`).
-/

set_option linter.unusedSectionVars false

namespace MyCache

/-! ## Association-list view of `std::unordered_map` -/

/-- The effect of `unordered_map::erase(key)`: drop the entry stored under `key`. -/
def mapErase {K B : Type} [DecidableEq K] (m : List (K × B)) (key : K) : List (K × B) :=
  m.filter (fun e => decide (e.1 ≠ key))

/-- The effect of `m[key] = b`: overwrite the entry under `key`, or add a new one. -/
def mapAssign {K B : Type} [DecidableEq K] (m : List (K × B)) (key : K) (b : B) :
    List (K × B) :=
  match m.lookup key with
  | some _ => m.map (fun e => if e.1 = key then (e.1, b) else e)
  | none => m ++ [(key, b)]

/-! ## LruBase.h -/

/-- The record `LruNode<Key, Value>` without its links. -/
structure LruNode (K V : Type) where
  key : K
  value : V
  accessCount : Nat
  deriving DecidableEq, Repr

/-- The constructor `LruNode(key, value)`: the access count starts at 1. -/
def LruNode.mk1 {K V : Type} (key : K) (value : V) : LruNode K V :=
  { key := key, value := value, accessCount := 1 }

/-- The state of `LruBase<Key, Value>`: `capacity_`, `nodeMap_`, and the linked
list between the two sentinels, least recent first. -/
structure LruBase (K V : Type) where
  capacity : Int
  nodeMap : List (K × LruNode K V)
  chain : List K
  deriving DecidableEq, Repr

namespace LruBase

variable {K V : Type} [DecidableEq K]

/-- The constructor `LruBase(capacity)` followed by `initializeList()`. -/
def new (capacity : Int) : LruBase K V :=
  { capacity := capacity, nodeMap := [], chain := [] }

/-- The member `removeNode(node)`: unlink the node from the list. -/
def removeNode (s : LruBase K V) (node : K) : LruBase K V :=
  { s with chain := s.chain.erase node }

/-- The member `insertNode(node)`: link the node just before `dummyTail_`. -/
def insertNode (s : LruBase K V) (node : K) : LruBase K V :=
  { s with chain := s.chain ++ [node] }

/-- The member `moveToMostRecent(node)`. -/
def moveToMostRecent (s : LruBase K V) (node : K) : LruBase K V :=
  insertNode (removeNode s node) node

/-- The call `node->setValue(value)` on the node owned by `nodeMap_` under `node`. -/
def setValue (s : LruBase K V) (node : K) (value : V) : LruBase K V :=
  let upd : K × LruNode K V → K × LruNode K V :=
    fun e => if e.1 = node then (e.1, { e.2 with value := value }) else e
  { s with nodeMap := s.nodeMap.map upd }

/-- The member `updateExistingNode(node, value)`. -/
def updateExistingNode (s : LruBase K V) (node : K) (value : V) : LruBase K V :=
  moveToMostRecent (setValue s node value) node

/-- The member `evictLeastRecent()`: the node after `dummyHead_` is unlinked and
its key erased from `nodeMap_`.  It is only called with `size() >= capacity_ > 0`;
on an empty list (where the source would dereference a null link) the model
leaves the state as it is. -/
def evictLeastRecent (s : LruBase K V) : LruBase K V :=
  match s.chain with
  | [] => s
  | leastRecent :: _ =>
    let s1 := removeNode s leastRecent
    { s1 with nodeMap := mapErase s1.nodeMap leastRecent }

/-- The member `addNewNode(key, value)`.  It runs with `capacity_ > 0`, where the
comparison of `size()` with `capacity_` is the comparison of the two numbers. -/
def addNewNode (s : LruBase K V) (key : K) (value : V) : LruBase K V :=
  let s1 := if (s.nodeMap.length : Int) ≥ s.capacity then evictLeastRecent s else s
  let s2 := insertNode s1 key
  { s2 with nodeMap := mapAssign s2.nodeMap key (LruNode.mk1 key value) }

/-- The member `put(key, value)`. -/
def put (s : LruBase K V) (key : K) (value : V) : LruBase K V :=
  if s.capacity ≤ 0 then s
  else
    match s.nodeMap.lookup key with
    | some _ => updateExistingNode s key value
    | none => addNewNode s key value

/-- The member `bool get(key, value&)`: `some v` stands for `true` with `v`
written to the out-parameter, `none` for `false`. -/
def get (s : LruBase K V) (key : K) : Option V × LruBase K V :=
  match s.nodeMap.lookup key with
  | some node => (some node.value, moveToMostRecent s key)
  | none => (none, s)

/-- The member `remove(key)`. -/
def remove (s : LruBase K V) (key : K) : LruBase K V :=
  match s.nodeMap.lookup key with
  | some _ =>
    let s1 := removeNode s key
    { s1 with nodeMap := mapErase s1.nodeMap key }
  | none => s

/-- One call of the public interface. -/
inductive Op (K V : Type) where
  | put (key : K) (value : V)
  | get (key : K)
  | remove (key : K)
  deriving DecidableEq, Repr

/-- The state after one call. -/
def step (s : LruBase K V) : Op K V → LruBase K V
  | .put key value => put s key value
  | .get key => (get s key).2
  | .remove key => remove s key

/-- The state after a sequence of calls, first call first. -/
def run (s : LruBase K V) (ops : List (Op K V)) : LruBase K V :=
  ops.foldl step s

/-- The states reachable from the empty cache of capacity `cap`. -/
def Reachable (cap : Int) (s : LruBase K V) : Prop :=
  ∃ ops : List (Op K V), s = run (new cap) ops

/-- The number of resident keys, `nodeMap_.size()`. -/
def size (s : LruBase K V) : Nat := s.nodeMap.length

/-- The resident keys. -/
def keys (s : LruBase K V) : List K := s.nodeMap.map Prod.fst

/-- The residents from most recent to least recent. -/
def recencyOrder (s : LruBase K V) : List K := s.chain.reverse

/-- The value stored for `key`, if resident. -/
def valueOf (s : LruBase K V) (key : K) : Option V :=
  (s.nodeMap.lookup key).map (fun n => n.value)

end LruBase

/-! ## LfuBase.h -/

/-- The constant `INT8_MAX` of `<cstdint>`. -/
def INT8_MAX : Int := 127

/-- The record `FreqList<Key, Value>::Node` without its links. -/
structure Node (K V : Type) where
  freq : Int
  key : K
  value : V
  deriving DecidableEq, Repr

/-- What `LfuBase.h` uses without fixing it: the identifier `INI8_MAX`, which
`handleOverMaxAverageNum` reads and no file of the repository declares, and the
`key` and `value` members of a node built by `Node()`, which that constructor
leaves to default initialisation. -/
structure LfuEnv (K V : Type) where
  INI8_MAX : Int
  defaultKey : K
  defaultValue : V

/-- The constructor `Node()`: a sentinel, with `freq` 1. -/
def Node.sentinel {K V : Type} (env : LfuEnv K V) : Node K V :=
  { freq := 1, key := env.defaultKey, value := env.defaultValue }

/-- The constructor `Node(key, value)`: `freq` starts at 1. -/
def Node.mk1 {K V : Type} (key : K) (value : V) : Node K V :=
  { freq := 1, key := key, value := value }

/-- The class `FreqList<Key, Value>`: `freq_`, the handles of the sentinels
`head_` and `tail_`, and the handles of the nodes linked between them, in link
order (`head_->next` first). -/
structure FreqList where
  freq : Int
  head : Nat
  tail : Nat
  items : List Nat
  deriving DecidableEq, Repr

namespace FreqList

/-- The member `isEmpty()`: `head_->next == tail_`. -/
def isEmpty (l : FreqList) : Bool := l.items.isEmpty

/-- The member `addNode(node)`: link the node just before `tail_`. -/
def addNode (l : FreqList) (node : Nat) : FreqList :=
  { l with items := l.items ++ [node] }

/-- The member `getFirstNode()`: `head_->next`, which is `tail_` on an empty list. -/
def getFirstNode (l : FreqList) : Nat :=
  match l.items with
  | [] => l.tail
  | first :: _ => first

/-- The member `removeNode(node)` seen from the whole index: the node is unlinked
from its neighbours, whichever list they belong to.  A node that is linked
nowhere has null links, and the tail sentinel has a null `next`; for both the
member returns early, and both occur in no `items`. -/
def removeNode (lists : List (Int × FreqList)) (node : Nat) : List (Int × FreqList) :=
  lists.map (fun e => (e.1, { e.2 with items := e.2.items.erase node }))

end FreqList

/-- The state of `LfuBase<Key, Value>`, with the nodes it has allocated. -/
structure LfuBase (K V : Type) where
  capacity : Int
  minFreq : Int
  maxAverageNum : Int
  curAverageNum : Int
  curTotalNum : Int
  nodeMap : List (K × Nat)
  freqToFreqList : List (Int × FreqList)
  heap : List (Node K V)
  deriving DecidableEq, Repr

namespace LfuBase

variable {K V : Type} [DecidableEq K]

/-- The constructor `LfuBase(capacity, maxAverageNum)`. -/
def new (capacity : Int) (maxAverageNum : Int) : LfuBase K V :=
  { capacity := capacity, minFreq := INT8_MAX, maxAverageNum := maxAverageNum,
    curAverageNum := 0, curTotalNum := 0, nodeMap := [], freqToFreqList := [], heap := [] }

/-- The conversion of a value to `int`: reduction modulo `2^32 = 4294967296` into the
signed range from `-2^31 = -2147483648`. -/
def wrapInt32 (x : Int) : Int := (x + 2147483648) % 4294967296 - 2147483648

/-- The expression `curTotalNum_ / nodeMap_.size()` stored into an `int`: the
`int` operand is converted to the 64-bit unsigned type of `size()` (reduction
modulo `2^64 = 18446744073709551616`), the division is unsigned, and the quotient
is converted back.  For `0 ≤ total < 2^31` this is the quotient `total / size`. -/
def divSize (total : Int) (size : Nat) : Int :=
  wrapInt32 ((total % 18446744073709551616) / (size : Int))

/-- The statements that recompute `curAverageNum_` in `addFreqNum` and `decreaseFreqNum`. -/
def recomputeAverage (s : LfuBase K V) : LfuBase K V :=
  if s.nodeMap.isEmpty then { s with curAverageNum := 0 }
  else { s with curAverageNum := divSize s.curTotalNum s.nodeMap.length }

/-- The member `decreaseFreqNum(num)`. -/
def decreaseFreqNum (s : LfuBase K V) (num : Int) : LfuBase K V :=
  recomputeAverage { s with curTotalNum := s.curTotalNum - num }

/-- The assignment `node->freq = f`. -/
def setFreq (s : LfuBase K V) (node : Nat) (f : Int) : Option (LfuBase K V) :=
  match s.heap[node]? with
  | some n => some { s with heap := s.heap.set node { n with freq := f } }
  | none => none

/-- The assignment `node->value = value`. -/
def setValue (s : LfuBase K V) (node : Nat) (value : V) : Option (LfuBase K V) :=
  match s.heap[node]? with
  | some n => some { s with heap := s.heap.set node { n with value := value } }
  | none => none

/-- The member `removeFromFreqList(node)`: `freqToFreqList_[freq]` must hold a
list (a missing entry is a null `FreqList*`), then the node is unlinked. -/
def removeFromFreqList (s : LfuBase K V) (node : Nat) : Option (LfuBase K V) :=
  match s.heap[node]? with
  | none => none
  | some n =>
    match s.freqToFreqList.lookup n.freq with
    | none => none
    | some _ => some { s with freqToFreqList := FreqList.removeNode s.freqToFreqList node }

/-- The expression `new FreqList<Key, Value>(freq)` stored under `freq`: two
sentinels are allocated. -/
def newFreqList (env : LfuEnv K V) (s : LfuBase K V) (freq : Int) : LfuBase K V :=
  let head := s.heap.length
  let tail := s.heap.length + 1
  { s with
    heap := s.heap ++ [Node.sentinel env, Node.sentinel env]
    freqToFreqList :=
      mapAssign s.freqToFreqList freq { freq := freq, head := head, tail := tail, items := [] } }

/-- The member `addToFreqList(node)`. -/
def addToFreqList (env : LfuEnv K V) (s : LfuBase K V) (node : Nat) : Option (LfuBase K V) :=
  match s.heap[node]? with
  | none => none
  | some n =>
    let s1 := if (s.freqToFreqList.lookup n.freq).isNone then newFreqList env s n.freq else s
    match s1.freqToFreqList.lookup n.freq with
    | none => none
    | some l =>
      some { s1 with freqToFreqList := mapAssign s1.freqToFreqList n.freq (l.addNode node) }

/-- The body of the loop of `handleOverMaxAverageNum` for one entry of `nodeMap_`. -/
def ageNode (env : LfuEnv K V) (s : LfuBase K V) (node : Nat) : Option (LfuBase K V) :=
  match removeFromFreqList s node with
  | none => none
  | some s1 =>
    match s1.heap[node]? with
    | none => none
    | some n =>
      let preFreq := n.freq
      let f1 := preFreq - Int.tdiv s1.maxAverageNum 2
      let f2 := if f1 < 1 then 1 else f1
      match setFreq s1 node f2 with
      | none => none
      | some s2 =>
        let s3 := decreaseFreqNum s2 (preFreq - f2)
        let s4 := { s3 with minFreq := min s3.minFreq f2 }
        addToFreqList env s4 node

/-- The loop of `handleOverMaxAverageNum` over the entries of `nodeMap_`, taken
in the order of the association list. -/
def ageLoop (env : LfuEnv K V) : List (K × Nat) → LfuBase K V → Option (LfuBase K V)
  | [], s => some s
  | e :: rest, s =>
    match ageNode env s e.2 with
    | none => none
    | some s1 => ageLoop env rest s1

/-- The member `handleOverMaxAverageNum()`. -/
def handleOverMaxAverageNum (env : LfuEnv K V) (s : LfuBase K V) : Option (LfuBase K V) :=
  if s.nodeMap.isEmpty then some s
  else
    match ageLoop env s.nodeMap { s with minFreq := env.INI8_MAX } with
    | none => none
    | some s1 => some (if s1.minFreq = env.INI8_MAX then { s1 with minFreq := 1 } else s1)

/-- The member `addFreqNum()`. -/
def addFreqNum (env : LfuEnv K V) (s : LfuBase K V) : Option (LfuBase K V) :=
  let s1 := recomputeAverage { s with curTotalNum := s.curTotalNum + 1 }
  if s1.curAverageNum > s1.maxAverageNum then handleOverMaxAverageNum env s1 else some s1

/-- The statement of `getInternal` that follows the move of the node, `freq` being
the new `node->freq`:
`if (freq - 1 == minFreq_ && freqToFreqList_[freq - 1]->isEmpty()) minFreq_++;`.
The list is only looked up when the first test holds. -/
def bumpMinFreq (s : LfuBase K V) (freq : Int) : Option (LfuBase K V) :=
  if freq - 1 = s.minFreq then
    match s.freqToFreqList.lookup (freq - 1) with
    | none => none
    | some l => some (if l.isEmpty then { s with minFreq := s.minFreq + 1 } else s)
  else some s

/-- The member `getInternal(node, value)`; the value read is returned. -/
def getInternal (env : LfuEnv K V) (s : LfuBase K V) (node : Nat) : Option (V × LfuBase K V) :=
  match s.heap[node]? with
  | none => none
  | some n =>
    match removeFromFreqList s node with
    | none => none
    | some s1 =>
      match setFreq s1 node (n.freq + 1) with
      | none => none
      | some s2 =>
        match addToFreqList env s2 node with
        | none => none
        | some s3 =>
          match bumpMinFreq s3 (n.freq + 1) with
          | none => none
          | some s4 =>
            match addFreqNum env s4 with
            | none => none
            | some s5 => some (n.value, s5)

/-- The member `kickOut()`. -/
def kickOut (s : LfuBase K V) : Option (LfuBase K V) :=
  match s.freqToFreqList.lookup s.minFreq with
  | none => none
  | some l =>
    let node := l.getFirstNode
    match removeFromFreqList s node with
    | none => none
    | some s1 =>
      match s1.heap[node]? with
      | none => none
      | some n =>
        some (decreaseFreqNum { s1 with nodeMap := mapErase s1.nodeMap n.key } n.freq)

/-- The member `putInternal(key, value)`.  It runs with `capacity_ > 0`, where the
comparison of `size()` with `capacity_` is the comparison of the two numbers. -/
def putInternal (env : LfuEnv K V) (s : LfuBase K V) (key : K) (value : V) :
    Option (LfuBase K V) :=
  match (if (s.nodeMap.length : Int) = s.capacity then kickOut s else some s) with
  | none => none
  | some s1 =>
    let node := s1.heap.length
    let s2 := { s1 with heap := s1.heap ++ [Node.mk1 key value] }
    let s3 := { s2 with nodeMap := mapAssign s2.nodeMap key node }
    match addToFreqList env s3 node with
    | none => none
    | some s4 =>
      match addFreqNum env s4 with
      | none => none
      | some s5 => some { s5 with minFreq := min s5.minFreq 1 }

/-- The member `put(key, value)`. -/
def put (env : LfuEnv K V) (s : LfuBase K V) (key : K) (value : V) : Option (LfuBase K V) :=
  if s.capacity ≤ 0 then some s
  else
    match s.nodeMap.lookup key with
    | some node =>
      match setValue s node value with
      | none => none
      | some s1 =>
        match getInternal env s1 node with
        | none => none
        | some r => some r.2
    | none => putInternal env s key value

/-- The member `bool get(key, value&)`: the inner `some v` stands for `true` with
`v` written to the out-parameter, the inner `none` for `false`. -/
def get (env : LfuEnv K V) (s : LfuBase K V) (key : K) : Option (Option V × LfuBase K V) :=
  match s.nodeMap.lookup key with
  | some node =>
    match getInternal env s node with
    | none => none
    | some r => some (some r.1, r.2)
  | none => some (none, s)

/-- The member `purge()`. -/
def purge (s : LfuBase K V) : LfuBase K V :=
  { s with nodeMap := [], freqToFreqList := [] }

/-- One call of the public interface. -/
inductive Op (K V : Type) where
  | put (key : K) (value : V)
  | get (key : K)
  | purge
  deriving DecidableEq, Repr

/-- The state after one call. -/
def step (env : LfuEnv K V) (s : LfuBase K V) : Op K V → Option (LfuBase K V)
  | .put key value => put env s key value
  | .get key => (get env s key).map Prod.snd
  | .purge => some (purge s)

/-- The state after a sequence of calls, first call first. -/
def run (env : LfuEnv K V) : LfuBase K V → List (Op K V) → Option (LfuBase K V)
  | s, [] => some s
  | s, op :: ops =>
    match step env s op with
    | none => none
    | some s1 => run env s1 ops

/-- The states reachable from the empty cache by `put`, `get` and `purge`. -/
def Reachable (env : LfuEnv K V) (cap maxAvg : Int) (s : LfuBase K V) : Prop :=
  ∃ ops : List (Op K V), run env (new cap maxAvg) ops = some s

/-- The number of resident keys, `nodeMap_.size()`. -/
def size (s : LfuBase K V) : Nat := s.nodeMap.length

/-- The resident keys. -/
def keys (s : LfuBase K V) : List K := s.nodeMap.map Prod.fst

/-- The nodes linked in the list of frequency `f`, first linked first; empty when
the index has no list for `f`. -/
def bucket (s : LfuBase K V) (f : Int) : List Nat :=
  match s.freqToFreqList.lookup f with
  | some l => l.items
  | none => []

end LfuBase

end MyCache

/-! ## Invariants and concrete states used by the properties -/

namespace MyCache
namespace LruBase
variable {K V : Type} [DecidableEq K]

/-- The structural invariant of `LruBase`: the list and the map hold the same
nodes, each once. -/
def Inv (s : LruBase K V) : Prop :=
  s.chain.Perm (s.nodeMap.map Prod.fst) ∧ s.chain.Nodup

end LruBase
end MyCache

namespace MyCache
namespace LruBase
variable {K V : Type} [DecidableEq K]

/-- The cache of capacity `c` that holds exactly the pairs of `l`, each in a node
of its own, linked in the order of `l` (least recent first). -/
def ofList (c : Int) (l : List (K × V)) : LruBase K V :=
  { capacity := c
    nodeMap := l.map (fun kv => (kv.1, LruNode.mk1 kv.1 kv.2))
    chain := l.map Prod.fst }

end LruBase
end MyCache

namespace MyCache

/-- The environment used for concrete traces over integer keys and values:
`INI8_MAX` read as `INT8_MAX`, and sentinel nodes whose key and value are 0. -/
def intEnv : LfuEnv Nat Nat :=
  { INI8_MAX := INT8_MAX, defaultKey := 0, defaultValue := 0 }

end MyCache

namespace MyCache
namespace LfuBase
variable {K V : Type} [DecidableEq K]

/-- The structural invariant of `LfuBase`: keys and handles of `nodeMap_` are
pairwise distinct; every resident node carries the key it is stored under and is
linked in the list of its own frequency; every list links each of its nodes
once, and only nodes whose `freq` is the frequency of the list. -/
def Inv (s : LfuBase K V) : Prop :=
  (s.nodeMap.map Prod.fst).Nodup ∧
  (s.nodeMap.map Prod.snd).Nodup ∧
  (∀ e ∈ s.nodeMap, ∃ n l, s.heap[e.2]? = some n ∧ n.key = e.1 ∧
      s.freqToFreqList.lookup n.freq = some l ∧ e.2 ∈ l.items) ∧
  (∀ f l, s.freqToFreqList.lookup f = some l →
      l.items.Nodup ∧ ∀ j ∈ l.items, ∃ m, s.heap[j]? = some m ∧ m.freq = f)

/-- The frequency that the aging step gives a node of frequency `f`. -/
def agedFreq (maxAverageNum : Int) (f : Int) : Int :=
  if f - Int.tdiv maxAverageNum 2 < 1 then 1 else f - Int.tdiv maxAverageNum 2

/-- The `freq` member of the node behind a handle (0 for a dangling handle). -/
def freqAt (s : LfuBase K V) (node : Nat) : Int :=
  match s.heap[node]? with
  | some n => n.freq
  | none => 0

end LfuBase
end MyCache

namespace MyCache
namespace LfuBase

/-- A concrete reachable state: capacity 2, `maxAverageNum` 4, after
`put(1,1), get(1), get(1), put(2,5)`; key 1 has `freq` 3 and key 2 has `freq` 1. -/
def sample : LfuBase Nat Nat :=
  (run intEnv (new 2 4) [Op.put 1 1, Op.get 1, Op.get 1, Op.put 2 5]).getD (new 2 4)

end LfuBase
end MyCache

namespace MyCache
namespace LfuBase

/-- The states of the trace `put(1,1), get(1), ..., get(1)` (`m` gets) on a cache
of capacity 1 with `maxAverageNum` 1: one resident node of frequency `m + 1`, the
list of frequency 1 empty once the node has left it, and `minFreq_` equal to the
frequency of the node unless that frequency is `INI8_MAX`, where the aging step
has reset `minFreq_` to 1. -/
def OverflowShape (env : LfuEnv Nat Nat) (m : Nat) (s : LfuBase Nat Nat) : Prop :=
  Inv s ∧ s.nodeMap = [(1, 0)] ∧ s.capacity = 1 ∧ s.maxAverageNum = 1 ∧
  s.curTotalNum = (m : Int) + 1 ∧
  s.heap[0]? = some { freq := (m : Int) + 1, key := 1, value := 1 } ∧
  (∃ l, s.freqToFreqList.lookup 1 = some l ∧ s.heap[l.tail]? = some (Node.sentinel env) ∧
    l.items = (if m = 0 then [0] else [])) ∧
  s.minFreq = (if (m : Int) + 1 = env.INI8_MAX then 1 else (m : Int) + 1)

/-- The state after `put(1,1)` on the empty cache of capacity 1 with
`maxAverageNum` 1. -/
def overflowStart (env : LfuEnv Nat Nat) : LfuBase Nat Nat :=
  { capacity := 1, minFreq := 1, maxAverageNum := 1, curAverageNum := 1, curTotalNum := 1,
    nodeMap := [(1, 0)],
    freqToFreqList := [(1, { freq := 1, head := 1, tail := 2, items := [0] })],
    heap := [{ freq := 1, key := 1, value := 1 }, Node.sentinel env, Node.sentinel env] }

end LfuBase
end MyCache

/-! ## kLruCache.h -/

namespace MyCache

/-- The member `Value get(key)` of `LruBase`: the out-parameter starts as
`Value{}` (here `dflt`) and is returned unchanged on a miss. -/
def LruBase.getOr {K V : Type} [DecidableEq K] (dflt : V) (s : LruBase K V) (key : K) :
    V × LruBase K V :=
  match LruBase.get s key with
  | (some v, s1) => (v, s1)
  | (none, s1) => (dflt, s1)

/-- The conversion of a `size_t` to `int` (wrapping to 32 bits, two's complement). -/
def intOfSize (n : Nat) : Int := ((n : Int) + 2147483648) % 4294967296 - 2147483648

/-- The conversion of an `int` to a 64-bit `size_t`. -/
def sizeOfInt (i : Int) : Nat := (i % 18446744073709551616).toNat

/-- What `KLruCache::put` needs of the type `Value`: the value `Value{}` returned
by `get(key)` on a miss and the value the literal `""` denotes in the comparison
`get(key) != ""` (for `std::string` the two are the same). -/
structure KLruEnv (V : Type) where
  defaultValue : V
  emptyLiteral : V

/-- The state of `KLruCache<Key, Value>`: the base object `LruBase<Key, Value>`
(the primary cache), `historyList_` and `k_`. -/
structure KLruCache (K V : Type) where
  base : LruBase K V
  historyList : LruBase K Nat
  k : Int
  deriving DecidableEq, Repr

namespace KLruCache

variable {K V : Type} [DecidableEq K] [DecidableEq V]

/-- The constructor `KLruCache(capacity, historyCapacity, k)`. -/
def new (capacity historyCapacity k : Int) : KLruCache K V :=
  { base := LruBase.new capacity, historyList := LruBase.new historyCapacity, k := k }

/-- The member `get(key)`: the history count is read, incremented, and the
incremented count stored (`++historyCount`); the result is the primary's. -/
def get (env : KLruEnv V) (s : KLruCache K V) (key : K) : V × KLruCache K V :=
  let r := LruBase.getOr 0 s.historyList key
  let historyCount : Int := intOfSize r.1 + 1
  let h2 := LruBase.put r.2 key (sizeOfInt historyCount)
  let g := LruBase.getOr env.defaultValue s.base key
  (g.1, { s with base := g.2, historyList := h2 })

/-- The member `put(key, value)`.  The first statement passes the type name
`Value` where the argument `value` is meant.  The history count is read and the
count as read is stored (`historyCount ++` yields the old count); the local
variable, one higher, is compared with `k_`. -/
def put (env : KLruEnv V) (s : KLruCache K V) (key : K) (value : V) : KLruCache K V :=
  let g := LruBase.getOr env.defaultValue s.base key
  let b1 := if g.1 ≠ env.emptyLiteral then LruBase.put g.2 key value else g.2
  let r := LruBase.getOr 0 s.historyList key
  let historyCount : Int := intOfSize r.1
  let h2 := LruBase.put r.2 key (sizeOfInt historyCount)
  let historyCount1 : Int := historyCount + 1
  if historyCount1 ≥ s.k then
    { s with base := LruBase.put b1 key value, historyList := LruBase.remove h2 key }
  else
    { s with base := b1, historyList := h2 }

/-- One call of the public interface. -/
inductive Op (K V : Type) where
  | put (key : K) (value : V)
  | get (key : K)
  deriving DecidableEq, Repr

/-- The state after one call. -/
def step (env : KLruEnv V) (s : KLruCache K V) : Op K V → KLruCache K V
  | .put key value => put env s key value
  | .get key => (get env s key).2

/-- The state after a sequence of calls, first call first. -/
def run (env : KLruEnv V) (s : KLruCache K V) (ops : List (Op K V)) : KLruCache K V :=
  ops.foldl (step env) s

/-- The value the primary cache holds for `key`, if resident. -/
def primaryValue (s : KLruCache K V) (key : K) : Option V :=
  LruBase.valueOf s.base key

end KLruCache

/-- The instance of `KLruEnv` for `std::string` values. -/
def stringEnv : KLruEnv String :=
  { defaultValue := "", emptyLiteral := "" }

end MyCache

/-! ## HashLruCache.h -/

namespace MyCache

/-- What `HashLruCaches` takes from the standard library: `std::hash<Key>`, the
value of `std::thread::hardware_concurrency()` as an `int`, and the value of
`std::ceil(capacity / static_cast<double>(sliceNum_))` as a `size_t`.  The last
is computed in double precision, which the embedding does not model. -/
structure HashEnv (K : Type) where
  hash : K → Nat
  hardwareConcurrency : Int
  ceilDouble : Nat → Int → Nat

/-- The state of `HashLruCaches<Key, Value>`. -/
structure HashLruCaches (K V : Type) where
  capacity : Nat
  sliceNum : Int
  lruSliceCaches : List (LruBase K V)
  deriving DecidableEq, Repr

namespace HashLruCaches

variable {K V : Type} [DecidableEq K]

/-- The constructor `HashLruCaches(capacity, sliceNum)`: `sliceSize` is a
`size_t` and is passed to `LruBase(int capacity)`. -/
def new (env : HashEnv K) (capacity : Nat) (sliceNum : Int) : HashLruCaches K V :=
  let n : Int := if sliceNum > 0 then sliceNum else env.hardwareConcurrency
  let sliceSize : Nat := env.ceilDouble capacity n
  { capacity := capacity, sliceNum := n,
    lruSliceCaches := List.replicate n.toNat (LruBase.new (intOfSize sliceSize)) }

/-- The index `Hash(key) % sliceNum_`, computed in `size_t`. -/
def sliceIndex (env : HashEnv K) (s : HashLruCaches K V) (key : K) : Nat :=
  env.hash key % sizeOfInt s.sliceNum

/-- The state in which the cache at index `i` of the vector is now `c`. -/
def withSlice (s : HashLruCaches K V) (i : Nat) (c : LruBase K V) : HashLruCaches K V :=
  { s with lruSliceCaches := s.lruSliceCaches.set i c }

/-- The member `put(key, value)`.  An index outside the vector (which needs
`sliceNum_` and the vector to disagree) leaves the state as it is. -/
def put (env : HashEnv K) (s : HashLruCaches K V) (key : K) (value : V) : HashLruCaches K V :=
  let i := sliceIndex env s key
  match s.lruSliceCaches[i]? with
  | some c => withSlice s i (LruBase.put c key value)
  | none => s

/-- The member `bool get(key, value&)`. -/
def get (env : HashEnv K) (s : HashLruCaches K V) (key : K) : Option V × HashLruCaches K V :=
  let i := sliceIndex env s key
  match s.lruSliceCaches[i]? with
  | some c => ((LruBase.get c key).1, withSlice s i (LruBase.get c key).2)
  | none => (none, s)

/-- One call of the public interface. -/
inductive Op (K V : Type) where
  | put (key : K) (value : V)
  | get (key : K)
  deriving DecidableEq, Repr

/-- The state after one call. -/
def step (env : HashEnv K) (s : HashLruCaches K V) : Op K V → HashLruCaches K V
  | .put key value => put env s key value
  | .get key => (get env s key).2

/-- The state after a sequence of calls, first call first. -/
def run (env : HashEnv K) (s : HashLruCaches K V) (ops : List (Op K V)) : HashLruCaches K V :=
  ops.foldl (step env) s

/-- The number of residents over all shards. -/
def residents (s : HashLruCaches K V) : Nat :=
  (s.lruSliceCaches.map LruBase.size).sum

end HashLruCaches

/-- An instance of `HashEnv` for keys of type `Nat`: the identity hash, four
hardware threads, and the exact ceiling of the quotient. -/
def natHashEnv : HashEnv Nat :=
  { hash := fun k => k, hardwareConcurrency := 4,
    ceilDouble := fun c n => ((c + n - 1) / n).toNat }

end MyCache

namespace MyCache
namespace HashLruCaches
variable {K V : Type} [DecidableEq K]

/-- What every state of a sharded cache built with `n` shards of capacity `cap`
satisfies. -/
def Shards (n : Int) (cap : Int) (s : HashLruCaches K V) : Prop :=
  s.sliceNum = n ∧ s.lruSliceCaches.length = n.toNat ∧
    ∀ c ∈ s.lruSliceCaches, LruBase.Inv c ∧ c.capacity = cap ∧ (c.nodeMap.length : Int) ≤ cap

end HashLruCaches
end MyCache

/-! ## ArcLruPart.h, ArcLfuPart.h and ArcCache.h

The three files include `ArcCacheNode.h`, which is not among the sources.  A
node is owned by the map of the list it is linked in, under its own key, so, as
for `LruBase`, the handle of a linked node is its key: the maps hold the node
records and the lists hold keys, in the order of the links from the head
sentinel to the tail sentinel.  `size_t` is `Nat`: a ghost hit, the one event
that increments a capacity, needs an eviction before it, hence as many residents
as the constructor's capacity, and moves one unit between two capacities whose
sum is twice that capacity, so no run that fits a memory reaches `2^64`. -/

namespace MyCache

/-- Modelled from the spec: the node type `ArcNode<Key, Value>` of the missing
header `ArcCacheNode.h`, without its links: key, value and access count. -/
structure ArcNode (K V : Type) where
  key : K
  value : V
  accessCount : Nat
  deriving DecidableEq, Repr

/-- Modelled from the spec: the constructor `ArcNode(key, value)` of the missing
header; as for `LruNode` (and as the reset in `addToGhost` and the bucket 1 a new
node of the frequency part is put in suggest) the access count starts at 1. -/
def ArcNode.mk1 {K V : Type} (key : K) (value : V) : ArcNode K V :=
  { key := key, value := value, accessCount := 1 }

/-- Modelled from the spec: the member `incrementAccessCount()` of the missing
header, one more access. -/
def ArcNode.incrementAccessCount {K V : Type} (n : ArcNode K V) : ArcNode K V :=
  { n with accessCount := n.accessCount + 1 }

/-- The update of the record stored under `key` in a node map (a write through
the shared pointer). -/
def mapUpdate {K B : Type} [DecidableEq K] (m : List (K × B)) (key : K) (f : B → B) :
    List (K × B) :=
  m.map (fun e => if e.1 = key then (e.1, f e.2) else e)

/-- The state of `ArcLruPart<Key, Value>`.  `mainList` runs from `mainHead_` to
`mainTail_` (most recent first), `ghostList` from `ghostHead_` to `ghostTail_`
(most recently ghosted first). -/
structure ArcLruPart (K V : Type) where
  capacity : Nat
  ghostCapacity : Nat
  transformThreshold : Nat
  mainCache : List (K × ArcNode K V)
  ghostCache : List (K × ArcNode K V)
  mainList : List K
  ghostList : List K
  deriving DecidableEq, Repr

namespace ArcLruPart

variable {K V : Type} [DecidableEq K]

/-- The constructor `ArcLruPart(capacity, transformThreshold)`. -/
def new (capacity transformThreshold : Nat) : ArcLruPart K V :=
  { capacity := capacity, ghostCapacity := capacity, transformThreshold := transformThreshold,
    mainCache := [], ghostCache := [], mainList := [], ghostList := [] }

/-- The member `addToFront(node)`. -/
def addToFront (s : ArcLruPart K V) (node : K) : ArcLruPart K V :=
  { s with mainList := node :: s.mainList }

/-- The member `moveToFront(node)`: unlink, then `addToFront`. -/
def moveToFront (s : ArcLruPart K V) (node : K) : ArcLruPart K V :=
  addToFront { s with mainList := s.mainList.erase node } node

/-- The member `updateExistingNode(node, value)`. -/
def updateExistingNode (s : ArcLruPart K V) (node : K) (value : V) : Bool × ArcLruPart K V :=
  let s1 := { s with mainCache := mapUpdate s.mainCache node (fun n => { n with value := value }) }
  (true, moveToFront s1 node)

/-- The member `removeOldestGhost()`: the node before `ghostTail_` is unlinked
and its key erased from `ghostCache_`. -/
def removeOldestGhost (s : ArcLruPart K V) : ArcLruPart K V :=
  match s.ghostList.getLast? with
  | none => s
  | some oldestGhost =>
    { s with ghostList := s.ghostList.dropLast, ghostCache := mapErase s.ghostCache oldestGhost }

/-- The member `addToGhost(node)`: the access count is reset to 1, the node is
linked after `ghostHead_` and recorded in `ghostCache_`. -/
def addToGhost (s : ArcLruPart K V) (node : ArcNode K V) : ArcLruPart K V :=
  let node1 := { node with accessCount := 1 }
  { s with ghostList := node1.key :: s.ghostList,
           ghostCache := mapAssign s.ghostCache node1.key node1 }

/-- The member `evictLeastRecent()`: the node before `mainTail_` leaves the main
list for the ghost list.  The record of the node is the one `mainCache_` owns
under its key; for a linked key the map does not own (no reachable state has
one) the model leaves the state as it is. -/
def evictLeastRecent (s : ArcLruPart K V) : ArcLruPart K V :=
  match s.mainList.getLast? with
  | none => s
  | some leastRecent =>
    match s.mainCache.lookup leastRecent with
    | none => s
    | some node =>
      let s1 := { s with mainList := s.mainList.dropLast }
      let s2 := if s1.ghostCache.length ≥ s1.ghostCapacity then removeOldestGhost s1 else s1
      let s3 := addToGhost s2 node
      { s3 with mainCache := mapErase s3.mainCache node.key }

/-- The member `addNewNode(key, value)`. -/
def addNewNode (s : ArcLruPart K V) (key : K) (value : V) : Bool × ArcLruPart K V :=
  let s1 := if s.mainCache.length ≥ s.capacity then evictLeastRecent s else s
  let s2 := { s1 with mainCache := mapAssign s1.mainCache key (ArcNode.mk1 key value) }
  (true, addToFront s2 key)

/-- The member `put(key, value)`. -/
def put (s : ArcLruPart K V) (key : K) (value : V) : Bool × ArcLruPart K V :=
  if s.capacity = 0 then (false, s)
  else
    match s.mainCache.lookup key with
    | some _ => updateExistingNode s key value
    | none => addNewNode s key value

/-- The member `updateNodeAccess(node)`. -/
def updateNodeAccess (s : ArcLruPart K V) (node : ArcNode K V) : Bool × ArcLruPart K V :=
  let s1 := moveToFront s node.key
  let s2 := { s1 with mainCache := mapUpdate s1.mainCache node.key ArcNode.incrementAccessCount }
  (decide (node.incrementAccessCount.accessCount ≥ s.transformThreshold), s2)

/-- The member `get(key, value&, shouldTransform&)`: `some (v, t)` stands for
`true` with `v` and `t` written to the two out-parameters, `none` for `false`
(both left as they were). -/
def get (s : ArcLruPart K V) (key : K) : Option (V × Bool) × ArcLruPart K V :=
  match s.mainCache.lookup key with
  | some node =>
    let r := updateNodeAccess s node
    (some (node.value, r.1), r.2)
  | none => (none, s)

/-- The member `checkGhost(key)`: a ghost entry for `key` is unlinked and erased.
The node `ghostCache_` holds for a key is the one ghosted last, the first with
that key from `ghostHead_`. -/
def checkGhost (s : ArcLruPart K V) (key : K) : Bool × ArcLruPart K V :=
  match s.ghostCache.lookup key with
  | some _ =>
    (true, { s with ghostList := s.ghostList.erase key, ghostCache := mapErase s.ghostCache key })
  | none => (false, s)

/-- The member `increaseCapacity()`. -/
def increaseCapacity (s : ArcLruPart K V) : ArcLruPart K V :=
  { s with capacity := s.capacity + 1 }

/-- The member `decreaseCapacity()`. -/
def decreaseCapacity (s : ArcLruPart K V) : Bool × ArcLruPart K V :=
  if s.capacity ≤ 0 then (false, s)
  else
    let s1 := if s.mainCache.length = s.capacity then evictLeastRecent s else s
    (true, { s1 with capacity := s1.capacity - 1 })

end ArcLruPart

/-- The key `begin()->first` of a non-empty `std::map`: its least key. -/
def leastKey {B : Type} (m : List (Nat × B)) : Option Nat :=
  match m with
  | [] => none
  | e :: rest => some (rest.foldl (fun acc x => min acc x.1) e.1)

/-- The state of `ArcLfuPart<Key, Value>`.  `freqMap` holds, for each frequency,
the keys of the nodes of the `std::list`, front first; `ghostList` runs from
`ghostHead_` to `ghostTail_` (oldest first). -/
structure ArcLfuPart (K V : Type) where
  capacity : Nat
  ghostCapacity : Nat
  transformThreshold : Nat
  minFreq : Nat
  mainCache : List (K × ArcNode K V)
  ghostCache : List (K × ArcNode K V)
  freqMap : List (Nat × List K)
  ghostList : List K
  deriving DecidableEq, Repr

namespace ArcLfuPart

variable {K V : Type} [DecidableEq K]

/-- The constructor `ArcLfuPart(capacity, transformThreshold)`. -/
def new (capacity transformThreshold : Nat) : ArcLfuPart K V :=
  { capacity := capacity, ghostCapacity := capacity, transformThreshold := transformThreshold,
    minFreq := 0, mainCache := [], ghostCache := [], freqMap := [], ghostList := [] }

/-- The statements `if (freqMap_.find(f) == freqMap_.end()) freqMap_[f] = {};
freqMap_[f].push_back(node);`. -/
def pushBack (m : List (Nat × List K)) (f : Nat) (node : K) : List (Nat × List K) :=
  mapAssign m f (((m.lookup f).getD []) ++ [node])

/-- The member `updateNodeFrequency(node)`: `freqMap_[oldFreq]` is the list of
the old frequency (created empty when there is none); the node is removed from
it, and an empty list is erased from the map. -/
def updateNodeFrequency (s : ArcLfuPart K V) (node : ArcNode K V) : ArcLfuPart K V :=
  let oldFreq := node.accessCount
  let newFreq := node.incrementAccessCount.accessCount
  let s1 := { s with mainCache := mapUpdate s.mainCache node.key ArcNode.incrementAccessCount }
  let oldList := ((s1.freqMap.lookup oldFreq).getD []).filter (fun x => decide (x ≠ node.key))
  let s2 :=
    if oldList.isEmpty then
      { s1 with freqMap := mapErase s1.freqMap oldFreq,
                minFreq := if oldFreq = s1.minFreq then newFreq else s1.minFreq }
    else { s1 with freqMap := mapAssign s1.freqMap oldFreq oldList }
  { s2 with freqMap := pushBack s2.freqMap newFreq node.key }

/-- The member `updateExistingNode(node, value)`. -/
def updateExistingNode (s : ArcLfuPart K V) (node : ArcNode K V) (value : V) :
    Bool × ArcLfuPart K V :=
  let s1 := { s with mainCache := mapUpdate s.mainCache node.key (fun n => { n with value := value }) }
  (true, updateNodeFrequency s1 { node with value := value })

/-- The member `removeOldestGhost()`: the node after `ghostHead_` is unlinked and
its key erased from `ghostCache_`. -/
def removeOldestGhost (s : ArcLfuPart K V) : ArcLfuPart K V :=
  match s.ghostList with
  | [] => s
  | oldestGhost :: rest => { s with ghostList := rest, ghostCache := mapErase s.ghostCache oldestGhost }

/-- The member `addToGhost(node)`: the node is linked before `ghostTail_` and
recorded in `ghostCache_`. -/
def addToGhost (s : ArcLfuPart K V) (node : ArcNode K V) : ArcLfuPart K V :=
  { s with ghostList := s.ghostList ++ [node.key],
           ghostCache := mapAssign s.ghostCache node.key node }

/-- The member `evictLeastFrequent()`.  `freqMap_[minFreq_]` creates an empty
list when the map has none for `minFreq_`, and the function returns with that
list in place.  The record of the evicted node is the one `mainCache_` owns under
its key; for a listed key the map does not own (no reachable state has one) the
model leaves the state as it is. -/
def evictLeastFrequent (s : ArcLfuPart K V) : ArcLfuPart K V :=
  if s.freqMap.isEmpty then s
  else
    match (s.freqMap.lookup s.minFreq).getD [] with
    | [] => { s with freqMap := mapAssign s.freqMap s.minFreq [] }
    | leastNode :: minFreqList =>
      match s.mainCache.lookup leastNode with
      | none => s
      | some node =>
        let s1 :=
          if minFreqList.isEmpty then
            let m := mapErase s.freqMap s.minFreq
            { s with freqMap := m, minFreq := (leastKey m).getD s.minFreq }
          else { s with freqMap := mapAssign s.freqMap s.minFreq minFreqList }
        let s2 := if s1.ghostCache.length ≥ s1.ghostCapacity then removeOldestGhost s1 else s1
        let s3 := addToGhost s2 node
        { s3 with mainCache := mapErase s3.mainCache node.key }

/-- The member `addNewNode(key, value)`. -/
def addNewNode (s : ArcLfuPart K V) (key : K) (value : V) : Bool × ArcLfuPart K V :=
  let s1 := if s.mainCache.length ≥ s.capacity then evictLeastFrequent s else s
  let s2 := { s1 with mainCache := mapAssign s1.mainCache key (ArcNode.mk1 key value) }
  (true, { s2 with freqMap := pushBack s2.freqMap 1 key, minFreq := 1 })

/-- The member `put(key, value)`. -/
def put (s : ArcLfuPart K V) (key : K) (value : V) : Bool × ArcLfuPart K V :=
  if s.capacity = 0 then (false, s)
  else
    match s.mainCache.lookup key with
    | some node => updateExistingNode s node value
    | none => addNewNode s key value

/-- The member `get(key, value&)`: `some v` stands for `true` with `v` written
to the out-parameter, `none` for `false`. -/
def get (s : ArcLfuPart K V) (key : K) : Option V × ArcLfuPart K V :=
  match s.mainCache.lookup key with
  | some node => (some node.value, updateNodeFrequency s node)
  | none => (none, s)

/-- The member `checkGhost(key)`: a ghost entry for `key` is unlinked and erased.
The node `ghostCache_` holds for a key is the one ghosted last, the last with
that key from `ghostHead_`. -/
def checkGhost (s : ArcLfuPart K V) (key : K) : Bool × ArcLfuPart K V :=
  match s.ghostCache.lookup key with
  | some _ =>
    (true, { s with ghostList := (s.ghostList.reverse.erase key).reverse,
                    ghostCache := mapErase s.ghostCache key })
  | none => (false, s)

/-- The member `increaseCapacity()`. -/
def increaseCapacity (s : ArcLfuPart K V) : ArcLfuPart K V :=
  { s with capacity := s.capacity + 1 }

/-- The member `decreaseCapacity()`. -/
def decreaseCapacity (s : ArcLfuPart K V) : Bool × ArcLfuPart K V :=
  if s.capacity ≤ 0 then (false, s)
  else
    let s1 := if s.mainCache.length = s.capacity then evictLeastFrequent s else s
    (true, { s1 with capacity := s1.capacity - 1 })

end ArcLfuPart

/-- The state of `ArcCache<Key, Value>`. -/
structure ArcCache (K V : Type) where
  capacity : Nat
  transformThreshold : Nat
  lruPart : ArcLruPart K V
  lfuPart : ArcLfuPart K V
  deriving DecidableEq, Repr

namespace ArcCache

variable {K V : Type} [DecidableEq K]

/-- The constructor (spelt `KArcCache` in the source) with `capacity` and
`transformThreshold`. -/
def new (capacity transformThreshold : Nat) : ArcCache K V :=
  { capacity := capacity, transformThreshold := transformThreshold,
    lruPart := ArcLruPart.new capacity transformThreshold,
    lfuPart := ArcLfuPart.new capacity transformThreshold }

/-- The member `checkGhostCaches(key)`. -/
def checkGhostCaches (s : ArcCache K V) (key : K) : Bool × ArcCache K V :=
  let g := ArcLruPart.checkGhost s.lruPart key
  if g.1 then
    let d := ArcLfuPart.decreaseCapacity s.lfuPart
    if d.1 then (true, { s with lruPart := ArcLruPart.increaseCapacity g.2, lfuPart := d.2 })
    else (true, { s with lruPart := g.2, lfuPart := d.2 })
  else
    let g2 := ArcLfuPart.checkGhost s.lfuPart key
    if g2.1 then
      let d := ArcLruPart.decreaseCapacity g.2
      if d.1 then (true, { s with lruPart := d.2, lfuPart := ArcLfuPart.increaseCapacity g2.2 })
      else (true, { s with lruPart := d.2, lfuPart := g2.2 })
    else (false, { s with lruPart := g.2, lfuPart := g2.2 })

/-- The member `put(key, value)`. -/
def put (s : ArcCache K V) (key : K) (value : V) : ArcCache K V :=
  let c := checkGhostCaches s key
  let s1 := c.2
  if !c.1 then
    let g := ArcLruPart.get s1.lruPart key
    match g.1 with
    | some (_, shouldTransform) =>
      let p := (ArcLruPart.put g.2 key value).2
      if shouldTransform then
        { s1 with lruPart := p, lfuPart := (ArcLfuPart.put s1.lfuPart key value).2 }
      else { s1 with lruPart := p }
    | none =>
      let g2 := ArcLfuPart.get s1.lfuPart key
      match g2.1 with
      | some _ => { s1 with lruPart := g.2, lfuPart := (ArcLfuPart.put g2.2 key value).2 }
      | none => { s1 with lruPart := (ArcLruPart.put g.2 key value).2, lfuPart := g2.2 }
  else
    let g := ArcLruPart.checkGhost s1.lruPart key
    if g.1 then { s1 with lruPart := (ArcLruPart.put g.2 key value).2 }
    else { s1 with lruPart := g.2, lfuPart := (ArcLfuPart.put s1.lfuPart key value).2 }

/-- The member `bool get(key, value&)`: `some v` stands for `true` with `v`
written to the out-parameter, `none` for `false`. -/
def get (s : ArcCache K V) (key : K) : Option V × ArcCache K V :=
  let s1 := (checkGhostCaches s key).2
  let g := ArcLruPart.get s1.lruPart key
  match g.1 with
  | some (value, shouldTransform) =>
    if shouldTransform then
      (some value, { s1 with lruPart := g.2, lfuPart := (ArcLfuPart.put s1.lfuPart key value).2 })
    else (some value, { s1 with lruPart := g.2 })
  | none =>
    let g2 := ArcLfuPart.get s1.lfuPart key
    (g2.1, { s1 with lruPart := g.2, lfuPart := g2.2 })

/-- One call of the public interface. -/
inductive Op (K V : Type) where
  | put (key : K) (value : V)
  | get (key : K)
  deriving DecidableEq, Repr

/-- The state after one call. -/
def step (s : ArcCache K V) : Op K V → ArcCache K V
  | .put key value => put s key value
  | .get key => (get s key).2

/-- The state after a sequence of calls, first call first. -/
def run (s : ArcCache K V) (ops : List (Op K V)) : ArcCache K V :=
  ops.foldl step s

/-- The states reachable from the empty cache built with `capacity` and
`transformThreshold`. -/
def Reachable (capacity transformThreshold : Nat) (s : ArcCache K V) : Prop :=
  ∃ ops : List (Op K V), s = run (new capacity transformThreshold) ops

end ArcCache

end MyCache

namespace MyCache
namespace ArcCache
variable {K V : Type} [DecidableEq K]

/-- The keys resident in the recency part's main cache. -/
def recencyMain (s : ArcCache K V) : List K := s.lruPart.mainCache.map Prod.fst

/-- The keys resident in the frequency part's main cache. -/
def frequencyMain (s : ArcCache K V) : List K := s.lfuPart.mainCache.map Prod.fst

/-- The keys recorded in the recency part's ghost cache. -/
def recencyGhost (s : ArcCache K V) : List K := s.lruPart.ghostCache.map Prod.fst

/-- The keys recorded in the frequency part's ghost cache. -/
def frequencyGhost (s : ArcCache K V) : List K := s.lfuPart.ghostCache.map Prod.fst

/-- The value the recency part's main cache holds for `key`, if resident. -/
def recencyValue (s : ArcCache K V) (key : K) : Option V :=
  (s.lruPart.mainCache.lookup key).map (fun n => n.value)

/-- The value the frequency part's main cache holds for `key`, if resident. -/
def frequencyValue (s : ArcCache K V) (key : K) : Option V :=
  (s.lfuPart.mainCache.lookup key).map (fun n => n.value)

/-- The access count of `key` in the recency part's main cache, if resident. -/
def recencyCount (s : ArcCache K V) (key : K) : Option Nat :=
  (s.lruPart.mainCache.lookup key).map (fun n => n.accessCount)

/-- The call sequence of scenario 5 up to the second `put` of key 1. -/
def scenario5 : List (Op Nat Nat) :=
  [.put 1 1, .put 2 2, .put 3 3, .put 4 4, .get 1, .get 1, .put 5 5, .put 6 6, .put 7 7, .put 8 8]

end ArcCache
end MyCache

namespace MyCache
namespace ArcLruPart
variable {K V : Type} [DecidableEq K]

/-- The links and the maps of the recency part agree: the main map holds each key
once, the main list links exactly the nodes of the main map, each under its own
key, and no key of the ghost map is a key of the main map. -/
def Wf (s : ArcLruPart K V) : Prop :=
  (s.mainCache.map Prod.fst).Nodup ∧
  s.mainList.Perm (s.mainCache.map Prod.fst) ∧
  (∀ (k : K) (n : ArcNode K V), s.mainCache.lookup k = some n → n.key = k) ∧
  (∀ k : K, k ∈ s.ghostCache.map Prod.fst → k ∉ s.mainCache.map Prod.fst)

/-- The structural invariant of the recency part: well-formed, and within its
capacity. -/
def Inv (s : ArcLruPart K V) : Prop :=
  Wf s ∧ s.mainCache.length ≤ s.capacity

end ArcLruPart
end MyCache

namespace MyCache
namespace ArcLfuPart
variable {K V : Type} [DecidableEq K]

/-- The list `freqMap_` holds for the frequency `f`, empty when it holds none. -/
def bucketOf (m : List (Nat × List K)) (f : Nat) : List K := (m.lookup f).getD []

/-- The frequency index and the main map of the frequency part agree: the main
map holds each key once, each node under its own key and with an access count of
at least 1; no list of the index is empty or holds a key twice; the list of `f`
holds exactly the keys whose node has access count `f`; `minFreq_` is below every
frequency with a list, and has a list itself unless the part is empty. -/
def Wf (s : ArcLfuPart K V) : Prop :=
  (s.mainCache.map Prod.fst).Nodup ∧
  (∀ (k : K) (n : ArcNode K V), s.mainCache.lookup k = some n → n.key = k ∧ 1 ≤ n.accessCount) ∧
  (∀ (f : Nat) (l : List K), s.freqMap.lookup f = some l → l ≠ []) ∧
  (∀ f : Nat, (bucketOf s.freqMap f).Nodup) ∧
  (∀ (f : Nat) (k : K), k ∈ bucketOf s.freqMap f ↔
    ∃ n : ArcNode K V, s.mainCache.lookup k = some n ∧ n.accessCount = f) ∧
  (∀ f : Nat, bucketOf s.freqMap f ≠ [] → s.minFreq ≤ f) ∧
  (s.mainCache ≠ [] → bucketOf s.freqMap s.minFreq ≠ [])

/-- The structural invariant of the frequency part: well-formed, and within its
capacity. -/
def Inv (s : ArcLfuPart K V) : Prop :=
  Wf s ∧ s.mainCache.length ≤ s.capacity

end ArcLfuPart
end MyCache

namespace MyCache
namespace ArcCache
variable {K V : Type} [DecidableEq K]

/-- The structural invariant of `ArcCache`: the invariants of its two parts. -/
def Inv (s : ArcCache K V) : Prop :=
  ArcLruPart.Inv s.lruPart ∧ ArcLfuPart.Inv s.lfuPart

end ArcCache
end MyCache

namespace MyCache
namespace LfuBase
variable {K V : Type} [DecidableEq K]

/-- The sum of `freq` over the resident nodes, the nodes `nodeMap_` holds. -/
def totalFreq (s : LfuBase K V) : Int :=
  (s.nodeMap.map (fun e => freqAt s e.2)).sum

/-- The frequencies that are keys of the index `freqToFreqList_`. -/
def indexKeys (s : LfuBase K V) : List Int :=
  s.freqToFreqList.map Prod.fst

end LfuBase
end MyCache

namespace MyCache
namespace LfuBase
variable {K V : Type} [DecidableEq K]

/-- What the sentinels of the lists need for `kickOut` to find a node behind an
empty list: every handle of `nodeMap_` is allocated; an index that is not empty
has a list for frequency 1; and the `tail_` of every list is an allocated node
of `freq` 1 that `nodeMap_` does not hold. -/
def Sentinels (s : LfuBase K V) : Prop :=
  (∀ e ∈ s.nodeMap, e.2 < s.heap.length) ∧
  (s.freqToFreqList ≠ [] → ∃ l, s.freqToFreqList.lookup 1 = some l) ∧
  (∀ f l, s.freqToFreqList.lookup f = some l →
    (∀ e ∈ s.nodeMap, e.2 ≠ l.tail) ∧ ∃ n, s.heap[l.tail]? = some n ∧ n.freq = 1)

/-- What makes every call return: the sentinels are in place, `minFreq_` is at
least 1, and while a key is resident the index has a list for `minFreq_`. -/
def Live (s : LfuBase K V) : Prop :=
  Sentinels s ∧ 1 ≤ s.minFreq ∧
  (s.nodeMap ≠ [] → ∃ l, s.freqToFreqList.lookup s.minFreq = some l)

end LfuBase
end MyCache

/-! # Properties -/

namespace MyCache

section AssocLemmas
variable {K B : Type} [DecidableEq K]

theorem lookup_isSome_iff_mem (m : List (K × B)) (k : K) :
    (m.lookup k).isSome ↔ k ∈ m.map Prod.fst := by
  induction m with
  | nil => simp
  | cons e m ih =>
    obtain ⟨a, b⟩ := e
    by_cases h : k = a
    · subst h; simp
    · have h2 : (k == a) = false := by simpa using h
      simp [List.lookup_cons, h2, ih, h]

theorem lookup_eq_none_iff_not_mem (m : List (K × B)) (k : K) :
    m.lookup k = none ↔ k ∉ m.map Prod.fst := by
  rw [← lookup_isSome_iff_mem]
  cases m.lookup k <;> simp

theorem keys_mapErase (m : List (K × B)) (k : K) :
    (mapErase m k).map Prod.fst = (m.map Prod.fst).filter (fun x => decide (x ≠ k)) := by
  induction m with
  | nil => rfl
  | cons e m ih =>
    unfold mapErase at ih ⊢
    by_cases h : e.1 = k <;> simpa [List.filter_cons, h] using ih

theorem lookup_mapErase_self (m : List (K × B)) (k : K) :
    (mapErase m k).lookup k = none := by
  rw [lookup_eq_none_iff_not_mem, keys_mapErase]
  simp

theorem lookup_mapErase_ne (m : List (K × B)) {k k2 : K} (h : k2 ≠ k) :
    (mapErase m k).lookup k2 = m.lookup k2 := by
  induction m with
  | nil => rfl
  | cons e m ih =>
    obtain ⟨a, b⟩ := e
    unfold mapErase at ih ⊢
    by_cases h1 : a = k
    · subst h1
      have h2 : (k2 == a) = false := by simpa using h
      simpa [List.filter_cons, List.lookup_cons, h2] using ih
    · by_cases h3 : k2 = a
      · subst h3; simp [List.filter_cons, h1]
      · have h2 : (k2 == a) = false := by simpa using h3
        simpa [List.filter_cons, List.lookup_cons, h2, h1] using ih

theorem lookup_map_update (m : List (K × B)) (k k2 : K) (f : B → B) :
    (m.map (fun e => if e.1 = k then (e.1, f e.2) else e)).lookup k2
      = if k2 = k then (m.lookup k2).map f else m.lookup k2 := by
  induction m with
  | nil => simp
  | cons e m ih =>
    obtain ⟨a, b⟩ := e
    by_cases h1 : k2 = a
    · subst h1
      by_cases h2 : k2 = k
      · simp [h2]
      · simp [h2]
    · have h2 : (k2 == a) = false := by simpa using h1
      by_cases h3 : a = k
      · subst h3; simp [List.lookup_cons, h2, ih]
      · simp [List.lookup_cons, h2, h3, ih]

theorem keys_map_update (m : List (K × B)) (k : K) (f : B → B) :
    (m.map (fun e => if e.1 = k then (e.1, f e.2) else e)).map Prod.fst = m.map Prod.fst := by
  induction m with
  | nil => rfl
  | cons e m ih =>
    by_cases h : e.1 = k <;> simp_all

theorem lookup_mapAssign_self (m : List (K × B)) (k : K) (b : B) :
    (mapAssign m k b).lookup k = some b := by
  unfold mapAssign
  cases h : m.lookup k with
  | none => simp [List.lookup_append, h]
  | some x =>
    have := lookup_map_update m k k (fun _ => b)
    simp only [if_true] at this
    simp [this, h]

theorem lookup_mapAssign_ne (m : List (K × B)) {k k2 : K} (b : B) (h : k2 ≠ k) :
    (mapAssign m k b).lookup k2 = m.lookup k2 := by
  unfold mapAssign
  cases h1 : m.lookup k with
  | none =>
    have h2 : (k2 == k) = false := by simpa using h
    simp [List.lookup_append, List.lookup_cons, h2]
  | some x =>
    have := lookup_map_update m k k2 (fun _ => b)
    simp only [h, if_false] at this
    simp [this]

theorem keys_mapAssign_of_none (m : List (K × B)) (k : K) (b : B) (h : m.lookup k = none) :
    (mapAssign m k b).map Prod.fst = m.map Prod.fst ++ [k] := by
  simp [mapAssign, h]

theorem keys_mapAssign_of_some (m : List (K × B)) (k : K) (b x : B) (h : m.lookup k = some x) :
    (mapAssign m k b).map Prod.fst = m.map Prod.fst := by
  simp only [mapAssign, h]
  exact keys_map_update m k (fun _ => b)

end AssocLemmas
end MyCache

namespace MyCache
namespace LruBase
variable {K V : Type} [DecidableEq K]

theorem filter_ne_eq_erase {l : List K} (h : l.Nodup) (k : K) :
    l.filter (fun x => decide (x ≠ k)) = l.erase k := by
  rw [List.Nodup.erase_eq_filter h]
  congr 1
  funext x
  by_cases hx : x = k <;> simp [hx]

theorem lru_keys_nodup {s : LruBase K V} (h : Inv s) : (s.nodeMap.map Prod.fst).Nodup :=
  h.2.perm h.1

theorem lru_mem_chain_iff {s : LruBase K V} (h : Inv s) (k : K) :
    k ∈ s.chain ↔ k ∈ s.nodeMap.map Prod.fst := h.1.mem_iff

theorem lru_size_eq {s : LruBase K V} (h : Inv s) : s.chain.length = s.nodeMap.length := by
  simpa using h.1.length_eq

theorem lru_inv_new (cap : Int) : Inv (new cap : LruBase K V) := by
  simp [Inv, new]

theorem lru_inv_moveToMostRecent {s : LruBase K V} (h : Inv s) {k : K}
    (hk : k ∈ s.nodeMap.map Prod.fst) : Inv (moveToMostRecent s k) := by
  have hc : k ∈ s.chain := (lru_mem_chain_iff h k).2 hk
  have hp : (s.chain.erase k ++ [k]).Perm s.chain :=
    (List.perm_append_singleton k _).trans (List.perm_cons_erase hc).symm
  refine ⟨?_, ?_⟩
  · simpa [moveToMostRecent, insertNode, removeNode] using hp.trans h.1
  · simpa [moveToMostRecent, insertNode, removeNode] using (hp.nodup_iff).2 h.2

theorem lru_inv_setValue {s : LruBase K V} (h : Inv s) (k : K) (v : V) : Inv (setValue s k v) := by
  unfold Inv setValue
  simp only
  rw [keys_map_update s.nodeMap k (fun n => { n with value := v })]
  exact h

theorem lru_keys_setValue (s : LruBase K V) (k : K) (v : V) :
    (setValue s k v).nodeMap.map Prod.fst = s.nodeMap.map Prod.fst := by
  unfold setValue
  simp only
  exact keys_map_update s.nodeMap k (fun n => { n with value := v })

theorem lru_inv_removeErase {s : LruBase K V} (h : Inv s) (k : K) :
    Inv { removeNode s k with nodeMap := mapErase (removeNode s k).nodeMap k } := by
  refine ⟨?_, ?_⟩
  · simp only [removeNode, keys_mapErase]
    rw [filter_ne_eq_erase (lru_keys_nodup h)]
    exact h.1.erase k
  · simpa [removeNode] using h.2.erase k

theorem lru_inv_evictLeastRecent {s : LruBase K V} (h : Inv s) : Inv (evictLeastRecent s) := by
  unfold evictLeastRecent
  split
  · exact h
  · exact lru_inv_removeErase h _

theorem lru_inv_addNewNode {s : LruBase K V} (h : Inv s) {k : K} (v : V)
    (hk : s.nodeMap.lookup k = none) : Inv (addNewNode s k v) := by
  unfold addNewNode
  simp only
  have key : ∀ s1 : LruBase K V, Inv s1 → s1.nodeMap.lookup k = none →
      Inv { insertNode s1 k with
        nodeMap := mapAssign (insertNode s1 k).nodeMap k (LruNode.mk1 k v) } := by
    intro s1 h1 hk1
    have hnot : k ∉ s1.nodeMap.map Prod.fst := (lookup_eq_none_iff_not_mem _ _).1 hk1
    have hnc : k ∉ s1.chain := fun hc => hnot ((lru_mem_chain_iff h1 k).1 hc)
    refine ⟨?_, ?_⟩
    · simp only [insertNode]
      rw [keys_mapAssign_of_none _ _ _ hk1]
      exact h1.1.append_right [k]
    · simp only [insertNode]
      exact List.nodup_append.2 ⟨h1.2, by simp, by simpa using hnc⟩
  split
  · apply key _ (lru_inv_evictLeastRecent h)
    unfold evictLeastRecent
    split
    · exact hk
    · simp only [removeNode]
      rw [lookup_eq_none_iff_not_mem, keys_mapErase]
      intro hmem
      exact (lookup_eq_none_iff_not_mem _ _).1 hk (List.mem_filter.1 hmem).1
  · exact key s h hk

theorem lru_inv_put {s : LruBase K V} (h : Inv s) (k : K) (v : V) : Inv (put s k v) := by
  unfold put
  split
  · exact h
  · split
    · rename_i node hl
      unfold updateExistingNode
      apply lru_inv_moveToMostRecent (lru_inv_setValue h k v)
      rw [lru_keys_setValue]
      exact (lookup_isSome_iff_mem _ _).1 (by simp [hl])
    · rename_i hl
      exact lru_inv_addNewNode h v hl

theorem lru_inv_get {s : LruBase K V} (h : Inv s) (k : K) : Inv (get s k).2 := by
  unfold get
  split
  · rename_i node hl
    exact lru_inv_moveToMostRecent h ((lookup_isSome_iff_mem _ _).1 (by simp [hl]))
  · exact h

theorem lru_inv_remove {s : LruBase K V} (h : Inv s) (k : K) : Inv (remove s k) := by
  unfold remove
  split
  · exact lru_inv_removeErase h k
  · exact h

theorem lru_inv_step {s : LruBase K V} (h : Inv s) (op : Op K V) : Inv (step s op) := by
  cases op with
  | put k v => exact lru_inv_put h k v
  | get k => exact lru_inv_get h k
  | remove k => exact lru_inv_remove h k

theorem lru_inv_run {s : LruBase K V} (h : Inv s) (ops : List (Op K V)) : Inv (run s ops) := by
  induction ops generalizing s with
  | nil => exact h
  | cons op ops ih => exact ih (lru_inv_step h op)

theorem lru_reachable_inv {cap : Int} {s : LruBase K V} (h : Reachable cap s) : Inv s := by
  obtain ⟨ops, rfl⟩ := h
  exact lru_inv_run (lru_inv_new cap) ops

end LruBase
end MyCache

namespace MyCache
namespace LruBase
variable {K V : Type} [DecidableEq K]

theorem length_mapErase_le {B : Type} (m : List (K × B)) (k : K) :
    (mapErase m k).length ≤ m.length := by
  unfold mapErase
  exact List.length_filter_le _ _

theorem length_mapErase_of_mem {B : Type} (m : List (K × B)) (k : K)
    (hnd : (m.map Prod.fst).Nodup) (hk : k ∈ m.map Prod.fst) :
    (mapErase m k).length + 1 = m.length := by
  have h1 : (mapErase m k).length = ((mapErase m k).map Prod.fst).length := by simp
  rw [h1, keys_mapErase, filter_ne_eq_erase hnd, List.length_erase_of_mem hk]
  have : 0 < (m.map Prod.fst).length := List.length_pos_of_mem hk
  simp at this ⊢
  omega

theorem lru_capacity_put (s : LruBase K V) (k : K) (v : V) : (put s k v).capacity = s.capacity := by
  unfold put updateExistingNode addNewNode moveToMostRecent insertNode removeNode setValue
    evictLeastRecent
  simp only
  split
  · rfl
  · split
    · rfl
    · split
      · split <;> rfl
      · rfl

theorem lru_capacity_get (s : LruBase K V) (k : K) : (get s k).2.capacity = s.capacity := by
  unfold get moveToMostRecent insertNode removeNode
  split <;> rfl

theorem lru_capacity_remove (s : LruBase K V) (k : K) : (remove s k).capacity = s.capacity := by
  unfold remove removeNode
  split <;> rfl

theorem lru_capacity_step (s : LruBase K V) (op : Op K V) : (step s op).capacity = s.capacity := by
  cases op with
  | put k v => exact lru_capacity_put s k v
  | get k => exact lru_capacity_get s k
  | remove k => exact lru_capacity_remove s k

theorem lru_capacity_run (s : LruBase K V) (ops : List (Op K V)) :
    (run s ops).capacity = s.capacity := by
  induction ops generalizing s with
  | nil => rfl
  | cons op ops ih =>
    show (run (step s op) ops).capacity = s.capacity
    rw [ih, lru_capacity_step]

theorem lru_size_evictLeastRecent {s : LruBase K V} (h : Inv s) (hpos : 0 < s.nodeMap.length) :
    (evictLeastRecent s).nodeMap.length + 1 = s.nodeMap.length := by
  unfold evictLeastRecent
  split
  · rename_i hc
    have := lru_size_eq h
    rw [hc] at this
    simp at this
    omega
  · rename_i k rest hc
    simp only [removeNode]
    apply length_mapErase_of_mem _ _ (lru_keys_nodup h)
    apply (lru_mem_chain_iff h k).1
    rw [hc]
    exact List.mem_cons_self _ _

theorem lru_size_addNewNode {s : LruBase K V} (h : Inv s) {k : K} (v : V)
    (hk : s.nodeMap.lookup k = none) (hcap : 0 < s.capacity)
    (hb : (s.nodeMap.length : Int) ≤ s.capacity) :
    ((addNewNode s k v).nodeMap.length : Int) ≤ s.capacity := by
  unfold addNewNode
  simp only
  split
  · rename_i hge
    have hpos : 0 < s.nodeMap.length := by omega
    have h1 := lru_size_evictLeastRecent h hpos
    have hk1 : (evictLeastRecent s).nodeMap.lookup k = none := by
      unfold evictLeastRecent
      split
      · exact hk
      · simp only [removeNode]
        rw [lookup_eq_none_iff_not_mem, keys_mapErase]
        intro hmem
        exact (lookup_eq_none_iff_not_mem _ _).1 hk (List.mem_filter.1 hmem).1
    simp only [insertNode, mapAssign, hk1, List.length_append, List.length_singleton]
    omega
  · rename_i hlt
    simp only [insertNode, mapAssign, hk, List.length_append, List.length_singleton]
    push_cast
    omega

theorem lru_size_put {s : LruBase K V} (h : Inv s) (k : K) (v : V)
    (hb : (s.nodeMap.length : Int) ≤ s.capacity) :
    ((put s k v).nodeMap.length : Int) ≤ s.capacity := by
  unfold put
  split
  · exact hb
  · rename_i hcap
    split
    · simpa [updateExistingNode, moveToMostRecent, insertNode, removeNode, setValue] using hb
    · rename_i hl
      exact lru_size_addNewNode h v hl (by omega) hb

theorem lru_size_step {s : LruBase K V} (h : Inv s) (op : Op K V)
    (hb : (s.nodeMap.length : Int) ≤ s.capacity) :
    ((step s op).nodeMap.length : Int) ≤ s.capacity := by
  cases op with
  | put k v => exact lru_size_put h k v hb
  | get k =>
    show (((get s k).2).nodeMap.length : Int) ≤ s.capacity
    unfold get moveToMostRecent insertNode removeNode
    split <;> exact hb
  | remove k =>
    show ((remove s k).nodeMap.length : Int) ≤ s.capacity
    unfold remove removeNode
    split
    · have := length_mapErase_le s.nodeMap k
      simp only
      omega
    · exact hb

theorem lru_size_run {s : LruBase K V} (h : Inv s) (ops : List (Op K V))
    (hb : (s.nodeMap.length : Int) ≤ s.capacity) :
    ((run s ops).nodeMap.length : Int) ≤ s.capacity := by
  induction ops generalizing s with
  | nil => exact hb
  | cons op ops ih =>
    show ((run (step s op) ops).nodeMap.length : Int) ≤ s.capacity
    have := ih (lru_inv_step h op) (by rw [lru_capacity_step]; exact lru_size_step h op hb)
    rwa [lru_capacity_step] at this

/-- C3 (LRU capacity bound): for a cache built with capacity `cap ≥ 0`, after
every call of any finite sequence of `put`, `get` and `remove` calls issued to the
empty cache (that is, after every prefix `ops.take n` of the sequence) the number
of resident keys is at most `cap`. -/
theorem lru_capacity_bound (cap : Int) (hcap : 0 ≤ cap) (ops : List (Op K V)) (n : Nat) :
    ((size (run (new cap) (ops.take n)) : Nat) : Int) ≤ cap := by
  have := lru_size_run (lru_inv_new cap) (ops.take n) (s := (new cap : LruBase K V))
    (by simpa [new] using hcap)
  simpa [size, new] using this

theorem lru_capacity_bound_witness :
    (0 : Int) ≤ 2 ∧
      ((size (run (new 2 : LruBase Nat Nat)
        ([Op.put 1 10, Op.put 2 20, Op.put 3 30, Op.get 1, Op.remove 2].take 3)) : Nat) : Int) ≤ 2 :=
  ⟨by decide, lru_capacity_bound 2 (by decide) _ 3⟩

end LruBase
end MyCache

namespace MyCache
namespace LruBase
variable {K V : Type} [DecidableEq K]

theorem lru_get_fst (s : LruBase K V) (k : K) : (get s k).1 = valueOf s k := by
  unfold get valueOf
  split
  · rename_i node hl
    simp [hl]
  · rename_i hl
    simp [hl]

theorem lru_nodeMap_get (s : LruBase K V) (k : K) : (get s k).2.nodeMap = s.nodeMap := by
  unfold get moveToMostRecent insertNode removeNode
  split <;> rfl

theorem lru_nodeMap_run_gets (s : LruBase K V) (gets : List K) :
    (run s (gets.map Op.get)).nodeMap = s.nodeMap := by
  induction gets generalizing s with
  | nil => rfl
  | cons g gets ih =>
    show (run (get s g).2 (gets.map Op.get)).nodeMap = s.nodeMap
    rw [ih, lru_nodeMap_get]

theorem lru_valueOf_run_gets (s : LruBase K V) (gets : List K) (k : K) :
    valueOf (run s (gets.map Op.get)) k = valueOf s k := by
  unfold valueOf
  rw [lru_nodeMap_run_gets]

theorem lru_valueOf_put_self (s : LruBase K V) (k : K) (v : V) (hcap : 0 < s.capacity) :
    valueOf (put s k v) k = some v := by
  unfold valueOf put
  rw [if_neg (by omega)]
  split
  · rename_i node hl
    simp only [updateExistingNode, moveToMostRecent, insertNode, removeNode, setValue]
    rw [lookup_map_update s.nodeMap k k (fun n => { n with value := v })]
    simp [hl]
  · simp only [addNewNode]
    rw [lookup_mapAssign_self]
    rfl

theorem lru_run_append (s : LruBase K V) (a b : List (Op K V)) :
    run s (a ++ b) = run (run s a) b := by
  simp [run, List.foldl_append]

theorem lru_lookup_ofList_none (c : Int) (l : List (K × V)) (k : K)
    (hk : k ∉ l.map Prod.fst) : (ofList c l).nodeMap.lookup k = none := by
  rw [lookup_eq_none_iff_not_mem]
  simpa [ofList, List.map_map, Function.comp_def] using hk

theorem lru_put_ofList_lt (c : Int) (l : List (K × V)) (k : K) (v : V) (hc : 0 < c)
    (hk : k ∉ l.map Prod.fst) (hlen : (l.length : Int) < c) :
    put (ofList c l) k v = ofList c (l ++ [(k, v)]) := by
  have hl := lru_lookup_ofList_none c l k hk
  unfold put
  rw [if_neg (by simp [ofList]; omega)]
  rw [hl]
  simp only [addNewNode]
  rw [if_neg (by simp [ofList]; omega)]
  simp only [insertNode, mapAssign, hl]
  simp [ofList]

theorem lru_evict_ofList (c : Int) (kv : K × V) (rest : List (K × V))
    (hnd : ((kv :: rest).map Prod.fst).Nodup) :
    evictLeastRecent (ofList c (kv :: rest)) = ofList c rest := by
  have hnot : kv.1 ∉ rest.map Prod.fst := (List.nodup_cons.1 hnd).1
  unfold evictLeastRecent
  simp only [ofList, List.map_cons, removeNode, List.erase_cons_head, mapErase]
  congr 1
  rw [List.filter_cons]
  simp only [ne_eq, not_true_eq_false, decide_False, Bool.false_eq_true, if_false]
  rw [List.filter_eq_self]
  intro e he
  obtain ⟨x, hx, rfl⟩ := List.mem_map.1 he
  simp only [decide_eq_true_eq]
  intro hxe
  exact hnot (List.mem_map.2 ⟨x, hx, hxe⟩)

theorem lru_put_ofList_full (c : Int) (kv : K × V) (rest : List (K × V)) (k : K) (v : V)
    (hc : 0 < c) (hnd : ((kv :: rest).map Prod.fst).Nodup)
    (hk : k ∉ (kv :: rest).map Prod.fst) (hlen : ((kv :: rest).length : Int) = c) :
    put (ofList c (kv :: rest)) k v = ofList c (rest ++ [(k, v)]) := by
  have hl := lru_lookup_ofList_none c (kv :: rest) k hk
  have hl2 := lru_lookup_ofList_none c rest k (fun h => hk (by simp at h ⊢; exact Or.inr h))
  unfold put
  rw [if_neg (by simp [ofList]; omega)]
  rw [hl]
  simp only [addNewNode]
  rw [if_pos (by simp [ofList] at hlen ⊢; omega)]
  rw [lru_evict_ofList c kv rest hnd]
  simp only [insertNode, mapAssign, hl2]
  simp [ofList]

theorem lru_run_puts (c : Int) (hc : 0 < c) (l : List (K × V))
    (hnd : (l.map Prod.fst).Nodup) (hlen : (l.length : Int) ≤ c) :
    run (new c) (l.map (fun kv => Op.put kv.1 kv.2)) = ofList c l := by
  induction l using List.reverseRecOn with
  | nil => rfl
  | append_singleton l kv ih =>
    rw [List.map_append, lru_run_append]
    rw [List.map_append] at hnd
    have hnd1 := (List.nodup_append.1 hnd)
    have hl : (l.length : Int) < c := by
      simp at hlen; omega
    rw [ih hnd1.1 (by omega)]
    show put (ofList c l) kv.1 kv.2 = _
    apply lru_put_ofList_lt c l kv.1 kv.2 hc _ hl
    intro hmem
    exact hnd1.2.2 hmem (by simp)

theorem lru_valueOf_ofList (c : Int) (l : List (K × V)) (hnd : (l.map Prod.fst).Nodup)
    (kv : K × V) (hkv : kv ∈ l) : valueOf (ofList c l) kv.1 = some kv.2 := by
  induction l with
  | nil => simp at hkv
  | cons e l ih =>
    rw [List.map_cons, List.nodup_cons] at hnd
    rcases List.mem_cons.1 hkv with h | h
    · subst h
      simp [valueOf, ofList, LruNode.mk1]
    · have hne : kv.1 ≠ e.1 := by
        intro heq
        exact hnd.1 (heq ▸ List.mem_map.2 ⟨kv, h, rfl⟩)
      have hb : (kv.1 == e.1) = false := by simpa using hne
      have := ih hnd.2 h
      simpa [valueOf, ofList, List.lookup_cons, hb] using this

/-- C1 (LRU recency law): let `n ≥ 1` and let `(k1, v1) :: rest` be `n + 1` pairs
with pairwise distinct keys.  Put them, in this order, into the empty cache of
capacity `n`; whatever `get` calls follow, a `get` of `k1` returns false and a
`get` of any other key of the list returns true with the value put for it. -/
theorem lru_recency_law (n : Nat) (hn : 1 ≤ n) (k1 : K) (v1 : V) (rest : List (K × V))
    (hlen : rest.length = n) (hnd : (((k1, v1) :: rest).map Prod.fst).Nodup)
    (gets : List K) :
    (get (run (new (n : Int))
        (((k1, v1) :: rest).map (fun kv => Op.put kv.1 kv.2) ++ gets.map Op.get)) k1).1 = none ∧
    ∀ kv ∈ rest,
      (get (run (new (n : Int))
        (((k1, v1) :: rest).map (fun kv => Op.put kv.1 kv.2) ++ gets.map Op.get)) kv.1).1
        = some kv.2 := by
  have hc : (0 : Int) < n := by omega
  -- the state after the `n + 1` puts
  have hstate : run (new (n : Int)) (((k1, v1) :: rest).map (fun kv => Op.put kv.1 kv.2))
      = (ofList n rest : LruBase K V) := by
    induction rest using List.reverseRecOn with
    | nil => simp at hlen; omega
    | append_singleton front last _ =>
      rw [← List.cons_append, List.map_append, lru_run_append]
      rw [← List.cons_append, List.map_append] at hnd
      have hnd1 := List.nodup_append.1 hnd
      simp only [List.length_append, List.length_singleton] at hlen
      rw [lru_run_puts n hc _ hnd1.1 (by simp; omega)]
      show put (ofList n ((k1, v1) :: front)) last.1 last.2 = _
      apply lru_put_ofList_full n (k1, v1) front last.1 last.2 hc hnd1.1
      · intro hmem
        exact hnd1.2.2 hmem (by simp)
      · simp; omega
  have hrnd : (rest.map Prod.fst).Nodup := (List.nodup_cons.1 hnd).2
  have hk1 : k1 ∉ rest.map Prod.fst := (List.nodup_cons.1 hnd).1
  rw [lru_run_append, hstate]
  refine ⟨?_, ?_⟩
  · rw [lru_get_fst, lru_valueOf_run_gets]
    unfold valueOf
    rw [lru_lookup_ofList_none n rest k1 hk1]
    rfl
  · intro kv hkv
    rw [lru_get_fst, lru_valueOf_run_gets]
    exact lru_valueOf_ofList n rest hrnd kv hkv

theorem lru_recency_law_witness :
    (1 ≤ 2 ∧ [((2 : Nat), (20 : Nat)), (3, 30)].length = 2 ∧
      (([((1 : Nat), (10 : Nat)), (2, 20), (3, 30)]).map Prod.fst).Nodup) ∧
    ((get (run (new ((2 : Nat) : Int))
        (((1, 10) :: [((2 : Nat), (20 : Nat)), (3, 30)]).map (fun kv => Op.put kv.1 kv.2)
          ++ [3, 1].map Op.get)) 1).1 = none ∧
    ∀ kv ∈ [((2 : Nat), (20 : Nat)), (3, 30)],
      (get (run (new ((2 : Nat) : Int))
        (((1, 10) :: [((2 : Nat), (20 : Nat)), (3, 30)]).map (fun kv => Op.put kv.1 kv.2)
          ++ [3, 1].map Op.get)) kv.1).1 = some kv.2) :=
  ⟨⟨by decide, by decide, by decide⟩,
    lru_recency_law 2 (by decide) 1 10 [(2, 20), (3, 30)] (by decide) (by decide) [3, 1]⟩

end LruBase
end MyCache

namespace MyCache
namespace LruBase
variable {K V : Type} [DecidableEq K]

theorem lru_reachable_capacity {cap : Int} {s : LruBase K V} (h : Reachable cap s) :
    s.capacity = cap := by
  obtain ⟨ops, rfl⟩ := h
  rw [lru_capacity_run]
  rfl

theorem lru_get_run_puts_self (s : LruBase K V) (k : K) (v : V) (hcap : 0 < s.capacity)
    (N : Nat) :
    (get (run (put s k v) (List.replicate N (Op.put k v))) k).1 = some v := by
  induction N generalizing s with
  | zero =>
    rw [lru_get_fst]
    exact lru_valueOf_put_self s k v hcap
  | succ N ih =>
    show (get (run (put (put s k v) k v) (List.replicate N (Op.put k v))) k).1 = some v
    exact ih (put s k v) (by rw [lru_capacity_put]; exact hcap)

/-- C2 (LRU overwrite idempotence): in a cache of capacity `cap ≥ 1`, from any
state reachable from the empty cache by `put`, `get` and `remove`, after
`put(k, v)` followed by `N` further `put(k, v)` calls, `get(k)` returns true
with value `v`. -/
theorem lru_overwrite_idempotence (cap : Int) (hcap : 1 ≤ cap) (s : LruBase K V)
    (hs : Reachable cap s) (k : K) (v : V) (N : Nat) :
    (get (run (put s k v) (List.replicate N (Op.put k v))) k).1 = some v :=
  lru_get_run_puts_self s k v (by rw [lru_reachable_capacity hs]; omega) N

theorem lru_overwrite_idempotence_witness :
    ((1 : Int) ≤ 2 ∧
      Reachable 2 (run (new 2 : LruBase Nat Nat) [Op.put 1 10, Op.put 2 20, Op.get 1, Op.remove 2])) ∧
    (get (run (put (run (new 2 : LruBase Nat Nat)
        [Op.put 1 10, Op.put 2 20, Op.get 1, Op.remove 2]) 5 50)
        (List.replicate 3 (Op.put 5 50))) 5).1 = some 50 :=
  ⟨⟨by decide, ⟨_, rfl⟩⟩,
    lru_overwrite_idempotence 2 (by decide) _ ⟨_, rfl⟩ 5 50 3⟩

theorem filter_ne_erase (l : List K) (k : K) :
    (l.erase k).filter (fun x => decide (x ≠ k)) = l.filter (fun x => decide (x ≠ k)) := by
  induction l with
  | nil => rfl
  | cons a l ih =>
    by_cases h : a = k
    · subst h
      simp [List.filter_cons]
    · have hb : (a == k) = false := by simpa using h
      rw [List.erase_cons, hb]
      simp only [Bool.false_eq_true, if_false, List.filter_cons, ih]

/-- C4 (LRU get postcondition): in any state reachable from the empty cache, a
`get` of a resident key `k` returns true with the stored value, leaves the
capacity and the map (the resident keys and every stored value) as they were,
and the recency order becomes `k` followed by the former order without `k`:
`k` is the most recent entry, once, and all other keys keep their relative
order.  A `get` of a key that is not resident returns false and leaves the state
unchanged. -/
theorem lru_get_postcondition (cap : Int) (s : LruBase K V) (hs : Reachable cap s) (k : K) :
    (k ∈ keys s →
      ∃ v, valueOf s k = some v ∧ (get s k).1 = some v ∧
        (get s k).2.capacity = s.capacity ∧
        (get s k).2.nodeMap = s.nodeMap ∧
        recencyOrder (get s k).2 = k :: (recencyOrder s).filter (fun x => decide (x ≠ k)) ∧
        k ∉ (recencyOrder s).filter (fun x => decide (x ≠ k))) ∧
    (k ∉ keys s → get s k = (none, s)) := by
  have hinv := lru_reachable_inv hs
  constructor
  · intro hk
    have hsome := (lookup_isSome_iff_mem s.nodeMap k).2 hk
    obtain ⟨node, hnode⟩ := Option.isSome_iff_exists.1 hsome
    refine ⟨node.value, by simp [valueOf, hnode], ?_, lru_capacity_get s k,
      lru_nodeMap_get s k, ?_, by simp⟩
    · rw [lru_get_fst]; simp [valueOf, hnode]
    · have hg : (get s k).2.chain = s.chain.erase k ++ [k] := by
        simp [get, hnode, moveToMostRecent, insertNode, removeNode]
      unfold recencyOrder
      rw [hg, List.reverse_append, List.reverse_singleton, List.singleton_append]
      congr 1
      rw [List.filter_reverse, filter_ne_eq_erase hinv.2]
  · intro hk
    have hnone := (lookup_eq_none_iff_not_mem s.nodeMap k).2 hk
    simp [get, hnone]

theorem lru_get_postcondition_witness :
    Reachable 2 (run (new 2 : LruBase Nat Nat) [Op.put 1 10, Op.put 2 20]) ∧
    ((1 ∈ keys (run (new 2 : LruBase Nat Nat) [Op.put 1 10, Op.put 2 20]) →
      ∃ v, valueOf (run (new 2 : LruBase Nat Nat) [Op.put 1 10, Op.put 2 20]) 1 = some v ∧
        (get (run (new 2 : LruBase Nat Nat) [Op.put 1 10, Op.put 2 20]) 1).1 = some v ∧
        (get (run (new 2 : LruBase Nat Nat) [Op.put 1 10, Op.put 2 20]) 1).2.capacity
          = (run (new 2 : LruBase Nat Nat) [Op.put 1 10, Op.put 2 20]).capacity ∧
        (get (run (new 2 : LruBase Nat Nat) [Op.put 1 10, Op.put 2 20]) 1).2.nodeMap
          = (run (new 2 : LruBase Nat Nat) [Op.put 1 10, Op.put 2 20]).nodeMap ∧
        recencyOrder (get (run (new 2 : LruBase Nat Nat) [Op.put 1 10, Op.put 2 20]) 1).2
          = 1 :: (recencyOrder (run (new 2 : LruBase Nat Nat) [Op.put 1 10, Op.put 2 20])).filter
              (fun x => decide (x ≠ 1)) ∧
        1 ∉ (recencyOrder (run (new 2 : LruBase Nat Nat) [Op.put 1 10, Op.put 2 20])).filter
              (fun x => decide (x ≠ 1))) ∧
    (1 ∉ keys (run (new 2 : LruBase Nat Nat) [Op.put 1 10, Op.put 2 20]) →
      get (run (new 2 : LruBase Nat Nat) [Op.put 1 10, Op.put 2 20]) 1
        = (none, run (new 2 : LruBase Nat Nat) [Op.put 1 10, Op.put 2 20]))) :=
  ⟨⟨_, rfl⟩, lru_get_postcondition 2 _ ⟨_, rfl⟩ 1⟩

/-- C5, as stated, fails: after `put(1,1), put(2,2), get(1), put(3,3), get(2)` on
the empty cache of capacity 2 the recency order, most recent first, is not `[1, 3]`. -/
theorem lru_scenario1_order_counterexample :
    ¬ ((get (put (get (put (put (new 2 : LruBase Nat Nat) 1 1) 2 2) 1).2 3 3) 2).2.recencyOrder
        = [1, 3]) := by
  decide

/-- C5, amended (LRU scenario 1): on the empty cache of capacity 2, in the trace
`put(1,1), put(2,2), get(1), put(3,3), get(2)` the call `get(1)` returns true
with value 1, the call `get(2)` returns false, and the final recency order of the
residents, most recent first, is `[3, 1]`. -/
theorem lru_scenario1 :
    (get (put (put (new 2 : LruBase Nat Nat) 1 1) 2 2) 1).1 = some 1 ∧
    (get (put (get (put (put (new 2 : LruBase Nat Nat) 1 1) 2 2) 1).2 3 3) 2).1 = none ∧
    (get (put (get (put (put (new 2 : LruBase Nat Nat) 1 1) 2 2) 1).2 3 3) 2).2.recencyOrder
      = [3, 1] := by
  decide

end LruBase
end MyCache

namespace MyCache
variable {K V : Type} [DecidableEq K]

theorem lru_put_of_capacity_nonpos (s : LruBase K V) (h : s.capacity ≤ 0) (k : K) (v : V) :
    LruBase.put s k v = s := by
  simp [LruBase.put, h]

theorem lru_run_puts_of_capacity_nonpos (s : LruBase K V) (h : s.capacity ≤ 0)
    (puts : List (K × V)) :
    LruBase.run s (puts.map (fun kv => LruBase.Op.put kv.1 kv.2)) = s := by
  induction puts with
  | nil => rfl
  | cons kv puts ih =>
    show LruBase.run (LruBase.put s kv.1 kv.2) _ = s
    rw [lru_put_of_capacity_nonpos s h]
    exact ih

theorem lfu_put_of_capacity_nonpos (env : LfuEnv K V) (s : LfuBase K V) (h : s.capacity ≤ 0)
    (k : K) (v : V) : LfuBase.put env s k v = some s := by
  simp [LfuBase.put, h]

theorem lfu_run_puts_of_capacity_nonpos (env : LfuEnv K V) (s : LfuBase K V)
    (h : s.capacity ≤ 0) (puts : List (K × V)) :
    LfuBase.run env s (puts.map (fun kv => LfuBase.Op.put kv.1 kv.2)) = some s := by
  induction puts with
  | nil => rfl
  | cons kv puts ih =>
    show (match LfuBase.put env s kv.1 kv.2 with
      | none => none
      | some s1 => LfuBase.run env s1 _) = some s
    rw [lfu_put_of_capacity_nonpos env s h]
    exact ih

/-- C6 (zero or negative capacity disables the cache): for `LruBase` and for
`LfuBase` built with capacity `cap ≤ 0`, every `put` returns with the state
unchanged, so after any sequence of puts the cache is still the empty one and
every `get` returns false. -/
theorem nonpositive_capacity_disables (cap : Int) (hcap : cap ≤ 0) :
    (∀ (s : LruBase K V), s.capacity = cap → ∀ k v, LruBase.put s k v = s) ∧
    (∀ (puts : List (K × V)) (k : K),
      LruBase.run (LruBase.new cap) (puts.map (fun kv => LruBase.Op.put kv.1 kv.2))
        = (LruBase.new cap : LruBase K V) ∧
      (LruBase.get (LruBase.run (LruBase.new cap : LruBase K V)
        (puts.map (fun kv => LruBase.Op.put kv.1 kv.2))) k).1 = none) ∧
    (∀ (env : LfuEnv K V) (s : LfuBase K V), s.capacity = cap →
      ∀ k v, LfuBase.put env s k v = some s) ∧
    (∀ (env : LfuEnv K V) (maxAvg : Int) (puts : List (K × V)) (k : K),
      LfuBase.run env (LfuBase.new cap maxAvg) (puts.map (fun kv => LfuBase.Op.put kv.1 kv.2))
        = some (LfuBase.new cap maxAvg : LfuBase K V) ∧
      LfuBase.get env (LfuBase.new cap maxAvg : LfuBase K V) k
        = some (none, LfuBase.new cap maxAvg)) := by
  refine ⟨?_, ?_, ?_, ?_⟩
  · intro s hs k v
    exact lru_put_of_capacity_nonpos s (by omega) k v
  · intro puts k
    rw [lru_run_puts_of_capacity_nonpos _ (by simpa [LruBase.new] using hcap)]
    exact ⟨rfl, rfl⟩
  · intro env s hs k v
    exact lfu_put_of_capacity_nonpos env s (by omega) k v
  · intro env maxAvg puts k
    rw [lfu_run_puts_of_capacity_nonpos _ _ (by simpa [LfuBase.new] using hcap)]
    exact ⟨rfl, rfl⟩

theorem nonpositive_capacity_disables_witness :
    ((-1 : Int) ≤ 0) ∧
    ((∀ (s : LruBase Nat Nat), s.capacity = -1 → ∀ k v, LruBase.put s k v = s) ∧
    (∀ (puts : List (Nat × Nat)) (k : Nat),
      LruBase.run (LruBase.new (-1)) (puts.map (fun kv => LruBase.Op.put kv.1 kv.2))
        = (LruBase.new (-1) : LruBase Nat Nat) ∧
      (LruBase.get (LruBase.run (LruBase.new (-1) : LruBase Nat Nat)
        (puts.map (fun kv => LruBase.Op.put kv.1 kv.2))) k).1 = none) ∧
    (∀ (env : LfuEnv Nat Nat) (s : LfuBase Nat Nat), s.capacity = -1 →
      ∀ k v, LfuBase.put env s k v = some s) ∧
    (∀ (env : LfuEnv Nat Nat) (maxAvg : Int) (puts : List (Nat × Nat)) (k : Nat),
      LfuBase.run env (LfuBase.new (-1) maxAvg)
          (puts.map (fun kv => LfuBase.Op.put kv.1 kv.2))
        = some (LfuBase.new (-1) maxAvg : LfuBase Nat Nat) ∧
      LfuBase.get env (LfuBase.new (-1) maxAvg : LfuBase Nat Nat) k
        = some (none, LfuBase.new (-1) maxAvg))) :=
  ⟨by decide, nonpositive_capacity_disables (-1) (by decide)⟩

namespace LfuBase

/-- C8, failing input: capacity 1 and `maxAverageNum = -2`.  After `put(1,1)` the
aging step has raised the node to frequency 2 while `minFreq_` is 1, so the
`kickOut` of `put(2,2)` finds the list of frequency 1 empty, takes its tail
sentinel and erases the sentinel's key: both keys are resident, 2 > capacity. -/
theorem lfu_capacity_exceeded :
    (run intEnv (new 1 (-2)) [Op.put 1 1, Op.put 2 2]).map (fun s => (s.capacity, size s))
      = some (1, 2) := by
  decide

/-- C7, failing input: capacity 1 and `maxAverageNum = -2`.  The state after
`put(1,1)` holds one resident, which is the capacity; `put(2,2)` of the
non-resident key 2 then removes no resident: keys 1 and 2 are both resident. -/
theorem lfu_eviction_skipped :
    (run intEnv (new 1 (-2)) [Op.put 1 1]).map (fun s => (s.capacity, keys s)) = some (1, [1]) ∧
    (run intEnv (new 1 (-2)) [Op.put 1 1, Op.put 2 2]).map (fun s => keys s) = some [1, 2] := by
  decide

/-- Scenario 2 of the specification (the trace quoted in C7): capacity 2,
`maxAverageNum` 10, `put(1,1), put(2,2), get(1), get(1), put(3,3)` evicts key 2;
afterwards `get(2)` is false, `get(1)` is 1 and `get(3)` is 3. -/
theorem lfu_scenario2 :
    (run intEnv (new 2 10) [Op.put 1 1, Op.put 2 2, Op.get 1, Op.get 1, Op.put 3 3]).map
        (fun s => (keys s, (get intEnv s 2).map Prod.fst, (get intEnv s 1).map Prod.fst,
          (get intEnv s 3).map Prod.fst))
      = some ([1, 3], some none, some (some 1), some (some 3)) := by
  decide

end LfuBase
end MyCache

namespace MyCache

theorem lookup_map_snd {A B : Type} [DecidableEq A] (m : List (A × B)) (g : B → B) (a : A) :
    (m.map (fun e => (e.1, g e.2))).lookup a = (m.lookup a).map g := by
  induction m with
  | nil => rfl
  | cons e m ih =>
    obtain ⟨x, y⟩ := e
    by_cases h : a = x
    · subst h; simp
    · have hb : (a == x) = false := by simpa using h
      simp [List.lookup_cons, hb, ih]

namespace LfuBase
variable {K V : Type} [DecidableEq K]

theorem lfu_lookup_removeNode (L : List (Int × FreqList)) (i : Nat) (f : Int) :
    (FreqList.removeNode L i).lookup f
      = (L.lookup f).map (fun l => { l with items := l.items.erase i }) := by
  unfold FreqList.removeNode
  exact lookup_map_snd L (fun l => { l with items := l.items.erase i }) f

/-- What `removeFromFreqList` does when the node and the list of its frequency exist. -/
theorem lfu_removeFromFreqList_eq (s : LfuBase K V) (i : Nat) (n : Node K V) (l : FreqList)
    (hn : s.heap[i]? = some n) (hl : s.freqToFreqList.lookup n.freq = some l) :
    removeFromFreqList s i
      = some { s with freqToFreqList := FreqList.removeNode s.freqToFreqList i } := by
  simp [removeFromFreqList, hn, hl]

theorem lfu_setFreq_eq (s : LfuBase K V) (i : Nat) (n : Node K V) (f : Int)
    (hn : s.heap[i]? = some n) :
    setFreq s i f = some { s with heap := s.heap.set i { n with freq := f } } := by
  simp [setFreq, hn]

/-- The outcome of `addToFreqList`: the heap grows by two sentinels when the list
is new, and the list of the node's frequency gets the node at its end. -/
theorem lfu_addToFreqList_spec (env : LfuEnv K V) (s : LfuBase K V) (i : Nat) (n : Node K V)
    (hn : s.heap[i]? = some n) :
    ∃ s1 extra, addToFreqList env s i = some s1 ∧
      s1.capacity = s.capacity ∧ s1.minFreq = s.minFreq ∧
      s1.maxAverageNum = s.maxAverageNum ∧ s1.curAverageNum = s.curAverageNum ∧
      s1.curTotalNum = s.curTotalNum ∧ s1.nodeMap = s.nodeMap ∧
      s1.heap = s.heap ++ extra ∧
      (∀ g, g ≠ n.freq → s1.freqToFreqList.lookup g = s.freqToFreqList.lookup g) ∧
      (∃ l1, s1.freqToFreqList.lookup n.freq = some l1 ∧
        l1.items = (match s.freqToFreqList.lookup n.freq with
          | some l => l.items
          | none => []) ++ [i]) := by
  unfold addToFreqList
  rw [hn]
  simp only
  cases hl : s.freqToFreqList.lookup n.freq with
  | some l =>
    simp only [Option.isNone_some, Bool.false_eq_true, if_false, hl]
    refine ⟨_, [], rfl, rfl, rfl, rfl, rfl, rfl, rfl, by simp, ?_, ?_⟩
    · intro g hg
      exact lookup_mapAssign_ne _ _ hg
    · exact ⟨_, lookup_mapAssign_self _ _ _, rfl⟩
  | none =>
    simp only [Option.isNone_none, if_true]
    have h1 : (newFreqList env s n.freq).freqToFreqList.lookup n.freq
        = some { freq := n.freq, head := s.heap.length, tail := s.heap.length + 1, items := [] } := by
      simp only [newFreqList]
      exact lookup_mapAssign_self _ _ _
    rw [h1]
    refine ⟨_, [Node.sentinel env, Node.sentinel env], rfl, rfl, rfl, rfl, rfl, rfl, rfl, rfl,
      ?_, ?_⟩
    · intro g hg
      simp only [newFreqList]
      rw [lookup_mapAssign_ne _ _ hg, lookup_mapAssign_ne _ _ hg]
    · exact ⟨_, lookup_mapAssign_self _ _ _, rfl⟩

end LfuBase
end MyCache

namespace MyCache
namespace LfuBase
variable {K V : Type} [DecidableEq K]

theorem heap_get_set_append {A : Type} (H extra : List A) (i j : Nat) (a m : A)
    (hj : H[j]? = some m) :
    (H.set i a ++ extra)[j]? = some (if j = i then a else m) := by
  have hlt : j < H.length := by
    rcases Nat.lt_or_ge j H.length with h | h
    · exact h
    · rw [List.getElem?_eq_none h] at hj; cases hj
  rw [List.getElem?_append_left (by simpa using hlt), List.getElem?_set]
  by_cases h : i = j
  · subst h; simp [hlt]
  · have h2 : ¬ j = i := fun h3 => h h3.symm
    simp [h, h2, hj]

/-- Moving a resident node to the list of a new frequency keeps the invariant:
the node is unlinked, its `freq` is set to `f2`, and `addToFreqList` links it at
the end of the list for `f2`. -/
theorem lfu_relocate (env : LfuEnv K V) (s s2 : LfuBase K V) (hinv : Inv s)
    (i : Nat) (n : Node K V) (f2 : Int) (hn : s.heap[i]? = some n)
    (hmap : s2.nodeMap = s.nodeMap)
    (hheap : s2.heap = s.heap.set i { n with freq := f2 })
    (hlists : s2.freqToFreqList = FreqList.removeNode s.freqToFreqList i) :
    ∃ s3 extra, addToFreqList env s2 i = some s3 ∧ Inv s3 ∧
      s3.capacity = s2.capacity ∧ s3.minFreq = s2.minFreq ∧
      s3.maxAverageNum = s2.maxAverageNum ∧ s3.curAverageNum = s2.curAverageNum ∧
      s3.curTotalNum = s2.curTotalNum ∧ s3.nodeMap = s.nodeMap ∧
      s3.heap = s.heap.set i { n with freq := f2 } ++ extra ∧
      (∀ g, g ≠ f2 → s3.freqToFreqList.lookup g
        = (s.freqToFreqList.lookup g).map (fun l => { l with items := l.items.erase i })) ∧
      (∃ l1, s3.freqToFreqList.lookup f2 = some l1 ∧
        l1.items = (bucket s f2).erase i ++ [i]) := by
  have hn2 : s2.heap[i]? = some { n with freq := f2 } := by
    rw [hheap, List.getElem?_set]
    have hlt : i < s.heap.length := by
      rcases Nat.lt_or_ge i s.heap.length with h | h
      · exact h
      · rw [List.getElem?_eq_none h] at hn; cases hn
    simp [hlt]
  obtain ⟨s3, extra, hadd, hcap, hmin, hmax, havg, htot, hnm, hh, hother, l1, hl1, hitems⟩ :=
    lfu_addToFreqList_spec env s2 i _ hn2
  simp only at hother hl1 hitems
  have hother2 : ∀ g, g ≠ f2 → s3.freqToFreqList.lookup g
      = (s.freqToFreqList.lookup g).map (fun l => { l with items := l.items.erase i }) := by
    intro g hg
    rw [hother g hg, hlists, lfu_lookup_removeNode]
  have hitems2 : l1.items = (bucket s f2).erase i ++ [i] := by
    rw [hitems, hlists, lfu_lookup_removeNode]
    unfold bucket
    cases s.freqToFreqList.lookup f2 <;> simp
  have hheap3 : s3.heap = s.heap.set i { n with freq := f2 } ++ extra := by rw [hh, hheap]
  have hget : ∀ j m, s.heap[j]? = some m →
      s3.heap[j]? = some (if j = i then { n with freq := f2 } else m) := by
    intro j m hj
    rw [hheap3]
    exact heap_get_set_append _ _ _ _ _ _ hj
  obtain ⟨hk, hh2, hres, hbk⟩ := hinv
  refine ⟨s3, extra, hadd, ⟨?_, ?_, ?_, ?_⟩, hcap, hmin, hmax, havg, htot, by rw [hnm, hmap],
    hheap3, hother2, l1, hl1, hitems2⟩
  · rw [hnm, hmap]; exact hk
  · rw [hnm, hmap]; exact hh2
  · intro e he
    rw [hnm, hmap] at he
    obtain ⟨m, l, hm, hkey, hl, hmem⟩ := hres e he
    by_cases hei : e.2 = i
    · rw [hei] at hm hmem ⊢
      have hmn : m = n := Option.some.inj (hm.symm.trans hn)
      subst hmn
      refine ⟨{ m with freq := f2 }, l1, ?_, hkey, hl1, ?_⟩
      · rw [hget i m hm]; simp
      · rw [hitems2]; simp
    · have hg := hget e.2 m hm
      rw [if_neg hei] at hg
      by_cases hf : m.freq = f2
      · refine ⟨m, l1, hg, hkey, by rw [hf]; exact hl1, ?_⟩
        rw [hitems2]
        have : bucket s f2 = l.items := by
          unfold bucket; rw [← hf, hl]
        rw [this]
        exact List.mem_append_left _ ((List.mem_erase_of_ne hei).2 hmem)
      · refine ⟨m, { l with items := l.items.erase i }, hg, hkey, ?_, ?_⟩
        · rw [hother2 _ hf, hl]; rfl
        · exact (List.mem_erase_of_ne hei).2 hmem
  · intro g l hl
    by_cases hg : g = f2
    · subst hg
      have hl1eq : l = l1 := Option.some.inj (hl.symm.trans hl1)
      subst hl1eq
      rw [hitems2]
      have hX : (bucket s g).Nodup ∧ ∀ j ∈ bucket s g, ∃ m, s.heap[j]? = some m ∧ m.freq = g := by
        unfold bucket
        cases hb : s.freqToFreqList.lookup g with
        | none => simp
        | some l0 => exact hbk g l0 hb
      refine ⟨?_, ?_⟩
      · refine List.nodup_append.2 ⟨hX.1.erase i, by simp, ?_⟩
        intro a ha hb
        simp only [List.mem_singleton] at hb
        subst hb
        exact (List.Nodup.mem_erase_iff hX.1).1 ha |>.1 rfl
      · intro j hj
        rcases List.mem_append.1 hj with hj | hj
        · have hj2 := (List.Nodup.mem_erase_iff hX.1).1 hj
          obtain ⟨m, hm, hmf⟩ := hX.2 j hj2.2
          refine ⟨m, ?_, hmf⟩
          rw [hget j m hm, if_neg hj2.1]
        · simp only [List.mem_singleton] at hj
          subst hj
          refine ⟨{ n with freq := g }, ?_, rfl⟩
          rw [hget j n hn]; simp
    · rw [hother2 g hg] at hl
      cases hb : s.freqToFreqList.lookup g with
      | none => rw [hb] at hl; cases hl
      | some l0 =>
        rw [hb] at hl
        simp only [Option.map_some', Option.some.injEq] at hl
        subst hl
        obtain ⟨hnd, hall⟩ := hbk g l0 hb
        refine ⟨hnd.erase i, ?_⟩
        intro j hj
        have hj2 := (List.Nodup.mem_erase_iff hnd).1 hj
        obtain ⟨m, hm, hmf⟩ := hall j hj2.2
        refine ⟨m, ?_, hmf⟩
        rw [hget j m hm, if_neg hj2.1]

end LfuBase
end MyCache

namespace MyCache
namespace LfuBase
variable {K V : Type} [DecidableEq K]

theorem lfu_recomputeAverage_fields (s : LfuBase K V) :
    (recomputeAverage s).capacity = s.capacity ∧ (recomputeAverage s).minFreq = s.minFreq ∧
    (recomputeAverage s).maxAverageNum = s.maxAverageNum ∧
    (recomputeAverage s).curTotalNum = s.curTotalNum ∧
    (recomputeAverage s).nodeMap = s.nodeMap ∧
    (recomputeAverage s).freqToFreqList = s.freqToFreqList ∧
    (recomputeAverage s).heap = s.heap := by
  unfold recomputeAverage
  split <;> simp

theorem lfu_decreaseFreqNum_fields (s : LfuBase K V) (num : Int) :
    (decreaseFreqNum s num).capacity = s.capacity ∧
    (decreaseFreqNum s num).minFreq = s.minFreq ∧
    (decreaseFreqNum s num).maxAverageNum = s.maxAverageNum ∧
    (decreaseFreqNum s num).curTotalNum = s.curTotalNum - num ∧
    (decreaseFreqNum s num).nodeMap = s.nodeMap ∧
    (decreaseFreqNum s num).freqToFreqList = s.freqToFreqList ∧
    (decreaseFreqNum s num).heap = s.heap := by
  unfold decreaseFreqNum
  have h := lfu_recomputeAverage_fields { s with curTotalNum := s.curTotalNum - num }
  simpa using h

/-- One round of the aging loop on a resident node: it succeeds, keeps the
invariant and the map, sets the `freq` of the node to its aged value and lowers
`curTotalNum_` by the reduction. -/
theorem lfu_ageNode_spec (env : LfuEnv K V) (s : LfuBase K V) (hinv : Inv s)
    (e : K × Nat) (he : e ∈ s.nodeMap) :
    ∃ s1 n extra, s.heap[e.2]? = some n ∧ ageNode env s e.2 = some s1 ∧ Inv s1 ∧
      s1.capacity = s.capacity ∧ s1.maxAverageNum = s.maxAverageNum ∧
      s1.minFreq = min s.minFreq (agedFreq s.maxAverageNum n.freq) ∧
      s1.curTotalNum = s.curTotalNum - (n.freq - agedFreq s.maxAverageNum n.freq) ∧
      s1.nodeMap = s.nodeMap ∧
      s1.heap = s.heap.set e.2 { n with freq := agedFreq s.maxAverageNum n.freq } ++ extra ∧
      (∀ g, g ≠ agedFreq s.maxAverageNum n.freq → s1.freqToFreqList.lookup g
        = (s.freqToFreqList.lookup g).map (fun l => { l with items := l.items.erase e.2 })) ∧
      (∃ l1, s1.freqToFreqList.lookup (agedFreq s.maxAverageNum n.freq) = some l1 ∧
        l1.items = (bucket s (agedFreq s.maxAverageNum n.freq)).erase e.2 ++ [e.2]) := by
  obtain ⟨n, l, hn, hkey, hl, hmem⟩ := hinv.2.2.1 e he
  have hrem := lfu_removeFromFreqList_eq s e.2 n l hn hl
  have hset := lfu_setFreq_eq { s with freqToFreqList := FreqList.removeNode s.freqToFreqList e.2 }
    e.2 n (agedFreq s.maxAverageNum n.freq) hn
  obtain ⟨hd1, hd2, hd3, hd4, hd5, hd6, hd7⟩ := lfu_decreaseFreqNum_fields
    ({ s with freqToFreqList := FreqList.removeNode s.freqToFreqList e.2,
              heap := s.heap.set e.2 { n with freq := agedFreq s.maxAverageNum n.freq } })
    (n.freq - agedFreq s.maxAverageNum n.freq)
  obtain ⟨s3, extra, hadd, hinv3, hcap, hmin, hmax, havg, htot, hnm, hheap, hother, hnew⟩ :=
    lfu_relocate env s
      { decreaseFreqNum ({ s with
            freqToFreqList := FreqList.removeNode s.freqToFreqList e.2,
            heap := s.heap.set e.2 { n with freq := agedFreq s.maxAverageNum n.freq } })
          (n.freq - agedFreq s.maxAverageNum n.freq) with
        minFreq := min (decreaseFreqNum ({ s with
            freqToFreqList := FreqList.removeNode s.freqToFreqList e.2,
            heap := s.heap.set e.2 { n with freq := agedFreq s.maxAverageNum n.freq } })
          (n.freq - agedFreq s.maxAverageNum n.freq)).minFreq
          (agedFreq s.maxAverageNum n.freq) }
      hinv e.2 n (agedFreq s.maxAverageNum n.freq) hn (by simpa using hd5) (by simpa using hd7)
      (by simpa using hd6)
  refine ⟨s3, n, extra, hn, ?_, hinv3, ?_, ?_, ?_, ?_, hnm, hheap, hother, hnew⟩
  · unfold ageNode
    rw [hrem]
    simp only [hn]
    have hset2 : setFreq { s with freqToFreqList := FreqList.removeNode s.freqToFreqList e.2 } e.2
        (if n.freq - Int.tdiv s.maxAverageNum 2 < 1 then 1
          else n.freq - Int.tdiv s.maxAverageNum 2)
        = some { s with freqToFreqList := FreqList.removeNode s.freqToFreqList e.2,
                        heap := s.heap.set e.2 { n with freq := agedFreq s.maxAverageNum n.freq } } :=
      hset
    rw [hset2]
    exact hadd
  · rw [hcap]; simpa using hd1
  · rw [hmax]; simpa using hd3
  · rw [hmin]; simp only; rw [hd2]
  · rw [htot]; simpa using hd4

end LfuBase
end MyCache

namespace MyCache
namespace LfuBase
variable {K V : Type} [DecidableEq K]

theorem lfu_inv_congr {s t : LfuBase K V} (h1 : t.nodeMap = s.nodeMap) (h2 : t.heap = s.heap)
    (h3 : t.freqToFreqList = s.freqToFreqList) (h : Inv s) : Inv t := by
  unfold Inv at h ⊢
  rw [h1, h2, h3]
  exact h

theorem lfu_freqAt_eq (s : LfuBase K V) (i : Nat) (n : Node K V) (h : s.heap[i]? = some n) :
    freqAt s i = n.freq := by
  simp [freqAt, h]

/-- The aging loop over a duplicate-free part of the map: it succeeds, keeps the
invariant, gives every node it visits its aged frequency, leaves the other nodes
alone, and lowers `curTotalNum_` by the sum of the reductions. -/
theorem lfu_ageLoop_spec (env : LfuEnv K V) (es : List (K × Nat)) (t : LfuBase K V)
    (hinv : Inv t) (hsub : ∀ e ∈ es, e ∈ t.nodeMap) (hnd : (es.map Prod.snd).Nodup) :
    ∃ t1, ageLoop env es t = some t1 ∧ Inv t1 ∧ t1.nodeMap = t.nodeMap ∧
      t1.capacity = t.capacity ∧ t1.maxAverageNum = t.maxAverageNum ∧
      t1.curTotalNum = t.curTotalNum
        - (es.map (fun e => freqAt t e.2 - agedFreq t.maxAverageNum (freqAt t e.2))).sum ∧
      t1.minFreq = es.foldl (fun acc e => min acc (agedFreq t.maxAverageNum (freqAt t e.2)))
        t.minFreq ∧
      (∀ e ∈ es, ∀ n, t.heap[e.2]? = some n →
        t1.heap[e.2]? = some { n with freq := agedFreq t.maxAverageNum n.freq }) ∧
      (∀ j m, t.heap[j]? = some m → j ∉ es.map Prod.snd → t1.heap[j]? = some m) := by
  induction es generalizing t with
  | nil =>
    exact ⟨t, rfl, hinv, rfl, rfl, rfl, by simp, rfl, by simp, fun j m h _ => h⟩
  | cons e rest ih =>
    obtain ⟨s1, n, extra, hn, hage, hinv1, hcap1, hmax1, hmin1, htot1, hnm1, hheap1, _, _⟩ :=
      lfu_ageNode_spec env t hinv e (hsub e (List.mem_cons_self _ _))
    rw [List.map_cons, List.nodup_cons] at hnd
    have hget1 : ∀ j m, t.heap[j]? = some m → s1.heap[j]? =
        some (if j = e.2 then { n with freq := agedFreq t.maxAverageNum n.freq } else m) := by
      intro j m hj
      rw [hheap1]
      exact heap_get_set_append _ _ _ _ _ _ hj
    obtain ⟨t1, hloop, hinv2, hnm2, hcap2, hmax2, htot2, hmin2, hvis, hframe⟩ :=
      ih s1 hinv1 (fun e1 he1 => by rw [hnm1]; exact hsub e1 (List.mem_cons_of_mem _ he1)) hnd.2
    have hfreq : ∀ e1 ∈ rest, freqAt s1 e1.2 = freqAt t e1.2 := by
      intro e1 he1
      obtain ⟨m, l, hm, _⟩ := hinv.2.2.1 e1 (hsub e1 (List.mem_cons_of_mem _ he1))
      have hne : e1.2 ≠ e.2 := by
        intro heq
        exact hnd.1 (heq ▸ List.mem_map_of_mem Prod.snd he1)
      have := hget1 e1.2 m hm
      rw [if_neg hne] at this
      rw [lfu_freqAt_eq s1 _ m this, lfu_freqAt_eq t _ m hm]
    refine ⟨t1, ?_, hinv2, by rw [hnm2, hnm1], by rw [hcap2, hcap1], by rw [hmax2, hmax1],
      ?_, ?_, ?_, ?_⟩
    · show (match ageNode env t e.2 with
        | none => none
        | some s1 => ageLoop env rest s1) = some t1
      rw [hage]
      exact hloop
    · rw [htot2, htot1, List.map_cons, List.sum_cons, lfu_freqAt_eq t _ n hn, hmax1]
      have : rest.map (fun e => freqAt s1 e.2 - agedFreq t.maxAverageNum (freqAt s1 e.2))
          = rest.map (fun e => freqAt t e.2 - agedFreq t.maxAverageNum (freqAt t e.2)) := by
        apply List.map_congr_left
        intro e1 he1
        rw [hfreq e1 he1]
      rw [this]
      omega
    · rw [hmin2, hmin1, List.foldl_cons, lfu_freqAt_eq t _ n hn, hmax1]
      have : ∀ (a : Int) (l : List (K × Nat)), (∀ e1 ∈ l, freqAt s1 e1.2 = freqAt t e1.2) →
          l.foldl (fun acc e => min acc (agedFreq t.maxAverageNum (freqAt s1 e.2))) a
            = l.foldl (fun acc e => min acc (agedFreq t.maxAverageNum (freqAt t e.2))) a := by
        intro a l
        induction l generalizing a with
        | nil => intro _; rfl
        | cons x l ihl =>
          intro hx
          rw [List.foldl_cons, List.foldl_cons, hx x (List.mem_cons_self _ _)]
          exact ihl _ (fun e1 he1 => hx e1 (List.mem_cons_of_mem _ he1))
      exact this _ rest hfreq
    · intro e1 he1 m hm
      rcases List.mem_cons.1 he1 with h | h
      · subst h
        have hmn : m = n := Option.some.inj (hm.symm.trans hn)
        subst hmn
        have h1 := hget1 e1.2 m hm
        rw [if_pos rfl] at h1
        exact hframe e1.2 _ h1 hnd.1
      · have hne : e1.2 ≠ e.2 := by
          intro heq
          exact hnd.1 (heq ▸ List.mem_map_of_mem Prod.snd h)
        have h1 := hget1 e1.2 m hm
        rw [if_neg hne] at h1
        have := hvis e1 h m h1
        rw [hmax1] at this
        exact this
    · intro j m hj hnot
      rw [List.map_cons, List.mem_cons, not_or] at hnot
      have h1 := hget1 j m hj
      rw [if_neg hnot.1] at h1
      exact hframe j m h1 hnot.2

end LfuBase
end MyCache

namespace MyCache
namespace LfuBase
variable {K V : Type} [DecidableEq K]

/-- The aging step on a state that satisfies the invariant. -/
theorem lfu_handleOverMaxAverageNum_spec (env : LfuEnv K V) (s : LfuBase K V) (hinv : Inv s) :
    ∃ s1, handleOverMaxAverageNum env s = some s1 ∧ Inv s1 ∧ s1.nodeMap = s.nodeMap ∧
      s1.capacity = s.capacity ∧ s1.maxAverageNum = s.maxAverageNum ∧
      s1.curTotalNum = s.curTotalNum
        - (s.nodeMap.map (fun e => freqAt s e.2 - agedFreq s.maxAverageNum (freqAt s e.2))).sum ∧
      (∀ e ∈ s.nodeMap, ∀ n, s.heap[e.2]? = some n →
        s1.heap[e.2]? = some { n with freq := agedFreq s.maxAverageNum n.freq }) ∧
      (∀ j m, s.heap[j]? = some m → j ∉ s.nodeMap.map Prod.snd → s1.heap[j]? = some m) := by
  unfold handleOverMaxAverageNum
  by_cases hempty : s.nodeMap.isEmpty = true
  · rw [if_pos hempty]
    have hnil : s.nodeMap = [] := List.isEmpty_iff.1 hempty
    refine ⟨s, rfl, hinv, rfl, rfl, rfl, by simp [hnil], by simp [hnil], fun j m h _ => h⟩
  · rw [if_neg hempty]
    have hinv0 : Inv { s with minFreq := env.INI8_MAX } := lfu_inv_congr rfl rfl rfl hinv
    obtain ⟨t1, hloop, hinv1, hnm, hcap, hmax, htot, _, hvis, hframe⟩ :=
      lfu_ageLoop_spec env s.nodeMap { s with minFreq := env.INI8_MAX } hinv0
        (fun e he => he) hinv.2.1
    rw [hloop]
    simp only
    refine ⟨_, rfl, ?_, ?_, ?_, ?_, ?_, ?_, ?_⟩
    · split
      · exact lfu_inv_congr rfl rfl rfl hinv1
      · exact hinv1
    · split <;> simpa using hnm
    · split <;> simpa using hcap
    · split <;> simpa using hmax
    · split <;> simpa [freqAt] using htot
    · intro e he n hn
      split <;> simpa using hvis e he n hn
    · intro j m hj hnot
      split <;> simpa using hframe j m hj hnot

theorem agedFreq_eq_max (a f : Int) (ha : 0 ≤ a) : agedFreq a f = max 1 (f - a / 2) := by
  unfold agedFreq
  rw [Int.tdiv_eq_ediv ha (by decide)]
  split <;> omega

theorem agedFreq_bounds (a f : Int) (ha : 0 ≤ a) (hf : 1 ≤ f) :
    1 ≤ agedFreq a f ∧ agedFreq a f ≤ f := by
  rw [agedFreq_eq_max a f ha]
  have : 0 ≤ a / 2 := Int.ediv_nonneg ha (by decide)
  omega

end LfuBase
end MyCache

namespace MyCache
namespace LfuBase
variable {K V : Type} [DecidableEq K]

theorem lfu_inv_new (cap maxAvg : Int) : Inv (new cap maxAvg : LfuBase K V) := by
  simp [Inv, new]

theorem lfu_inv_purge (s : LfuBase K V) : Inv (purge s) := by
  simp [Inv, purge]

/-- The member `addFreqNum` on a state that satisfies the invariant. -/
theorem lfu_addFreqNum_spec (env : LfuEnv K V) (s : LfuBase K V) (hinv : Inv s) :
    ∃ s1, addFreqNum env s = some s1 ∧ Inv s1 ∧ s1.nodeMap = s.nodeMap ∧
      s1.capacity = s.capacity ∧ s1.maxAverageNum = s.maxAverageNum := by
  obtain ⟨h1, h2, h3, h4, h5, h6, h7⟩ :=
    lfu_recomputeAverage_fields { s with curTotalNum := s.curTotalNum + 1 }
  have hinv1 : Inv (recomputeAverage { s with curTotalNum := s.curTotalNum + 1 }) :=
    lfu_inv_congr (by simpa using h5) (by simpa using h7) (by simpa using h6) hinv
  unfold addFreqNum
  simp only
  split
  · obtain ⟨s1, hs1, hi, hnm, hcap, hmax, _⟩ := lfu_handleOverMaxAverageNum_spec env _ hinv1
    exact ⟨s1, hs1, hi, by rw [hnm]; simpa using h5, by rw [hcap]; simpa using h1,
      by rw [hmax]; simpa using h3⟩
  · exact ⟨_, rfl, hinv1, by simpa using h5, by simpa using h1, by simpa using h3⟩

/-- The member `addFreqNum` when the recomputed average does not exceed
`maxAverageNum_`: only the two counters change. -/
theorem lfu_addFreqNum_quiet (env : LfuEnv K V) (s : LfuBase K V)
    (hq : (recomputeAverage { s with curTotalNum := s.curTotalNum + 1 }).curAverageNum
      ≤ s.maxAverageNum) :
    addFreqNum env s = some (recomputeAverage { s with curTotalNum := s.curTotalNum + 1 }) := by
  obtain ⟨h1, h2, h3, h4, h5, h6, h7⟩ :=
    lfu_recomputeAverage_fields { s with curTotalNum := s.curTotalNum + 1 }
  unfold addFreqNum
  simp only
  rw [if_neg]
  rw [h3]
  simp only
  omega

/-- The member `getInternal` on a resident node: the state `s4` before the
closing `addFreqNum` has the node moved from the list of `n.freq` to the end of
the list of `n.freq + 1`, and `minFreq_` raised by one when the list it left was
the `minFreq_` list and is now empty. -/
theorem lfu_getInternal_spec (env : LfuEnv K V) (s : LfuBase K V) (hinv : Inv s)
    (e : K × Nat) (he : e ∈ s.nodeMap) :
    ∃ n s4 s5 extra, s.heap[e.2]? = some n ∧
      getInternal env s e.2 = some (n.value, s5) ∧ addFreqNum env s4 = some s5 ∧
      Inv s4 ∧ Inv s5 ∧ s5.nodeMap = s.nodeMap ∧ s5.capacity = s.capacity ∧
      s5.maxAverageNum = s.maxAverageNum ∧
      s4.nodeMap = s.nodeMap ∧ s4.capacity = s.capacity ∧
      s4.maxAverageNum = s.maxAverageNum ∧ s4.curTotalNum = s.curTotalNum ∧
      s4.minFreq = (if n.freq = s.minFreq ∧ (bucket s n.freq).erase e.2 = []
        then s.minFreq + 1 else s.minFreq) ∧
      s4.heap = s.heap.set e.2 { n with freq := n.freq + 1 } ++ extra ∧
      (∀ g, g ≠ n.freq + 1 → s4.freqToFreqList.lookup g
        = (s.freqToFreqList.lookup g).map (fun l => { l with items := l.items.erase e.2 })) ∧
      (∃ l1, s4.freqToFreqList.lookup (n.freq + 1) = some l1 ∧
        l1.items = (bucket s (n.freq + 1)).erase e.2 ++ [e.2]) := by
  obtain ⟨n, l, hn, hkey, hl, hmem⟩ := hinv.2.2.1 e he
  have hrem := lfu_removeFromFreqList_eq s e.2 n l hn hl
  have hset := lfu_setFreq_eq { s with freqToFreqList := FreqList.removeNode s.freqToFreqList e.2 }
    e.2 n (n.freq + 1) hn
  obtain ⟨s3, extra, hadd, hinv3, hcap, hmin, hmax, havg, htot, hnm, hheap, hother, l1, hl1,
    hitems⟩ := lfu_relocate env s
      { s with freqToFreqList := FreqList.removeNode s.freqToFreqList e.2,
               heap := s.heap.set e.2 { n with freq := n.freq + 1 } }
      hinv e.2 n (n.freq + 1) hn rfl rfl rfl
  simp only at hcap hmin hmax havg htot
  have hold : s3.freqToFreqList.lookup (n.freq + 1 - 1)
      = some { l with items := l.items.erase e.2 } := by
    have h1 : n.freq + 1 - 1 = n.freq := by omega
    rw [h1, hother n.freq (by omega), hl]
    rfl
  have hb : bucket s n.freq = l.items := by unfold bucket; rw [hl]
  -- the state after the `minFreq_` update
  have hbump : ∃ s4, bumpMinFreq s3 (n.freq + 1) = some s4 ∧ s4.nodeMap = s3.nodeMap ∧
      s4.heap = s3.heap ∧
      s4.freqToFreqList = s3.freqToFreqList ∧ s4.capacity = s3.capacity ∧
      s4.maxAverageNum = s3.maxAverageNum ∧ s4.curTotalNum = s3.curTotalNum ∧
      s4.minFreq = (if n.freq = s.minFreq ∧ (bucket s n.freq).erase e.2 = []
        then s.minFreq + 1 else s.minFreq) := by
    unfold bumpMinFreq
    rw [hold, hmin, hb]
    have h1 : n.freq + 1 - 1 = n.freq := by omega
    rw [h1]
    by_cases hc : n.freq = s.minFreq
    · rw [if_pos hc]
      by_cases hemp : l.items.erase e.2 = []
      · refine ⟨{ s3 with minFreq := s.minFreq + 1 }, by simp [FreqList.isEmpty, hemp],
          rfl, rfl, rfl, rfl, rfl, rfl, ?_⟩
        rw [if_pos ⟨hc, hemp⟩]
      · refine ⟨s3, by simp [FreqList.isEmpty, hemp], rfl, rfl, rfl, rfl, rfl, rfl, ?_⟩
        rw [if_neg (fun h => hemp h.2)]
        exact hmin
    · rw [if_neg hc]
      refine ⟨s3, rfl, rfl, rfl, rfl, rfl, rfl, rfl, ?_⟩
      rw [if_neg (fun h => hc h.1)]
      exact hmin
  obtain ⟨s4, hs4, h4nm, h4heap, h4lists, h4cap, h4max, h4tot, h4min⟩ := hbump
  have hinv4 : Inv s4 := lfu_inv_congr h4nm h4heap h4lists hinv3
  obtain ⟨s5, hs5, hinv5, h5nm, h5cap, h5max⟩ := lfu_addFreqNum_spec env s4 hinv4
  refine ⟨n, s4, s5, extra, hn, ?_, hs5, hinv4, hinv5, by rw [h5nm, h4nm, hnm],
    by rw [h5cap, h4cap, hcap], by rw [h5max, h4max, hmax], by rw [h4nm, hnm],
    by rw [h4cap, hcap], by rw [h4max, hmax], by rw [h4tot, htot], h4min,
    by rw [h4heap, hheap], by rw [h4lists]; exact hother, l1, by rw [h4lists]; exact hl1, hitems⟩
  unfold getInternal
  rw [hn]
  simp only
  rw [hrem]
  simp only
  rw [hset]
  simp only
  rw [hadd]
  simp only
  rw [hs4]
  simp only
  rw [hs5]

end LfuBase
end MyCache

namespace MyCache
namespace LfuBase
variable {K V : Type} [DecidableEq K]

theorem heap_lt_of_get {A : Type} {H : List A} {j : Nat} {m : A} (h : H[j]? = some m) :
    j < H.length := by
  rcases Nat.lt_or_ge j H.length with h1 | h1
  · exact h1
  · rw [List.getElem?_eq_none h1] at h; cases h

/-- The assignment `node->value = value` on a resident node keeps the invariant. -/
theorem lfu_setValue_spec (s : LfuBase K V) (hinv : Inv s) (e : K × Nat) (he : e ∈ s.nodeMap)
    (v : V) :
    ∃ s1 n, s.heap[e.2]? = some n ∧ setValue s e.2 v = some s1 ∧ Inv s1 ∧
      s1 = { s with heap := s.heap.set e.2 { n with value := v } } := by
  obtain ⟨n, l, hn, hkey, hl, hmem⟩ := hinv.2.2.1 e he
  refine ⟨_, n, hn, by simp [setValue, hn], ?_, rfl⟩
  have hget : ∀ j m, s.heap[j]? = some m →
      (s.heap.set e.2 { n with value := v })[j]? = some (if j = e.2 then { n with value := v } else m) := by
    intro j m hj
    have := heap_get_set_append s.heap [] e.2 j { n with value := v } m hj
    simpa using this
  obtain ⟨hk, hh, hres, hbk⟩ := hinv
  refine ⟨hk, hh, ?_, ?_⟩
  · intro e1 he1
    obtain ⟨m, l1, hm, hkey1, hl1, hmem1⟩ := hres e1 he1
    by_cases hei : e1.2 = e.2
    · have hmn : m = n := Option.some.inj (hm.symm.trans (hei ▸ hn))
      subst hmn
      refine ⟨{ m with value := v }, l1, ?_, hkey1, hl1, hmem1⟩
      show (s.heap.set e.2 { m with value := v })[e1.2]? = _
      rw [hget e1.2 m hm, if_pos hei]
    · refine ⟨m, l1, ?_, hkey1, hl1, hmem1⟩
      show (s.heap.set e.2 { n with value := v })[e1.2]? = _
      rw [hget e1.2 m hm, if_neg hei]
  · intro f l1 hl1
    obtain ⟨hnd, hall⟩ := hbk f l1 hl1
    refine ⟨hnd, ?_⟩
    intro j hj
    obtain ⟨m, hm, hmf⟩ := hall j hj
    by_cases hji : j = e.2
    · have hmn : m = n := Option.some.inj (hm.symm.trans (hji ▸ hn))
      subst hmn
      refine ⟨{ m with value := v }, ?_, hmf⟩
      show (s.heap.set e.2 { m with value := v })[j]? = _
      rw [hget j m hm, if_pos hji]
    · refine ⟨m, ?_, hmf⟩
      show (s.heap.set e.2 { n with value := v })[j]? = _
      rw [hget j m hm, if_neg hji]

theorem mem_mapErase {B : Type} {m : List (K × B)} {k : K} {e : K × B} :
    e ∈ mapErase m k ↔ e ∈ m ∧ e.1 ≠ k := by
  simp [mapErase, List.mem_filter]

theorem mapErase_sublist {B : Type} (m : List (K × B)) (k : K) :
    List.Sublist (mapErase m k) m := by
  unfold mapErase
  exact List.filter_sublist m

/-- The member `kickOut` keeps the invariant whenever it returns. -/
theorem lfu_kickOut_inv (s s1 : LfuBase K V) (hinv : Inv s) (h : kickOut s = some s1) :
    Inv s1 ∧ s1.capacity = s.capacity ∧ s1.maxAverageNum = s.maxAverageNum ∧
      s1.heap = s.heap ∧ ∀ e ∈ s1.nodeMap, e ∈ s.nodeMap := by
  unfold kickOut at h
  cases hl : s.freqToFreqList.lookup s.minFreq with
  | none => rw [hl] at h; cases h
  | some l =>
    rw [hl] at h
    simp only at h
    cases hr : removeFromFreqList s l.getFirstNode with
    | none => rw [hr] at h; cases h
    | some t =>
      rw [hr] at h
      simp only at h
      have ht : t = { s with freqToFreqList := FreqList.removeNode s.freqToFreqList l.getFirstNode } := by
        unfold removeFromFreqList at hr
        split at hr
        · cases hr
        · split at hr
          · cases hr
          · exact (Option.some.inj hr).symm
      subst ht
      simp only at h
      cases hnode : s.heap[l.getFirstNode]? with
      | none => rw [hnode] at h; cases h
      | some n =>
        rw [hnode] at h
        simp only [Option.some.injEq] at h
        obtain ⟨hd1, hd2, hd3, hd4, hd5, hd6, hd7⟩ := lfu_decreaseFreqNum_fields
          ({ s with freqToFreqList := FreqList.removeNode s.freqToFreqList l.getFirstNode,
                    nodeMap := mapErase s.nodeMap n.key }) n.freq
        rw [h] at hd1 hd2 hd3 hd4 hd5 hd6 hd7
        simp only at hd1 hd3 hd5 hd6 hd7
        obtain ⟨hk, hh, hres, hbk⟩ := hinv
        refine ⟨⟨?_, ?_, ?_, ?_⟩, hd1, hd3, hd7, ?_⟩
        · rw [hd5]
          exact hk.sublist ((mapErase_sublist s.nodeMap n.key).map Prod.fst)
        · rw [hd5]
          exact hh.sublist ((mapErase_sublist s.nodeMap n.key).map Prod.snd)
        · intro e he
          rw [hd5] at he
          obtain ⟨hmem, hne⟩ := mem_mapErase.1 he
          obtain ⟨m, l1, hm, hkey, hl1, hmem1⟩ := hres e hmem
          have hneq : e.2 ≠ l.getFirstNode := by
            intro heq
            rw [heq, hnode] at hm
            have : n = m := Option.some.inj hm
            subst this
            exact hne hkey.symm
          refine ⟨m, { l1 with items := l1.items.erase l.getFirstNode }, by rw [hd7]; exact hm,
            hkey, ?_, ?_⟩
          · rw [hd6, lfu_lookup_removeNode, hl1]; rfl
          · exact (List.mem_erase_of_ne hneq).2 hmem1
        · intro f l1 hl1
          rw [hd6, lfu_lookup_removeNode] at hl1
          cases hb : s.freqToFreqList.lookup f with
          | none => rw [hb] at hl1; cases hl1
          | some l0 =>
            rw [hb] at hl1
            simp only [Option.map_some', Option.some.injEq] at hl1
            subst hl1
            obtain ⟨hnd, hall⟩ := hbk f l0 hb
            refine ⟨hnd.erase _, ?_⟩
            intro j hj
            rw [hd7]
            exact hall j (List.mem_of_mem_erase hj)
        · intro e he
          rw [hd5] at he
          exact (mem_mapErase.1 he).1

end LfuBase
end MyCache

namespace MyCache
namespace LfuBase
variable {K V : Type} [DecidableEq K]

/-- Linking a freshly allocated node under a key that is not resident keeps the
invariant. -/
theorem lfu_insert_spec (env : LfuEnv K V) (s : LfuBase K V) (hinv : Inv s) (key : K) (value : V)
    (hk : s.nodeMap.lookup key = none) :
    ∃ s1, addToFreqList env
        { s with heap := s.heap ++ [Node.mk1 key value],
                 nodeMap := mapAssign s.nodeMap key s.heap.length } s.heap.length = some s1 ∧
      Inv s1 ∧ s1.nodeMap = s.nodeMap ++ [(key, s.heap.length)] ∧
      s1.capacity = s.capacity ∧ s1.maxAverageNum = s.maxAverageNum := by
  have hnm0 : mapAssign s.nodeMap key s.heap.length = s.nodeMap ++ [(key, s.heap.length)] := by
    simp [mapAssign, hk]
  have hn : (s.heap ++ [Node.mk1 key value])[s.heap.length]? = some (Node.mk1 key value) := by
    simp
  obtain ⟨s1, extra, hadd, hcap, hmin, hmax, havg, htot, hnm, hheap, hother, l1, hl1, hitems⟩ :=
    lfu_addToFreqList_spec env
      { s with heap := s.heap ++ [Node.mk1 key value],
               nodeMap := mapAssign s.nodeMap key s.heap.length } s.heap.length _ hn
  simp only at hcap hmax hnm hheap hother hl1 hitems
  rw [hnm0] at hnm
  have hf1 : (Node.mk1 key value : Node K V).freq = 1 := rfl
  rw [hf1] at hother hl1 hitems
  have hget : ∀ (j : Nat) (m : Node K V), s.heap[j]? = some m → s1.heap[j]? = some m := by
    intro j m hj
    have hlt := heap_lt_of_get hj
    rw [hheap, List.append_assoc, List.getElem?_append_left hlt]
    exact hj
  have hnew : s1.heap[s.heap.length]? = some (Node.mk1 key value) := by
    rw [hheap, List.getElem?_append_left (by simp)]
    exact hn
  obtain ⟨hkeys, hh, hres, hbk⟩ := hinv
  have hfresh_items : ∀ f l, s.freqToFreqList.lookup f = some l → s.heap.length ∉ l.items := by
    intro f l hl hmem
    obtain ⟨m, hm, _⟩ := (hbk f l hl).2 _ hmem
    exact Nat.lt_irrefl _ (heap_lt_of_get hm)
  have hold1 : ∀ l0, s.freqToFreqList.lookup 1 = some l0 → l1.items = l0.items ++ [s.heap.length] := by
    intro l0 hl0
    rw [hitems, hl0]
  refine ⟨s1, hadd, ⟨?_, ?_, ?_, ?_⟩, hnm, hcap, hmax⟩
  · rw [hnm, List.map_append]
    refine List.nodup_append.2 ⟨hkeys, by simp, ?_⟩
    intro a ha hb
    simp only [List.map_cons, List.map_nil, List.mem_singleton] at hb
    subst hb
    exact (lookup_eq_none_iff_not_mem _ _).1 hk ha
  · rw [hnm, List.map_append]
    refine List.nodup_append.2 ⟨hh, by simp, ?_⟩
    intro a ha hb
    simp only [List.map_cons, List.map_nil, List.mem_singleton] at hb
    subst hb
    obtain ⟨e, he, heq⟩ := List.mem_map.1 ha
    obtain ⟨m, l, hm, _⟩ := hres e he
    have hlt := heap_lt_of_get hm
    rw [heq] at hlt
    exact Nat.lt_irrefl _ hlt
  · intro e he
    rw [hnm] at he
    rcases List.mem_append.1 he with he | he
    · obtain ⟨m, l, hm, hkey, hl, hmem⟩ := hres e he
      by_cases hf : m.freq = 1
      · refine ⟨m, l1, hget _ _ hm, hkey, by rw [hf]; exact hl1, ?_⟩
        rw [hold1 l (hf ▸ hl)]
        exact List.mem_append_left _ hmem
      · exact ⟨m, l, hget _ _ hm, hkey, by rw [hother _ hf]; exact hl, hmem⟩
    · simp only [List.mem_singleton] at he
      subst he
      refine ⟨Node.mk1 key value, l1, hnew, rfl, hl1, ?_⟩
      rw [hitems]
      simp
  · intro f l hl
    by_cases hf : f = 1
    · subst hf
      have : l = l1 := Option.some.inj (hl.symm.trans hl1)
      subst this
      cases hb : s.freqToFreqList.lookup 1 with
      | none =>
        rw [hitems, hb]
        refine ⟨by simp, ?_⟩
        intro j hj
        simp only [List.nil_append, List.mem_singleton] at hj
        subst hj
        exact ⟨_, hnew, rfl⟩
      | some l0 =>
        rw [hold1 l0 hb]
        obtain ⟨hnd, hall⟩ := hbk 1 l0 hb
        refine ⟨List.nodup_append.2 ⟨hnd, by simp, ?_⟩, ?_⟩
        · intro a ha hb2
          simp only [List.mem_singleton] at hb2
          subst hb2
          exact hfresh_items 1 l0 hb ha
        · intro j hj
          rcases List.mem_append.1 hj with hj | hj
          · obtain ⟨m, hm, hmf⟩ := hall j hj
            exact ⟨m, hget _ _ hm, hmf⟩
          · simp only [List.mem_singleton] at hj
            subst hj
            exact ⟨_, hnew, rfl⟩
    · rw [hother f hf] at hl
      obtain ⟨hnd, hall⟩ := hbk f l hl
      refine ⟨hnd, ?_⟩
      intro j hj
      obtain ⟨m, hm, hmf⟩ := hall j hj
      exact ⟨m, hget _ _ hm, hmf⟩

end LfuBase
end MyCache

namespace MyCache

theorem mem_of_lookup_eq_some {A B : Type} [DecidableEq A] {m : List (A × B)} {a : A} {b : B}
    (h : m.lookup a = some b) : (a, b) ∈ m := by
  induction m with
  | nil => simp at h
  | cons e m ih =>
    obtain ⟨x, y⟩ := e
    by_cases hx : a = x
    · subst hx
      simp at h
      subst h
      exact List.mem_cons_self _ _
    · have hb : (a == x) = false := by simpa using hx
      simp only [List.lookup_cons, hb] at h
      exact List.mem_cons_of_mem _ (ih h)

theorem lookup_eq_some_of_mem {A B : Type} [DecidableEq A] {m : List (A × B)} {a : A} {b : B}
    (hnd : (m.map Prod.fst).Nodup) (h : (a, b) ∈ m) : m.lookup a = some b := by
  induction m with
  | nil => simp at h
  | cons e m ih =>
    obtain ⟨x, y⟩ := e
    rw [List.map_cons, List.nodup_cons] at hnd
    rcases List.mem_cons.1 h with h1 | h1
    · cases h1; simp
    · have hx : a ≠ x := by
        intro hax
        subst hax
        exact hnd.1 (List.mem_map.2 ⟨(a, b), h1, rfl⟩)
      have hb : (a == x) = false := by simpa using hx
      simp only [List.lookup_cons, hb]
      exact ih hnd.2 h1

namespace LfuBase
variable {K V : Type} [DecidableEq K]

/-- The member `putInternal`, called for a key that is not resident, keeps the
invariant whenever it returns. -/
theorem lfu_putInternal_inv (env : LfuEnv K V) (s s1 : LfuBase K V) (hinv : Inv s)
    (key : K) (value : V) (hk : s.nodeMap.lookup key = none)
    (h : putInternal env s key value = some s1) :
    Inv s1 ∧ s1.capacity = s.capacity ∧ s1.maxAverageNum = s.maxAverageNum := by
  unfold putInternal at h
  have hpre : ∀ t, (if (s.nodeMap.length : Int) = s.capacity then kickOut s else some s) = some t →
      Inv t ∧ t.capacity = s.capacity ∧ t.maxAverageNum = s.maxAverageNum ∧
        t.nodeMap.lookup key = none := by
    intro t ht
    split at ht
    · obtain ⟨hi, hc, hm, _, hsub⟩ := lfu_kickOut_inv s t hinv ht
      refine ⟨hi, hc, hm, ?_⟩
      rw [lookup_eq_none_iff_not_mem]
      intro hmem
      obtain ⟨e, he, hek⟩ := List.mem_map.1 hmem
      exact (lookup_eq_none_iff_not_mem _ _).1 hk (List.mem_map.2 ⟨e, hsub e he, hek⟩)
    · cases ht
      exact ⟨hinv, rfl, rfl, hk⟩
  cases hp : (if (s.nodeMap.length : Int) = s.capacity then kickOut s else some s) with
  | none => rw [hp] at h; cases h
  | some t =>
    rw [hp] at h
    simp only at h
    obtain ⟨hit, hct, hmt, hkt⟩ := hpre t hp
    obtain ⟨s4, hadd, hinv4, hnm4, hcap4, hmax4⟩ := lfu_insert_spec env t hit key value hkt
    rw [hadd] at h
    simp only at h
    obtain ⟨s5, hs5, hinv5, hnm5, hcap5, hmax5⟩ := lfu_addFreqNum_spec env s4 hinv4
    rw [hs5] at h
    simp only [Option.some.injEq] at h
    subst h
    exact ⟨lfu_inv_congr rfl rfl rfl hinv5, by simp only; rw [hcap5, hcap4, hct],
      by simp only; rw [hmax5, hmax4, hmt]⟩

/-- The member `put` keeps the invariant whenever it returns. -/
theorem lfu_put_inv (env : LfuEnv K V) (s s1 : LfuBase K V) (hinv : Inv s) (key : K) (value : V)
    (h : put env s key value = some s1) :
    Inv s1 ∧ s1.capacity = s.capacity ∧ s1.maxAverageNum = s.maxAverageNum := by
  unfold put at h
  split at h
  · cases h; exact ⟨hinv, rfl, rfl⟩
  · split at h
    · rename_i node hl
      have he := mem_of_lookup_eq_some hl
      obtain ⟨t, n, hn, hset, hinvt, hteq⟩ := lfu_setValue_spec s hinv (key, node) he value
      rw [hset] at h
      simp only at h
      have het : (key, node) ∈ t.nodeMap := by rw [hteq]; exact he
      obtain ⟨n1, s4, s5, extra, hn1, hget, _, _, hinv5, hnm5, hcap5, hmax5, _⟩ :=
        lfu_getInternal_spec env t hinvt (key, node) het
      rw [hget] at h
      simp only [Option.some.injEq] at h
      subst h
      refine ⟨hinv5, ?_, ?_⟩
      · rw [hcap5, hteq]
      · rw [hmax5, hteq]
    · rename_i hl
      exact lfu_putInternal_inv env s s1 hinv key value hl h

/-- The member `get` keeps the invariant, and it always returns. -/
theorem lfu_get_inv (env : LfuEnv K V) (s : LfuBase K V) (hinv : Inv s) (key : K) :
    ∃ r, get env s key = some r ∧ Inv r.2 ∧ r.2.capacity = s.capacity ∧
      r.2.maxAverageNum = s.maxAverageNum := by
  unfold get
  split
  · rename_i node hl
    have he := mem_of_lookup_eq_some hl
    obtain ⟨n1, s4, s5, extra, hn1, hget, _, _, hinv5, hnm5, hcap5, hmax5, _⟩ :=
      lfu_getInternal_spec env s hinv (key, node) he
    rw [hget]
    exact ⟨_, rfl, hinv5, hcap5, hmax5⟩
  · exact ⟨_, rfl, hinv, rfl, rfl⟩

theorem lfu_step_inv (env : LfuEnv K V) (s s1 : LfuBase K V) (hinv : Inv s) (op : Op K V)
    (h : step env s op = some s1) :
    Inv s1 ∧ s1.capacity = s.capacity ∧ s1.maxAverageNum = s.maxAverageNum := by
  cases op with
  | put key value => exact lfu_put_inv env s s1 hinv key value h
  | get key =>
    obtain ⟨r, hr, hi, hc, hm⟩ := lfu_get_inv env s hinv key
    simp only [step, hr, Option.map_some', Option.some.injEq] at h
    subst h
    exact ⟨hi, hc, hm⟩
  | purge =>
    simp only [step, Option.some.injEq] at h
    subst h
    exact ⟨lfu_inv_purge s, rfl, rfl⟩

theorem lfu_run_inv (env : LfuEnv K V) (ops : List (Op K V)) (s s1 : LfuBase K V) (hinv : Inv s)
    (h : run env s ops = some s1) :
    Inv s1 ∧ s1.capacity = s.capacity ∧ s1.maxAverageNum = s.maxAverageNum := by
  induction ops generalizing s with
  | nil =>
    simp only [run, Option.some.injEq] at h
    subst h
    exact ⟨hinv, rfl, rfl⟩
  | cons op ops ih =>
    unfold run at h
    cases hs : step env s op with
    | none => rw [hs] at h; cases h
    | some t =>
      rw [hs] at h
      simp only at h
      obtain ⟨hi, hc, hm⟩ := lfu_step_inv env s t hinv op hs
      obtain ⟨hi2, hc2, hm2⟩ := ih t hi h
      exact ⟨hi2, by rw [hc2, hc], by rw [hm2, hm]⟩

/-- Every state reachable from the empty cache satisfies the invariant and has
the capacity and `maxAverageNum_` it was built with. -/
theorem lfu_reachable_inv {env : LfuEnv K V} {cap maxAvg : Int} {s : LfuBase K V}
    (h : Reachable env cap maxAvg s) :
    Inv s ∧ s.capacity = cap ∧ s.maxAverageNum = maxAvg := by
  obtain ⟨ops, hops⟩ := h
  exact lfu_run_inv env ops _ s (lfu_inv_new cap maxAvg) hops

end LfuBase
end MyCache

namespace MyCache
namespace LfuBase
variable {K V : Type} [DecidableEq K]

/-- C10 (LFU aging rule): in a state that satisfies the structural invariant of
`LfuBase` (every reachable state does), with `maxAverageNum_ ≥ 0` and every
resident node of `freq ≥ 1`, `handleOverMaxAverageNum` returns a state with the
same map, in which every resident node keeps its key and value and has
`freq = max(1, old freq - maxAverageNum_ / 2)`, hence `1 ≤ freq ≤ old freq`, and in
which `curTotalNum_` is lower by exactly the sum of the reductions of the nodes. -/
theorem lfu_aging_rule (env : LfuEnv K V) (s : LfuBase K V) (hinv : Inv s)
    (hmax : 0 ≤ s.maxAverageNum) (hfreq : ∀ e ∈ s.nodeMap, 1 ≤ freqAt s e.2) :
    ∃ s1, handleOverMaxAverageNum env s = some s1 ∧ s1.nodeMap = s.nodeMap ∧
      (∀ e ∈ s.nodeMap, ∃ n n1, s.heap[e.2]? = some n ∧ s1.heap[e.2]? = some n1 ∧
        n1.freq = max 1 (n.freq - s.maxAverageNum / 2) ∧ 1 ≤ n1.freq ∧ n1.freq ≤ n.freq ∧
        n1.key = n.key ∧ n1.value = n.value) ∧
      s1.curTotalNum
        = s.curTotalNum - (s.nodeMap.map (fun e => freqAt s e.2 - freqAt s1 e.2)).sum := by
  obtain ⟨s1, hs1, _, hnm, _, _, htot, hvis, _⟩ := lfu_handleOverMaxAverageNum_spec env s hinv
  refine ⟨s1, hs1, hnm, ?_, ?_⟩
  · intro e he
    obtain ⟨n, l, hn, _⟩ := hinv.2.2.1 e he
    have h1 := hfreq e he
    rw [lfu_freqAt_eq s _ n hn] at h1
    obtain ⟨hb1, hb2⟩ := agedFreq_bounds s.maxAverageNum n.freq hmax h1
    exact ⟨n, _, hn, hvis e he n hn, agedFreq_eq_max _ _ hmax, hb1, hb2, rfl, rfl⟩
  · rw [htot]
    congr 1
    congr 1
    apply List.map_congr_left
    intro e he
    obtain ⟨n, l, hn, _⟩ := hinv.2.2.1 e he
    rw [lfu_freqAt_eq s _ n hn, lfu_freqAt_eq s1 _ _ (hvis e he n hn)]

theorem lfu_bucket_erase_of_freq_ne (s : LfuBase K V) (hinv : Inv s) (i : Nat) (n : Node K V)
    (hn : s.heap[i]? = some n) (g : Int) (hg : g ≠ n.freq) :
    (bucket s g).erase i = bucket s g := by
  apply List.erase_of_not_mem
  unfold bucket
  cases hl : s.freqToFreqList.lookup g with
  | none => simp
  | some l =>
    intro hmem
    obtain ⟨m, hm, hmf⟩ := (hinv.2.2.2 g l hl).2 i hmem
    have : m = n := Option.some.inj (hm.symm.trans hn)
    subst this
    exact hg hmf.symm

/-- C9 (LFU get contract): in a state reachable from the empty cache, a resident
key `k` has a node `n` (handle `i`) that is linked in the list of `n.freq`; if the
average recomputed by the access does not exceed `maxAverageNum_` (no aging),
`get(k)` returns true with the stored value and a state with the same map in
which node `i` has `freq = n.freq + 1` and every other node its former record,
`i` is the last entry of the list of `n.freq + 1`, the list of `n.freq` is the
former one with `i` unlinked (the other nodes keep their order), and every other
list is as before.  A `get` of a key that is not resident returns false and
leaves the state unchanged. -/
theorem lfu_get_contract (env : LfuEnv K V) (cap maxAvg : Int) (s : LfuBase K V)
    (hs : Reachable env cap maxAvg s) (k : K) :
    (k ∈ keys s → ∃ i n, s.nodeMap.lookup k = some i ∧ s.heap[i]? = some n ∧
      i ∈ bucket s n.freq ∧
      (divSize (s.curTotalNum + 1) s.nodeMap.length ≤ s.maxAverageNum →
        ∃ s1, get env s k = some (some n.value, s1) ∧
          s1.nodeMap = s.nodeMap ∧ s1.capacity = s.capacity ∧
          s1.curTotalNum = s.curTotalNum + 1 ∧
          (∀ (j : Nat) (m : Node K V), s.heap[j]? = some m →
            s1.heap[j]? = some (if j = i then { m with freq := m.freq + 1 } else m)) ∧
          bucket s1 (n.freq + 1) = bucket s (n.freq + 1) ++ [i] ∧
          bucket s1 n.freq = (bucket s n.freq).erase i ∧
          (∀ g, g ≠ n.freq → g ≠ n.freq + 1 → bucket s1 g = bucket s g))) ∧
    (k ∉ keys s → get env s k = some (none, s)) := by
  obtain ⟨hinv, _, _⟩ := lfu_reachable_inv hs
  constructor
  · intro hk
    obtain ⟨i, hi⟩ := Option.isSome_iff_exists.1 ((lookup_isSome_iff_mem s.nodeMap k).2 hk)
    have he := mem_of_lookup_eq_some hi
    obtain ⟨n, s4, s5, extra, hn, hget, hadd, hinv4, _, _, _, _, h4nm, h4cap, h4max, h4tot,
      _, h4heap, h4other, l1, hl1, hitems⟩ := lfu_getInternal_spec env s hinv (k, i) he
    simp only at hn hget h4heap h4other hl1 hitems
    obtain ⟨n0, l, hn0, _, hl, hmem⟩ := hinv.2.2.1 (k, i) he
    simp only at hn0 hmem
    have hnn : n0 = n := Option.some.inj (hn0.symm.trans hn)
    subst hnn
    refine ⟨i, n0, hi, hn, by unfold bucket; rw [hl]; exact hmem, ?_⟩
    intro hq
    obtain ⟨r1, r2, r3, r4, r5, r6, r7⟩ :=
      lfu_recomputeAverage_fields { s4 with curTotalNum := s4.curTotalNum + 1 }
    have hne : s.nodeMap.isEmpty = false := by
      cases hs0 : s.nodeMap with
      | nil => rw [hs0] at he; cases he
      | cons _ _ => rfl
    have hquiet := lfu_addFreqNum_quiet env s4 (by
      unfold recomputeAverage
      simp only [h4nm, hne, h4tot, h4max, Bool.false_eq_true, if_false]
      exact hq)
    rw [hadd] at hquiet
    have hs5 := Option.some.inj hquiet
    simp only at r2 r4 r5 r6 r7
    refine ⟨s5, ?_, ?_, ?_, ?_, ?_, ?_, ?_, ?_⟩
    · simp [get, hi, hget]
    · rw [hs5, r5, h4nm]
    · rw [hs5, r1]; exact h4cap
    · rw [hs5, r4, h4tot]
    · intro j m hj
      rw [hs5, r7, h4heap, heap_get_set_append _ _ _ _ _ _ hj]
      by_cases hji : j = i
      · subst hji
        have : m = n0 := Option.some.inj (hj.symm.trans hn)
        subst this
        simp
      · simp [hji]
    · unfold bucket
      rw [hs5, r6, hl1]
      simp only
      rw [hitems, lfu_bucket_erase_of_freq_ne s hinv i n0 hn (n0.freq + 1) (by omega)]
      rfl
    · unfold bucket
      rw [hs5, r6, h4other n0.freq (by omega), hl]
      rfl
    · intro g hg1 hg2
      have := lfu_bucket_erase_of_freq_ne s hinv i n0 hn g hg1
      unfold bucket at this ⊢
      rw [hs5, r6, h4other g hg2]
      cases hlg : s.freqToFreqList.lookup g with
      | none => rfl
      | some lg =>
        rw [hlg] at this
        simpa using this
  · intro hk
    have hnone := (lookup_eq_none_iff_not_mem s.nodeMap k).2 hk
    simp [get, hnone]

end LfuBase
end MyCache

namespace MyCache
namespace LfuBase

theorem lfu_sample_reachable : Reachable intEnv 2 4 sample :=
  ⟨[Op.put 1 1, Op.get 1, Op.get 1, Op.put 2 5], by decide⟩

theorem lfu_aging_rule_witness :
    (Inv sample ∧ 0 ≤ sample.maxAverageNum ∧ ∀ e ∈ sample.nodeMap, 1 ≤ freqAt sample e.2) ∧
    ∃ s1, handleOverMaxAverageNum intEnv sample = some s1 ∧ s1.nodeMap = sample.nodeMap ∧
      (∀ e ∈ sample.nodeMap, ∃ n n1, sample.heap[e.2]? = some n ∧ s1.heap[e.2]? = some n1 ∧
        n1.freq = max 1 (n.freq - sample.maxAverageNum / 2) ∧ 1 ≤ n1.freq ∧ n1.freq ≤ n.freq ∧
        n1.key = n.key ∧ n1.value = n.value) ∧
      s1.curTotalNum
        = sample.curTotalNum
          - (sample.nodeMap.map (fun e => freqAt sample e.2 - freqAt s1 e.2)).sum :=
  ⟨⟨(lfu_reachable_inv lfu_sample_reachable).1, by decide, by decide⟩,
    lfu_aging_rule intEnv sample (lfu_reachable_inv lfu_sample_reachable).1 (by decide)
      (by decide)⟩

theorem lfu_get_contract_witness :
    Reachable intEnv 2 4 sample ∧
    ((1 ∈ keys sample → ∃ i n, sample.nodeMap.lookup 1 = some i ∧ sample.heap[i]? = some n ∧
      i ∈ bucket sample n.freq ∧
      (divSize (sample.curTotalNum + 1) sample.nodeMap.length ≤ sample.maxAverageNum →
        ∃ s1, get intEnv sample 1 = some (some n.value, s1) ∧
          s1.nodeMap = sample.nodeMap ∧ s1.capacity = sample.capacity ∧
          s1.curTotalNum = sample.curTotalNum + 1 ∧
          (∀ (j : Nat) (m : Node Nat Nat), sample.heap[j]? = some m →
            s1.heap[j]? = some (if j = i then { m with freq := m.freq + 1 } else m)) ∧
          bucket s1 (n.freq + 1) = bucket sample (n.freq + 1) ++ [i] ∧
          bucket s1 n.freq = (bucket sample n.freq).erase i ∧
          (∀ g, g ≠ n.freq → g ≠ n.freq + 1 → bucket s1 g = bucket sample g))) ∧
    (1 ∉ keys sample → get intEnv sample 1 = some (none, sample))) :=
  ⟨lfu_sample_reachable, lfu_get_contract intEnv 2 4 sample lfu_sample_reachable 1⟩

/-- The sample state meets the premises of C9 that the witness leaves open: key 1
is resident and the access does not trigger aging. -/
theorem lfu_sample_facts :
    1 ∈ keys sample ∧
    divSize (sample.curTotalNum + 1) sample.nodeMap.length ≤ sample.maxAverageNum ∧
    (get intEnv sample 1).map (fun r => (r.1, keys r.2, freqAt r.2 0, bucket r.2 4, bucket r.2 3))
      = some (some 1, [1, 2], 4, [0], []) := by
  decide

end LfuBase
end MyCache

namespace MyCache
namespace LfuBase
variable {K V : Type} [DecidableEq K]

theorem divSize_one (t : Int) (h0 : 0 ≤ t) (h1 : t < 2147483648) : divSize t 1 = t := by
  unfold divSize wrapInt32
  simp only [Nat.cast_one, Int.ediv_one]
  omega

/-- With one resident and a total in the range of `int`, the recomputed average
is the total. -/
theorem lfu_recomputeAverage_single (s : LfuBase K V) (e : K × Nat) (hnm : s.nodeMap = [e])
    (h0 : 0 ≤ s.curTotalNum) (h1 : s.curTotalNum < 2147483648) :
    recomputeAverage s = { s with curAverageNum := s.curTotalNum } := by
  unfold recomputeAverage
  have hne : s.nodeMap.isEmpty = false := by rw [hnm]; rfl
  rw [if_neg (by rw [hne]; exact Bool.false_ne_true)]
  have hlen : s.nodeMap.length = 1 := by rw [hnm]; rfl
  rw [hlen, divSize_one _ h0 h1]

/-- The member `addFreqNum` when the recomputed average exceeds `maxAverageNum_`:
the aging step runs. -/
theorem lfu_addFreqNum_loud (env : LfuEnv K V) (s : LfuBase K V)
    (hq : (recomputeAverage { s with curTotalNum := s.curTotalNum + 1 }).curAverageNum
      > s.maxAverageNum) :
    addFreqNum env s
      = handleOverMaxAverageNum env (recomputeAverage { s with curTotalNum := s.curTotalNum + 1 }) := by
  obtain ⟨h1, h2, h3, h4, h5, h6, h7⟩ :=
    lfu_recomputeAverage_fields { s with curTotalNum := s.curTotalNum + 1 }
  unfold addFreqNum
  simp only
  rw [if_pos]
  rw [h3]
  exact hq

/-- The aging step with a single resident: one round of the loop, then the test
of `minFreq_` against `INI8_MAX`. -/
theorem lfu_handleOver_single (env : LfuEnv K V) (t : LfuBase K V) (hinv : Inv t)
    (e : K × Nat) (hnm : t.nodeMap = [e]) :
    ∃ s1 n extra, t.heap[e.2]? = some n ∧
      handleOverMaxAverageNum env t
        = some (if s1.minFreq = env.INI8_MAX then { s1 with minFreq := 1 } else s1) ∧
      Inv s1 ∧ s1.capacity = t.capacity ∧ s1.maxAverageNum = t.maxAverageNum ∧
      s1.minFreq = min env.INI8_MAX (agedFreq t.maxAverageNum n.freq) ∧
      s1.curTotalNum = t.curTotalNum - (n.freq - agedFreq t.maxAverageNum n.freq) ∧
      s1.nodeMap = t.nodeMap ∧
      s1.heap = t.heap.set e.2 { n with freq := agedFreq t.maxAverageNum n.freq } ++ extra ∧
      (∀ g, g ≠ agedFreq t.maxAverageNum n.freq → s1.freqToFreqList.lookup g
        = (t.freqToFreqList.lookup g).map (fun l => { l with items := l.items.erase e.2 })) ∧
      (∃ l1, s1.freqToFreqList.lookup (agedFreq t.maxAverageNum n.freq) = some l1 ∧
        l1.items = (bucket t (agedFreq t.maxAverageNum n.freq)).erase e.2 ++ [e.2]) := by
  have hinv0 : Inv { t with minFreq := env.INI8_MAX } := lfu_inv_congr rfl rfl rfl hinv
  have he : e ∈ ({ t with minFreq := env.INI8_MAX } : LfuBase K V).nodeMap := by
    show e ∈ t.nodeMap
    rw [hnm]; exact List.mem_singleton_self e
  obtain ⟨s1, n, extra, hn, hage, hinv1, hcap, hmax, hmin, htot, hnm1, hheap, hother, hnew⟩ :=
    lfu_ageNode_spec env { t with minFreq := env.INI8_MAX } hinv0 e he
  refine ⟨s1, n, extra, hn, ?_, hinv1, hcap, hmax, hmin, htot, hnm1, hheap, hother, hnew⟩
  unfold handleOverMaxAverageNum
  have hne : t.nodeMap.isEmpty = false := by rw [hnm]; rfl
  rw [if_neg (by rw [hne]; exact Bool.false_ne_true)]
  have hloop1 : ageLoop env [e] { t with minFreq := env.INI8_MAX } = some s1 := by
    rw [ageLoop, hage]
    rfl
  have hloop : ageLoop env t.nodeMap { t with minFreq := env.INI8_MAX } = some s1 :=
    (congrArg (fun l => ageLoop env l { t with minFreq := env.INI8_MAX }) hnm).trans hloop1
  rw [hloop]

end LfuBase
end MyCache

namespace MyCache
namespace LfuBase

theorem agedFreq_one (f : Int) (hf : 1 ≤ f) : agedFreq 1 f = f := by
  unfold agedFreq
  have h : Int.tdiv 1 2 = 0 := by decide
  rw [h]
  simp only [sub_zero]
  rw [if_neg (by omega)]

theorem lfu_overflow_step (env : LfuEnv Nat Nat) (hk : env.defaultKey ≠ 1) (m : Nat)
    (s : LfuBase Nat Nat) (hs : OverflowShape env m s)
    (hP : (m : Int) + 2 ≤ env.INI8_MAX) (hP2 : env.INI8_MAX < 2147483648) :
    ∃ s1, get env s 1 = some (some 1, s1) ∧ OverflowShape env (m + 1) s1 := by
  obtain ⟨hinv, hnm, hcap, hmax, htot, hheap0, ⟨l, hl, htail, hitems⟩, hmin⟩ := hs
  have he : ((1, 0) : Nat × Nat) ∈ s.nodeMap := by rw [hnm]; exact List.mem_singleton_self _
  obtain ⟨n, s4, s5, extra, hn, hget, hadd, hinv4, hinv5, h5nm, h5cap, h5max, h4nm, h4cap,
    h4max, h4tot, h4min, h4heap, h4other, _⟩ := lfu_getInternal_spec env s hinv (1, 0) he
  simp only at hn hget h4heap h4other
  have hnn : n = { freq := (m : Int) + 1, key := 1, value := 1 } :=
    Option.some.inj (hn.symm.trans hheap0)
  subst hnn
  simp only at hget h4heap h4other
  -- the sentinel of list 1 is not node 0
  have htail0 : l.tail ≠ 0 := by
    intro h0
    rw [h0, hheap0] at htail
    have := congrArg Node.key (Option.some.inj htail)
    exact hk this.symm
  -- the state that enters the aging step
  obtain ⟨t, htdef⟩ : ∃ t : LfuBase Nat Nat,
      t = recomputeAverage { s4 with curTotalNum := s4.curTotalNum + 1 } := ⟨_, rfl⟩
  obtain ⟨r1, r2, r3, r4, r5, r6, r7⟩ :=
    lfu_recomputeAverage_fields { s4 with curTotalNum := s4.curTotalNum + 1 }
  rw [← htdef] at r1 r2 r3 r4 r5 r6 r7
  simp only at r1 r2 r3 r4 r5 r6 r7
  have ht : t.curAverageNum = s4.curTotalNum + 1 := by
    rw [htdef, lfu_recomputeAverage_single { s4 with curTotalNum := s4.curTotalNum + 1 } (1, 0)
      (by show s4.nodeMap = _; rw [h4nm, hnm]) (by show 0 ≤ s4.curTotalNum + 1; omega)
      (by show s4.curTotalNum + 1 < _; omega)]
  have hloud := lfu_addFreqNum_loud env s4 (by rw [← htdef, ht]; omega)
  rw [← htdef] at hloud
  have hinvt : Inv t := lfu_inv_congr r5 r7 r6 hinv4
  obtain ⟨s1, n1, extra1, hn1, hho, hinv1, hcap1, hmax1, hmin1, htot1, hnm1, hheap1, hother1, _⟩ :=
    lfu_handleOver_single env t hinvt (1, 0) (by rw [r5, h4nm, hnm])
  simp only at hn1 hheap1 hother1
  rw [r7] at hn1 hheap1
  rw [r3] at hmin1 htot1 hheap1 hother1
  rw [r4] at htot1
  have h40 : s4.heap[0]? = some { freq := (m : Int) + 1 + 1, key := 1, value := 1 } := by
    rw [h4heap, heap_get_set_append _ _ _ _ _ _ hheap0]
    simp
  have hn1eq : n1 = { freq := (m : Int) + 1 + 1, key := 1, value := 1 } :=
    Option.some.inj (hn1.symm.trans h40)
  subst hn1eq
  simp only at htot1 hmin1 hheap1 hother1
  rw [h4max, hmax, agedFreq_one _ (by omega)] at htot1 hmin1 hheap1 hother1
  have hs5 : s5 = (if s1.minFreq = env.INI8_MAX then { s1 with minFreq := 1 } else s1) :=
    Option.some.inj ((hadd.symm.trans hloud).trans hho)
  have hmin1b : s1.minFreq = (m : Int) + 1 + 1 := by rw [hmin1]; omega
  -- fields of the final state
  have f_tot : s5.curTotalNum = s1.curTotalNum := by rw [hs5]; split <;> rfl
  have f_heap : s5.heap = s1.heap := by rw [hs5]; split <;> rfl
  have f_lists : s5.freqToFreqList = s1.freqToFreqList := by rw [hs5]; split <;> rfl
  have f_min : s5.minFreq = (if (m : Int) + 1 + 1 = env.INI8_MAX then 1 else (m : Int) + 1 + 1) := by
    rw [hs5]
    split
    · rename_i hc; rw [hmin1b] at hc; rw [if_pos hc]
    · rename_i hc; rw [hmin1b] at hc; rw [if_neg hc]; exact hmin1b
  have hg1 : ∀ (j : Nat) (x : Node Nat Nat), s.heap[j]? = some x → j ≠ 0 → s5.heap[j]? = some x := by
    intro j x hj hj0
    have h4 : s4.heap[j]? = some x := by
      rw [h4heap, heap_get_set_append _ _ _ _ _ _ hj, if_neg hj0]
    rw [f_heap, hheap1, heap_get_set_append _ _ _ _ _ _ h4, if_neg hj0]
  refine ⟨s5, ?_, hinv5, by rw [h5nm, hnm], by rw [h5cap, hcap], by rw [h5max, hmax], ?_, ?_, ?_, ?_⟩
  · simp only [get, hnm, List.lookup, beq_self_eq_true, hget]
  · rw [f_tot, htot1, h4tot, htot]
    push_cast
    omega
  · rw [f_heap, hheap1, heap_get_set_append _ _ _ _ _ _ h40]
    simp only [if_true]
    push_cast
    rfl
  · refine ⟨{ l with items := (l.items.erase 0).erase 0 }, ?_, hg1 _ _ htail htail0, ?_⟩
    · rw [f_lists, hother1 1 (by omega), r6, h4other 1 (by omega), hl]
      rfl
    · show (l.items.erase 0).erase 0 = _
      rw [hitems, if_neg (Nat.succ_ne_zero m)]
      split <;> rfl
  · rw [f_min]
    push_cast
    rfl

end LfuBase
end MyCache

namespace MyCache
namespace LfuBase
variable {K V : Type} [DecidableEq K]

/-- The member `putInternal` unfolded along the path it takes. -/
theorem lfu_putInternal_eq (env : LfuEnv K V) (s s1 s4 s5 : LfuBase K V) (key : K) (value : V)
    (hpre : (if (s.nodeMap.length : Int) = s.capacity then kickOut s else some s) = some s1)
    (hadd : addToFreqList env
        { s1 with heap := s1.heap ++ [Node.mk1 key value],
                  nodeMap := mapAssign s1.nodeMap key s1.heap.length } s1.heap.length = some s4)
    (hf : addFreqNum env s4 = some s5) :
    putInternal env s key value = some { s5 with minFreq := min s5.minFreq 1 } := by
  unfold putInternal
  rw [hpre]
  simp only
  rw [hadd]
  simp only
  rw [hf]

theorem lfu_overflow_start (env : LfuEnv Nat Nat) :
    put env (new 1 1) 1 1 = some (overflowStart env) := by
  have hadd : addToFreqList env
      { (new 1 1 : LfuBase Nat Nat) with
        heap := (new 1 1 : LfuBase Nat Nat).heap ++ [Node.mk1 1 1],
        nodeMap := mapAssign (new 1 1 : LfuBase Nat Nat).nodeMap 1
          (new 1 1 : LfuBase Nat Nat).heap.length }
      (new 1 1 : LfuBase Nat Nat).heap.length
      = some { overflowStart env with minFreq := INT8_MAX, curAverageNum := 0, curTotalNum := 0 } :=
    rfl
  have hrec : recomputeAverage
      { overflowStart env with minFreq := INT8_MAX, curAverageNum := 0, curTotalNum := 0 + 1 }
      = { overflowStart env with minFreq := INT8_MAX } := by
    rw [lfu_recomputeAverage_single _ (1, 0) rfl (by show (0 : Int) ≤ 0 + 1; decide)
      (by show (0 : Int) + 1 < 2147483648; decide)]
    rfl
  have hfreq : addFreqNum env
      { overflowStart env with minFreq := INT8_MAX, curAverageNum := 0, curTotalNum := 0 }
      = some { overflowStart env with minFreq := INT8_MAX } := by
    rw [lfu_addFreqNum_quiet]
    · exact congrArg some hrec
    · show (recomputeAverage
        { overflowStart env with minFreq := INT8_MAX, curAverageNum := 0,
                                 curTotalNum := 0 + 1 }).curAverageNum ≤ 1
      rw [hrec]
      show (1 : Int) ≤ 1
      decide
  have hput : put env (new 1 1 : LfuBase Nat Nat) 1 1 = putInternal env (new 1 1) 1 1 := by
    unfold put
    rw [if_neg (by show ¬ ((1 : Int) ≤ 0); decide)]
    rfl
  have hpre : (if (((new 1 1 : LfuBase Nat Nat).nodeMap.length : Nat) : Int)
        = (new 1 1 : LfuBase Nat Nat).capacity
      then kickOut (new 1 1 : LfuBase Nat Nat) else some (new 1 1)) = some (new 1 1) :=
    if_neg (by show ¬ (((0 : Nat) : Int) = 1); decide)
  rw [hput, lfu_putInternal_eq env _ _ _ _ 1 1 hpre hadd hfreq]
  have hmin : min INT8_MAX (1 : Int) = 1 := by decide
  show some ({ overflowStart env with minFreq := min INT8_MAX 1 } : LfuBase Nat Nat) = _
  rw [hmin]
  rfl

theorem lfu_run_cons (env : LfuEnv K V) (s s1 : LfuBase K V) (op : Op K V) (ops : List (Op K V))
    (h : step env s op = some s1) : run env s (op :: ops) = run env s1 ops := by
  rw [run, h]

theorem lfu_overflow_base (env : LfuEnv Nat Nat) : OverflowShape env 0 (overflowStart env) := by
  have hr : Reachable env 1 1 (overflowStart env) :=
    ⟨[Op.put 1 1], (lfu_run_cons env (new 1 1) (overflowStart env) (Op.put 1 1) []
      (lfu_overflow_start env)).trans rfl⟩
  refine ⟨(lfu_reachable_inv hr).1, rfl, rfl, rfl, ?_, ?_, ⟨_, rfl, rfl, rfl⟩, ?_⟩
  · show (1 : Int) = ((0 : Nat) : Int) + 1
    decide
  · show some ({ freq := 1, key := 1, value := 1 } : Node Nat Nat)
      = some { freq := ((0 : Nat) : Int) + 1, key := 1, value := 1 }
    decide
  · show (1 : Int) = if ((0 : Nat) : Int) + 1 = env.INI8_MAX then 1 else ((0 : Nat) : Int) + 1
    have h : ((0 : Nat) : Int) + 1 = 1 := by decide
    rw [h]
    split <;> rfl

/-- The gets of the trace: `j` calls of `get(1)` lead from the shape of `m` gets to
the shape of `m + j` gets, as long as the frequency stays within `INI8_MAX`. -/
theorem lfu_overflow_gets (env : LfuEnv Nat Nat) (hk : env.defaultKey ≠ 1)
    (hP2 : env.INI8_MAX < 2147483648) (rest : List (Op Nat Nat)) (j : Nat) :
    ∀ (m : Nat) (s : LfuBase Nat Nat), OverflowShape env m s →
      (m : Int) + j + 1 ≤ env.INI8_MAX →
      ∃ s1, run env s (List.replicate j (Op.get 1) ++ rest) = run env s1 rest ∧
        OverflowShape env (m + j) s1 := by
  induction j with
  | zero =>
    intro m s hs _
    exact ⟨s, rfl, hs⟩
  | succ j ih =>
    intro m s hs hle
    obtain ⟨s1, hget, hs1⟩ := lfu_overflow_step env hk m s hs (by push_cast at hle; omega) hP2
    obtain ⟨s2, hrun, hs2⟩ := ih (m + 1) s1 hs1 (by push_cast at hle ⊢; omega)
    have hstep : step env s (Op.get 1) = some s1 := by
      simp only [step, hget, Option.map_some']
    have hidx : m + 1 + j = m + (j + 1) := by omega
    refine ⟨s2, ?_, hidx ▸ hs2⟩
    rw [List.replicate_succ, List.cons_append,
      lfu_run_cons env s s1 (Op.get 1) _ hstep, hrun]

/-- The member `kickOut` unfolded along the path it takes. -/
theorem lfu_kickOut_eq (s : LfuBase K V) (l l2 : FreqList) (n : Node K V)
    (hl : s.freqToFreqList.lookup s.minFreq = some l) (hn : s.heap[l.getFirstNode]? = some n)
    (hl2 : s.freqToFreqList.lookup n.freq = some l2) :
    kickOut s = some (decreaseFreqNum
      { s with freqToFreqList := FreqList.removeNode s.freqToFreqList l.getFirstNode,
               nodeMap := mapErase s.nodeMap n.key } n.freq) := by
  unfold kickOut
  rw [hl]
  simp only
  rw [lfu_removeFromFreqList_eq s _ n l2 hn hl2]
  simp only
  rw [hn]

theorem lfu_put_eq_putInternal (env : LfuEnv K V) (s : LfuBase K V) (key : K) (value : V)
    (h1 : ¬ s.capacity ≤ 0) (h2 : s.nodeMap.lookup key = none) :
    put env s key value = putInternal env s key value := by
  unfold put
  rw [if_neg h1, h2]

/-- The last call of the trace: with `minFreq_` reset to 1 and the list of
frequency 1 empty, `put(2,2)` on the full cache evicts nothing. -/
theorem lfu_overflow_put (env : LfuEnv Nat Nat) (hk : env.defaultKey ≠ 1) (m : Nat) (hm : 1 ≤ m)
    (s : LfuBase Nat Nat) (hs : OverflowShape env m s) (hP : (m : Int) + 1 = env.INI8_MAX) :
    ∃ s1, put env s 2 2 = some s1 ∧ s1.capacity = 1 ∧ keys s1 = [1, 2] := by
  obtain ⟨hinv, hnm, hcap, hmax, htot, hheap0, ⟨l, hl, htail, hitems⟩, hmin⟩ := hs
  rw [if_pos hP] at hmin
  rw [if_neg (by omega)] at hitems
  have hfirst : l.getFirstNode = l.tail := by
    unfold FreqList.getFirstNode
    rw [hitems]
  have hkick0 := lfu_kickOut_eq s l l (Node.sentinel env) (by rw [hmin]; exact hl)
    (by rw [hfirst]; exact htail) hl
  obtain ⟨d1, d2, d3, d4, d5, d6, d7⟩ := lfu_decreaseFreqNum_fields
    ({ s with freqToFreqList := FreqList.removeNode s.freqToFreqList l.getFirstNode,
              nodeMap := mapErase s.nodeMap (Node.sentinel env).key }) (Node.sentinel env).freq
  simp only at d5
  have hme : mapErase s.nodeMap (Node.sentinel env).key = [(1, 0)] := by
    rw [hnm]
    unfold mapErase
    have : decide (((1, 0) : Nat × Nat).1 ≠ (Node.sentinel env).key) = true := by
      simp only [decide_eq_true_eq]
      exact fun h => hk h.symm
    rw [List.filter_cons, this, if_pos rfl]
    rfl
  obtain ⟨sk, hkick, hnmk⟩ : ∃ sk, kickOut s = some sk ∧ sk.nodeMap = [(1, 0)] :=
    ⟨_, hkick0, d5.trans hme⟩
  obtain ⟨hinvk, hcapk, _, _, _⟩ := lfu_kickOut_inv s sk hinv hkick
  have hpre : (if (s.nodeMap.length : Int) = s.capacity then kickOut s else some s) = some sk := by
    rw [if_pos (by rw [hnm, hcap]; rfl)]
    exact hkick
  obtain ⟨s4, hadd, hinv4, hnm4, hcap4, _⟩ := lfu_insert_spec env sk hinvk 2 2
    (by rw [hnmk]; rfl)
  obtain ⟨s5, hs5, _, hnm5, hcap5, _⟩ := lfu_addFreqNum_spec env s4 hinv4
  refine ⟨{ s5 with minFreq := min s5.minFreq 1 }, ?_, ?_, ?_⟩
  · rw [lfu_put_eq_putInternal env s 2 2 (by rw [hcap]; decide) (by rw [hnm]; rfl)]
    exact lfu_putInternal_eq env s sk s4 s5 2 2 hpre hadd hs5
  · show s5.capacity = 1
    rw [hcap5, hcap4, hcapk, hcap]
  · show s5.nodeMap.map Prod.fst = [1, 2]
    rw [hnm5, hnm4, hnmk]
    rfl

/-- The defect behind C7 and C8 with a non-negative `maxAverageNum`: capacity 1,
`maxAverageNum` 1, any value of `INI8_MAX` from 2 up in the range of `int`, a
sentinel key other than 1.  `put(1,1)` and `INI8_MAX - 1` calls of `get(1)` bring
the only node to frequency `INI8_MAX`; the aging step then finds no frequency
below `INI8_MAX` and resets `minFreq_` to 1, so the `kickOut` of `put(2,2)` meets
the empty list of frequency 1 and both keys are resident with capacity 1. -/
theorem lfu_minFreq_reset_overflow (env : LfuEnv Nat Nat) (hk : env.defaultKey ≠ 1)
    (hP1 : 2 ≤ env.INI8_MAX) (hP2 : env.INI8_MAX < 2147483648) :
    ∃ s, run env (new 1 1)
        (Op.put 1 1 :: (List.replicate (env.INI8_MAX - 1).toNat (Op.get 1) ++ [Op.put 2 2]))
        = some s ∧ s.capacity = 1 ∧ keys s = [1, 2] := by
  have hj : (((env.INI8_MAX - 1).toNat : Nat) : Int) = env.INI8_MAX - 1 :=
    Int.toNat_of_nonneg (by omega)
  obtain ⟨s1, hrun, hs1⟩ := lfu_overflow_gets env hk hP2 [Op.put 2 2] (env.INI8_MAX - 1).toNat 0
    (overflowStart env) (lfu_overflow_base env) (by rw [hj]; push_cast; omega)
  obtain ⟨s2, hput, hcap2, hkeys2⟩ := lfu_overflow_put env hk _ (by omega) s1 hs1
    (by push_cast; rw [hj]; omega)
  refine ⟨s2, ?_, hcap2, hkeys2⟩
  rw [lfu_run_cons env (new 1 1) (overflowStart env) (Op.put 1 1) _ (lfu_overflow_start env),
    hrun, lfu_run_cons env s1 s2 (Op.put 2 2) [] hput]
  rfl

/-- The same trace with `INI8_MAX` read as `INT8_MAX` and sentinel key 0: after
`put(1,1)`, 126 calls of `get(1)` and `put(2,2)` on the cache of capacity 1 with
`maxAverageNum` 1, keys 1 and 2 are both resident. -/
theorem lfu_int8_sentinel_trace :
    ∃ s, run intEnv (new 1 1)
        (Op.put 1 1 :: (List.replicate 126 (Op.get 1) ++ [Op.put 2 2]))
        = some s ∧ s.capacity = 1 ∧ keys s = [1, 2] :=
  lfu_minFreq_reset_overflow intEnv (by decide) (by decide) (by decide)

end LfuBase
end MyCache

namespace MyCache
namespace HashLruCaches
variable {K V : Type} [DecidableEq K]

theorem hash_sliceIndex_eq {n cap : Int} (hn : 1 ≤ n) (hn2 : n < 18446744073709551616)
    (env : HashEnv K) {s : HashLruCaches K V}
    (h : Shards n cap s) (key : K) : sliceIndex env s key = env.hash key % n.toNat := by
  unfold sliceIndex sizeOfInt
  rw [h.1, Int.emod_eq_of_lt (by omega) hn2]

theorem hash_sliceIndex_lt {n cap : Int} (hn : 1 ≤ n) (hn2 : n < 18446744073709551616)
    (env : HashEnv K) {s : HashLruCaches K V}
    (h : Shards n cap s) (key : K) : sliceIndex env s key < s.lruSliceCaches.length := by
  rw [hash_sliceIndex_eq hn hn2 env h, h.2.1]
  exact Nat.mod_lt _ (by omega)

theorem hash_shards_set {n cap : Int} {s : HashLruCaches K V} (h : Shards n cap s) (i : Nat)
    (c : LruBase K V) (hc : LruBase.Inv c ∧ c.capacity = cap ∧ (c.nodeMap.length : Int) ≤ cap) :
    Shards n cap (withSlice s i c) := by
  refine ⟨h.1, by simpa [withSlice] using h.2.1, ?_⟩
  intro x hx
  rcases List.mem_or_eq_of_mem_set hx with hx | hx
  · exact h.2.2 x hx
  · subst hx; exact hc

theorem hash_put_eq (env : HashEnv K) (s : HashLruCaches K V) (key : K) (value : V)
    (c : LruBase K V) (hc : s.lruSliceCaches[sliceIndex env s key]? = some c) :
    put env s key value = withSlice s (sliceIndex env s key) (LruBase.put c key value) := by
  unfold put
  simp only [hc]

theorem hash_get_eq (env : HashEnv K) (s : HashLruCaches K V) (key : K)
    (c : LruBase K V) (hc : s.lruSliceCaches[sliceIndex env s key]? = some c) :
    get env s key =
      ((LruBase.get c key).1, withSlice s (sliceIndex env s key) (LruBase.get c key).2) := by
  unfold get
  simp only [hc]

theorem hash_shards_step {n cap : Int} (env : HashEnv K) {s : HashLruCaches K V}
    (h : Shards n cap s) (op : Op K V) : Shards n cap (step env s op) := by
  cases op with
  | put key value =>
    show Shards n cap (put env s key value)
    cases hc : s.lruSliceCaches[sliceIndex env s key]? with
    | none => unfold put; simp only [hc]; exact h
    | some c =>
      rw [hash_put_eq env s key value c hc]
      have hm := h.2.2 c (List.getElem?_mem hc)
      refine hash_shards_set h _ _ ⟨LruBase.lru_inv_put hm.1 key value, ?_, ?_⟩
      · rw [LruBase.lru_capacity_put]; exact hm.2.1
      · have := LruBase.lru_size_put hm.1 key value (by rw [hm.2.1]; exact hm.2.2)
        rwa [hm.2.1] at this
  | get key =>
    show Shards n cap (get env s key).2
    cases hc : s.lruSliceCaches[sliceIndex env s key]? with
    | none => unfold get; simp only [hc]; exact h
    | some c =>
      rw [hash_get_eq env s key c hc]
      have hm := h.2.2 c (List.getElem?_mem hc)
      refine hash_shards_set h _ _ ⟨LruBase.lru_inv_get hm.1 key, ?_, ?_⟩
      · rw [LruBase.lru_capacity_get]; exact hm.2.1
      · rw [LruBase.lru_nodeMap_get]; exact hm.2.2

theorem hash_shards_run {n cap : Int} (env : HashEnv K) {s : HashLruCaches K V}
    (h : Shards n cap s) (ops : List (Op K V)) : Shards n cap (run env s ops) := by
  induction ops generalizing s with
  | nil => exact h
  | cons op ops ih => exact ih (hash_shards_step env h op)

theorem hash_residents_le {n cap : Int} (hn : 0 ≤ n) (hcap : 0 ≤ cap) {s : HashLruCaches K V}
    (h : Shards n cap s) : (residents s : Int) ≤ n * cap := by
  have h1 : ∀ x ∈ s.lruSliceCaches.map LruBase.size, x ≤ cap.toNat := by
    intro x hx
    obtain ⟨c, hc, rfl⟩ := List.mem_map.1 hx
    have := (h.2.2 c hc).2.2
    unfold LruBase.size
    omega
  have h2 := List.sum_le_card_nsmul _ _ h1
  rw [List.length_map, h.2.1, smul_eq_mul] at h2
  unfold residents
  have e1 : ((n.toNat * cap.toNat : Nat) : Int) = n * cap := by
    push_cast
    rw [Int.toNat_of_nonneg hn, Int.toNat_of_nonneg hcap]
  rw [← e1]
  exact_mod_cast h2

theorem hash_shards_new (env : HashEnv K) (total : Nat) (n : Int) (hn : 1 ≤ n) :
    (new env total n : HashLruCaches K V) = ⟨total, n,
      List.replicate n.toNat (LruBase.new (intOfSize (env.ceilDouble total n)))⟩ := by
  unfold new
  have : n > 0 := by omega
  simp only [this, if_true]

theorem hash_shards_init (total : Nat) (n cap : Int) (hcap : 0 ≤ cap) :
    Shards n cap (⟨total, n, List.replicate n.toNat (LruBase.new cap)⟩ : HashLruCaches K V) := by
  refine ⟨rfl, by simp, ?_⟩
  intro c hc
  rw [List.eq_of_mem_replicate hc]
  exact ⟨LruBase.lru_inv_new cap, rfl, by simpa [LruBase.new] using hcap⟩

theorem intOfSize_eq (m : Nat) (h : m ≤ 2147483647) : intOfSize m = m := by
  unfold intOfSize
  omega

theorem hash_le_mul_ceil (total : Nat) (n : Int) (hn : 1 ≤ n) :
    (total : Int) ≤ n * ⌈(total : ℚ) / (n : ℚ)⌉ := by
  have hpos : (0 : ℚ) < (n : ℚ) := by exact_mod_cast (by omega : (0 : Int) < n)
  have h1 : (total : ℚ) / (n : ℚ) ≤ (⌈(total : ℚ) / (n : ℚ)⌉ : ℚ) := Int.le_ceil _
  have h2 : (total : ℚ) ≤ (n : ℚ) * (⌈(total : ℚ) / (n : ℚ)⌉ : ℚ) := by
    rw [div_le_iff₀ hpos] at h1
    linarith
  exact_mod_cast h2

/-- C20 (sharded LRU partitioning), as the code has it: when the double-precision
ceiling is exact and fits an `int` (`⌈total / N⌉ ≤ 2^31 - 1`), the constructor
builds `N` empty shards of capacity `⌈total / N⌉` each, `N` times that capacity
is at least `total`, and in every state reached by `put` and `get` calls the
number of residents over all shards is at most `N * ⌈total / N⌉`, and `put(k, v)`
and `get(k)` read and replace shard number `hash(k) mod N` only. -/
theorem hash_lru_partitioning (env : HashEnv K) (total : Nat) (N : Int) (hN : 1 ≤ N)
    (hNint : N ≤ 2147483647)
    (hexact : (env.ceilDouble total N : Int) = ⌈(total : ℚ) / (N : ℚ)⌉)
    (hint : ⌈(total : ℚ) / (N : ℚ)⌉ ≤ 2147483647) :
    (new env total N : HashLruCaches K V).lruSliceCaches
        = List.replicate N.toNat (LruBase.new ⌈(total : ℚ) / (N : ℚ)⌉) ∧
    (total : Int) ≤ N * ⌈(total : ℚ) / (N : ℚ)⌉ ∧
    ∀ ops : List (Op K V),
      (residents (run env (new env total N) ops) : Int) ≤ N * ⌈(total : ℚ) / (N : ℚ)⌉ ∧
      ∀ (key : K) (value : V), ∃ c : LruBase K V,
        (run env (new env total N) ops).lruSliceCaches[env.hash key % N.toNat]? = some c ∧
        put env (run env (new env total N) ops) key value
          = withSlice (run env (new env total N) ops) (env.hash key % N.toNat)
              (LruBase.put c key value) ∧
        get env (run env (new env total N) ops) key
          = ((LruBase.get c key).1,
              withSlice (run env (new env total N) ops) (env.hash key % N.toNat)
                (LruBase.get c key).2) := by
  have hle := hash_le_mul_ceil total N hN
  have hceil0 : 0 ≤ ⌈(total : ℚ) / (N : ℚ)⌉ := by
    by_contra hneg
    have h1 : N * ⌈(total : ℚ) / (N : ℚ)⌉ < 0 := by
      apply mul_neg_of_pos_of_neg <;> omega
    omega
  have hcap : intOfSize (env.ceilDouble total N) = ⌈(total : ℚ) / (N : ℚ)⌉ := by
    rw [← hexact]
    exact intOfSize_eq _ (by omega)
  have hnew := hash_shards_new (V := V) env total N hN
  rw [hcap] at hnew
  refine ⟨by rw [hnew], hle, ?_⟩
  intro ops
  have hsh : Shards N ⌈(total : ℚ) / (N : ℚ)⌉ (run env (new env total N : HashLruCaches K V) ops) := by
    apply hash_shards_run
    rw [hnew]
    exact hash_shards_init total N _ hceil0
  refine ⟨hash_residents_le (by omega) hceil0 hsh, ?_⟩
  intro key value
  have hN2 : N < 18446744073709551616 := by omega
  have hidx := hash_sliceIndex_eq hN hN2 env hsh key
  have hlt := hash_sliceIndex_lt hN hN2 env hsh key
  obtain ⟨c, hc⟩ : ∃ c, (run env (new env total N : HashLruCaches K V) ops).lruSliceCaches[
      sliceIndex env (run env (new env total N : HashLruCaches K V) ops) key]? = some c :=
    ⟨_, List.getElem?_eq_getElem hlt⟩
  have hp := hash_put_eq env _ key value c hc
  have hg := hash_get_eq env _ key c hc
  rw [hidx] at hc hp hg
  exact ⟨c, hc, hp, hg⟩

theorem hash_lru_partitioning_witness :
    (1 : Int) ≤ 2 ∧ (2 : Int) ≤ 2147483647 ∧
    ((natHashEnv.ceilDouble 5 2 : Nat) : Int) = ⌈((5 : Nat) : ℚ) / ((2 : Int) : ℚ)⌉ ∧
    ⌈((5 : Nat) : ℚ) / ((2 : Int) : ℚ)⌉ ≤ 2147483647 ∧
    (new natHashEnv 5 2 : HashLruCaches Nat Nat).lruSliceCaches
        = List.replicate (2 : Int).toNat (LruBase.new ⌈((5 : Nat) : ℚ) / ((2 : Int) : ℚ)⌉) ∧
    (residents (run natHashEnv (new natHashEnv 5 2 : HashLruCaches Nat Nat)
        [Op.put 1 1, Op.put 3 3, Op.put 5 5, Op.put 7 7, Op.get 3]) : Int)
      ≤ 2 * ⌈((5 : Nat) : ℚ) / ((2 : Int) : ℚ)⌉ := by
  have hc : ⌈((5 : Nat) : ℚ) / ((2 : Int) : ℚ)⌉ = 3 := by
    rw [Int.ceil_eq_iff]; norm_num
  have he : ((natHashEnv.ceilDouble 5 2 : Nat) : Int) = ⌈((5 : Nat) : ℚ) / ((2 : Int) : ℚ)⌉ := by
    rw [hc]; decide
  have hi : ⌈((5 : Nat) : ℚ) / ((2 : Int) : ℚ)⌉ ≤ 2147483647 := by rw [hc]; decide
  have h := hash_lru_partitioning (V := Nat) natHashEnv 5 2 (by decide) (by decide) he hi
  exact ⟨by decide, by decide, he, hi, h.1, (h.2.2 _).1⟩

/-- C20, the claim as stated fails: a sharded cache built with total capacity
`2^31` and one shard has a shard of capacity `-2^31`, not `⌈2^31 / 1⌉ = 2^31`
(the `size_t` slice size is narrowed to the `int` parameter of `LruBase`), and a
`put` leaves that shard empty. -/
theorem hash_lru_capacity_counterexample :
    ¬ (∀ c ∈ (new natHashEnv 2147483648 1 : HashLruCaches Nat Nat).lruSliceCaches,
        c.capacity = ⌈((2147483648 : Nat) : ℚ) / ((1 : Int) : ℚ)⌉) := by
  intro h
  have hc : ⌈((2147483648 : Nat) : ℚ) / ((1 : Int) : ℚ)⌉ = 2147483648 := by
    rw [Int.ceil_eq_iff]; norm_num
  have hm : (LruBase.new (-2147483648) : LruBase Nat Nat)
      ∈ (new natHashEnv 2147483648 1 : HashLruCaches Nat Nat).lruSliceCaches := by decide
  have := h _ hm
  rw [hc] at this
  exact absurd this (by decide)

end HashLruCaches
end MyCache

namespace MyCache
namespace KLruCache
variable {K V : Type} [DecidableEq K] [DecidableEq V]

theorem klru_put_fresh (env : KLruEnv V) (henv : env.defaultValue = env.emptyLiteral)
    (cap hcap k : Int) (hk : 2 ≤ k) (a : K) (v : V) (s : KLruCache K V)
    (hb : s.base = LruBase.new cap) (hkk : s.k = k)
    (hh : s.historyList = LruBase.new hcap ∨
      (0 < hcap ∧ s.historyList = { capacity := hcap, nodeMap := [(a, LruNode.mk1 a 0)], chain := [a] })) :
    (put env s a v).base = LruBase.new cap ∧ (put env s a v).k = k ∧
    ((put env s a v).historyList = LruBase.new hcap ∨
      (0 < hcap ∧ (put env s a v).historyList =
        { capacity := hcap, nodeMap := [(a, LruNode.mk1 a 0)], chain := [a] })) := by
  have h1 : ¬ (k ≤ 1) := by omega
  have hi : intOfSize 0 = 0 := by decide
  have hs : sizeOfInt 0 = 0 := by decide
  rcases hh with hh | ⟨hpos, hh⟩
  · by_cases hc : hcap ≤ 0
    · simp [put, hb, hh, LruBase.getOr, LruBase.get, LruBase.new, henv, hi, hs, h1, LruBase.put, hc,
        hkk]
    · have hc2 : 0 < hcap := by omega
      simp [put, hb, hh, LruBase.getOr, LruBase.get, LruBase.new, henv, hi, hs, h1, LruBase.put, hc,
        hkk, LruBase.addNewNode, LruBase.insertNode, mapAssign, hc2]
  · have hc : ¬ hcap ≤ 0 := by omega
    simp [put, hb, hh, LruBase.getOr, LruBase.get, LruBase.new, henv, hi, hs, h1, LruBase.put, hc,
        hkk, LruBase.updateExistingNode, LruBase.moveToMostRecent, LruBase.insertNode,
        LruBase.removeNode, LruBase.setValue, LruNode.mk1, hpos]

theorem klru_run_cons (env : KLruEnv V) (s : KLruCache K V) (op : Op K V) (ops : List (Op K V)) :
    run env s (op :: ops) = run env (step env s op) ops := rfl

theorem klru_puts_fresh (env : KLruEnv V) (henv : env.defaultValue = env.emptyLiteral)
    (cap hcap k : Int) (hk : 2 ≤ k) (a : K) (v : V) (n : Nat) (s : KLruCache K V)
    (hb : s.base = LruBase.new cap) (hkk : s.k = k)
    (hh : s.historyList = LruBase.new hcap ∨
      (0 < hcap ∧ s.historyList = { capacity := hcap, nodeMap := [(a, LruNode.mk1 a 0)], chain := [a] })) :
    (run env s (List.replicate n (Op.put a v))).base = LruBase.new cap := by
  induction n generalizing s with
  | zero => exact hb
  | succ n ih =>
    obtain ⟨h1, h2, h3⟩ := klru_put_fresh env henv cap hcap k hk a v s hb hkk hh
    rw [List.replicate_succ, klru_run_cons]
    exact ih (put env s a v) h1 h2 h3

/-- C11 (LRU-K admission law), what the code does: whatever the capacities, for
every threshold `k ≥ 2` and every number `n` of calls `put(a, v)` issued to the
empty cache, the key `a` is absent from the primary cache afterwards.  Each call
stores the history count as read (`historyCount ++`), so the stored count stays
0 and the local count the call compares with `k_` is always 1.  (`Value{}` is
taken equal to the literal `""`, as for `std::string`.) -/
theorem klru_puts_never_admit (env : KLruEnv V) (henv : env.defaultValue = env.emptyLiteral)
    (cap hcap k : Int) (hk : 2 ≤ k) (a : K) (v : V) (n : Nat) :
    primaryValue (run env (new cap hcap k) (List.replicate n (Op.put a v))) a = none := by
  have h := klru_puts_fresh env henv cap hcap k hk a v n (new cap hcap k) rfl rfl (Or.inl rfl)
  unfold primaryValue
  rw [h]
  rfl

theorem klru_puts_never_admit_witness :
    stringEnv.defaultValue = stringEnv.emptyLiteral ∧ (2 : Int) ≤ 3 ∧
    primaryValue (run stringEnv (new 1 3 3 : KLruCache String String)
      (List.replicate 3 (Op.put "a" "1"))) "a" = none :=
  ⟨rfl, by decide, klru_puts_never_admit stringEnv rfl 1 3 3 (by decide) "a" "1" 3⟩

/-- C12 (LRU-K scenario 4), the claim as stated fails: with primary capacity 1,
history capacity 4 and `k = 3`, the primary cache is not empty after
`get(a), get(a), put(a, 1)`. -/
theorem klru_scenario4_counterexample :
    ¬ ((run stringEnv (new 1 4 3 : KLruCache String String)
        [Op.get "a", Op.get "a", Op.put "a" "1"]).base.nodeMap = [] ∧
      primaryValue (run stringEnv (new 1 4 3 : KLruCache String String)
        [Op.get "a", Op.get "a", Op.put "a" "1", Op.put "a" "1"]) "a" = some "1") := by
  decide

/-- C12 (LRU-K scenario 4), as the code has it: with primary capacity 1, history
capacity 4 and `k = 3`, after `get(a), get(a), put(a, 1)` the key `a` is already
resident in the primary cache with value 1 (the two reads left the history count
at 2 and the write compares 3 with `k`), and after one additional `put(a, 1)` it
is resident with value 1. -/
theorem klru_scenario4 :
    primaryValue (run stringEnv (new 1 4 3 : KLruCache String String)
        [Op.get "a", Op.get "a", Op.put "a" "1"]) "a" = some "1" ∧
    primaryValue (run stringEnv (new 1 4 3 : KLruCache String String)
        [Op.get "a", Op.get "a", Op.put "a" "1", Op.put "a" "1"]) "a" = some "1" := by
  decide

end KLruCache
end MyCache

namespace MyCache
namespace ArcLruPart
variable {K V : Type} [DecidableEq K]

theorem arc_lru_checkGhost_hit (s : ArcLruPart K V) (key : K)
    (h : key ∈ s.ghostCache.map Prod.fst) :
    checkGhost s key = (true, { s with ghostList := s.ghostList.erase key,
                                       ghostCache := mapErase s.ghostCache key }) := by
  have h1 := (lookup_isSome_iff_mem s.ghostCache key).2 h
  unfold checkGhost
  cases hl : s.ghostCache.lookup key with
  | none => rw [hl] at h1; simp at h1
  | some n => rfl

theorem arc_lru_checkGhost_miss (s : ArcLruPart K V) (key : K)
    (h : key ∉ s.ghostCache.map Prod.fst) : checkGhost s key = (false, s) := by
  have h1 := (lookup_eq_none_iff_not_mem s.ghostCache key).2 h
  unfold checkGhost
  rw [h1]

theorem arc_lru_capacity_evict (s : ArcLruPart K V) :
    (evictLeastRecent s).capacity = s.capacity := by
  unfold evictLeastRecent
  split
  · rfl
  · split
    · rfl
    · simp only [addToGhost, removeOldestGhost]
      split
      · split <;> rfl
      · rfl

theorem arc_lru_capacity_put (s : ArcLruPart K V) (key : K) (value : V) :
    (put s key value).2.capacity = s.capacity := by
  unfold put
  split
  · rfl
  · split
    · rfl
    · simp only [addNewNode, addToFront]
      split
      · exact arc_lru_capacity_evict s
      · rfl

theorem arc_lru_capacity_get (s : ArcLruPart K V) (key : K) :
    (get s key).2.capacity = s.capacity := by
  unfold get
  split <;> rfl

theorem arc_lru_capacity_checkGhost (s : ArcLruPart K V) (key : K) :
    (checkGhost s key).2.capacity = s.capacity := by
  unfold checkGhost
  split <;> rfl

end ArcLruPart

namespace ArcLfuPart
variable {K V : Type} [DecidableEq K]

theorem arc_lfu_capacity_update (s : ArcLfuPart K V) (node : ArcNode K V) :
    (updateNodeFrequency s node).capacity = s.capacity := by
  unfold updateNodeFrequency
  simp only
  split <;> rfl

theorem arc_lfu_capacity_evict (s : ArcLfuPart K V) :
    (evictLeastFrequent s).capacity = s.capacity := by
  unfold evictLeastFrequent
  split
  · rfl
  · split
    · rfl
    · split
      · rfl
      · simp only [addToGhost, removeOldestGhost]
        split <;> split <;> (try split) <;> rfl

theorem arc_lfu_capacity_put (s : ArcLfuPart K V) (key : K) (value : V) :
    (put s key value).2.capacity = s.capacity := by
  unfold put
  split
  · rfl
  · split
    · simp only [updateExistingNode]
      rw [arc_lfu_capacity_update]
    · simp only [addNewNode]
      split
      · exact arc_lfu_capacity_evict s
      · rfl

theorem arc_lfu_capacity_get (s : ArcLfuPart K V) (key : K) :
    (get s key).2.capacity = s.capacity := by
  unfold get
  split
  · exact arc_lfu_capacity_update s _
  · rfl

theorem arc_lfu_capacity_checkGhost (s : ArcLfuPart K V) (key : K) :
    (checkGhost s key).2.capacity = s.capacity := by
  unfold checkGhost
  split <;> rfl

theorem arc_lfu_decreaseCapacity_pos (s : ArcLfuPart K V) (h : 0 < s.capacity) :
    (decreaseCapacity s).1 = true ∧ (decreaseCapacity s).2.capacity = s.capacity - 1 := by
  unfold decreaseCapacity
  have : ¬ s.capacity ≤ 0 := by omega
  simp only [this, if_false, true_and]
  split
  · rw [arc_lfu_capacity_evict]
  · rfl

theorem arc_lfu_decreaseCapacity_zero (s : ArcLfuPart K V) (h : s.capacity = 0) :
    decreaseCapacity s = (false, s) := by
  unfold decreaseCapacity
  simp [h]

end ArcLfuPart

namespace ArcCache
variable {K V : Type} [DecidableEq K]

/-- The member `checkGhostCaches` on a key of the recency ghost. -/
theorem arc_checkGhostCaches_recency (s : ArcCache K V) (key : K) (h : key ∈ recencyGhost s) :
    (checkGhostCaches s key).1 = true ∧
    (checkGhostCaches s key).2.lfuPart = (ArcLfuPart.decreaseCapacity s.lfuPart).2 ∧
    (checkGhostCaches s key).2.lruPart.mainCache = s.lruPart.mainCache ∧
    (checkGhostCaches s key).2.lruPart.mainList = s.lruPart.mainList ∧
    (checkGhostCaches s key).2.lruPart.ghostCache = mapErase s.lruPart.ghostCache key ∧
    (checkGhostCaches s key).2.lruPart.capacity =
      (if 0 < s.lfuPart.capacity then s.lruPart.capacity + 1 else s.lruPart.capacity) := by
  have hc := ArcLruPart.arc_lru_checkGhost_hit s.lruPart key h
  unfold checkGhostCaches
  simp only [hc, if_true]
  by_cases hpos : 0 < s.lfuPart.capacity
  · have hd := (ArcLfuPart.arc_lfu_decreaseCapacity_pos s.lfuPart hpos).1
    simp only [hd, if_true, hpos, ArcLruPart.increaseCapacity, and_self]
  · have hz : s.lfuPart.capacity = 0 := by omega
    have hd := ArcLfuPart.arc_lfu_decreaseCapacity_zero s.lfuPart hz
    simp [hd, hpos]

/-- The member `put` on a key of the recency ghost: the second `checkGhost`
finds nothing, and the write goes to the frequency part. -/
theorem arc_put_recency_ghost (s : ArcCache K V) (key : K) (value : V)
    (h : key ∈ recencyGhost s) :
    (put s key value).lruPart = (checkGhostCaches s key).2.lruPart ∧
    (put s key value).lfuPart =
      (ArcLfuPart.put (ArcLfuPart.decreaseCapacity s.lfuPart).2 key value).2 := by
  obtain ⟨h1, h2, h3, h4, h5, h6⟩ := arc_checkGhostCaches_recency s key h
  have hmiss : ArcLruPart.checkGhost (checkGhostCaches s key).2.lruPart key
      = (false, (checkGhostCaches s key).2.lruPart) := by
    apply ArcLruPart.arc_lru_checkGhost_miss
    rw [h5]
    exact (lookup_eq_none_iff_not_mem _ _).1 (lookup_mapErase_self _ _)
  unfold put
  simp only [h1, hmiss, Bool.not_true, Bool.false_eq_true, if_false, h2, and_self]


theorem arc_put_capacity (s : ArcCache K V) (key : K) (value : V) :
    (put s key value).lruPart.capacity = (checkGhostCaches s key).2.lruPart.capacity ∧
    (put s key value).lfuPart.capacity = (checkGhostCaches s key).2.lfuPart.capacity := by
  unfold put
  simp only
  split
  · split
    · split
      · simp [ArcLruPart.arc_lru_capacity_put, ArcLruPart.arc_lru_capacity_get,
          ArcLfuPart.arc_lfu_capacity_put]
      · simp [ArcLruPart.arc_lru_capacity_put, ArcLruPart.arc_lru_capacity_get]
    · split
      · simp [ArcLruPart.arc_lru_capacity_get, ArcLfuPart.arc_lfu_capacity_put,
          ArcLfuPart.arc_lfu_capacity_get]
      · simp [ArcLruPart.arc_lru_capacity_put, ArcLruPart.arc_lru_capacity_get,
          ArcLfuPart.arc_lfu_capacity_get]
  · split
    · simp [ArcLruPart.arc_lru_capacity_put, ArcLruPart.arc_lru_capacity_checkGhost]
    · simp [ArcLruPart.arc_lru_capacity_checkGhost, ArcLfuPart.arc_lfu_capacity_put]

theorem arc_get_capacity (s : ArcCache K V) (key : K) :
    (get s key).2.lruPart.capacity = (checkGhostCaches s key).2.lruPart.capacity ∧
    (get s key).2.lfuPart.capacity = (checkGhostCaches s key).2.lfuPart.capacity := by
  unfold get
  simp only
  split
  · split
    · simp [ArcLruPart.arc_lru_capacity_get, ArcLfuPart.arc_lfu_capacity_put]
    · simp [ArcLruPart.arc_lru_capacity_get]
  · simp [ArcLruPart.arc_lru_capacity_get, ArcLfuPart.arc_lfu_capacity_get]

theorem arc_recency_hit_capacity (s : ArcCache K V) (key : K) (h : key ∈ recencyGhost s) :
    (checkGhostCaches s key).2.lruPart.capacity =
      (if 0 < s.lfuPart.capacity then s.lruPart.capacity + 1 else s.lruPart.capacity) ∧
    (checkGhostCaches s key).2.lfuPart.capacity = s.lfuPart.capacity - 1 := by
  obtain ⟨_, h2, _, _, _, h6⟩ := arc_checkGhostCaches_recency s key h
  refine ⟨h6, ?_⟩
  rw [h2]
  by_cases hpos : 0 < s.lfuPart.capacity
  · exact (ArcLfuPart.arc_lfu_decreaseCapacity_pos s.lfuPart hpos).2
  · have hz : s.lfuPart.capacity = 0 := by omega
    rw [ArcLfuPart.arc_lfu_decreaseCapacity_zero s.lfuPart hz, hz]

/-- C13 (ghost-hit routing on put), what the code does: for every state and every
key `k` that is in the recency part's ghost list and not in its main cache,
`put(k, v)` removes `k` from the recency ghost but does not insert it into the
recency part's main cache: `checkGhostCaches` has erased the ghost entry, so the
second `lruPart_->checkGhost(key)` of `put` answers false and the write is
`lfuPart_->put(key, value)`, on the frequency part as `decreaseCapacity` left it. -/
theorem arc_ghost_hit_goes_to_frequency (s : ArcCache K V) (key : K) (value : V)
    (hg : key ∈ recencyGhost s) (hm : key ∉ recencyMain s) :
    key ∉ recencyGhost (put s key value) ∧ key ∉ recencyMain (put s key value) ∧
    (put s key value).lfuPart =
      (ArcLfuPart.put (ArcLfuPart.decreaseCapacity s.lfuPart).2 key value).2 := by
  obtain ⟨h1, h2⟩ := arc_put_recency_ghost s key value hg
  obtain ⟨_, _, h3, _, h5, _⟩ := arc_checkGhostCaches_recency s key hg
  refine ⟨?_, ?_, h2⟩
  · unfold recencyGhost
    rw [h1, h5]
    exact (lookup_eq_none_iff_not_mem _ _).1 (lookup_mapErase_self _ _)
  · unfold recencyMain
    rw [h1, h3]
    exact hm

theorem arc_ghost_hit_goes_to_frequency_witness :
    1 ∈ recencyGhost (run (new 2 2 : ArcCache Nat Nat) [.put 1 1, .put 2 2, .put 3 3]) ∧
    1 ∉ recencyMain (run (new 2 2 : ArcCache Nat Nat) [.put 1 1, .put 2 2, .put 3 3]) ∧
    1 ∉ recencyMain (put (run (new 2 2 : ArcCache Nat Nat) [.put 1 1, .put 2 2, .put 3 3]) 1 10) ∧
    frequencyValue (put (run (new 2 2 : ArcCache Nat Nat) [.put 1 1, .put 2 2, .put 3 3]) 1 10) 1
      = some 10 :=
  ⟨by decide, by decide,
    (arc_ghost_hit_goes_to_frequency _ 1 10 (by decide) (by decide)).2.1, by decide⟩

/-- C14 (self-tuning law), the claim as stated fails: in the state reached by
`put 1, put 2, put 1, put 3, put 4` on a cache of capacity 1 the frequency
capacity is 0 and key 2 is in the recency ghost; neither `put(2, v)` nor `get(2)`
raises the recency capacity. -/
theorem arc_self_tuning_counterexample :
    2 ∈ recencyGhost (run (new 1 2 : ArcCache Nat Nat)
        [.put 1 1, .put 2 2, .put 1 10, .put 3 3, .put 4 4]) ∧
    ¬ ((run (new 1 2 : ArcCache Nat Nat)
        [.put 1 1, .put 2 2, .put 1 10, .put 3 3, .put 4 4]).lruPart.capacity
      < (put (run (new 1 2 : ArcCache Nat Nat)
        [.put 1 1, .put 2 2, .put 1 10, .put 3 3, .put 4 4]) 2 20).lruPart.capacity) ∧
    ¬ ((run (new 1 2 : ArcCache Nat Nat)
        [.put 1 1, .put 2 2, .put 1 10, .put 3 3, .put 4 4]).lruPart.capacity
      < (get (run (new 1 2 : ArcCache Nat Nat)
        [.put 1 1, .put 2 2, .put 1 10, .put 3 3, .put 4 4]) 2).2.lruPart.capacity) := by
  decide

/-- C14 (self-tuning law), as the code has it: for every state with recency
capacity `c_r` and frequency capacity `c_f` and every key `k` in the recency
part's ghost list, a `put(k, v)` and a `get(k)` alike leave the recency capacity
`c_r + 1` and the frequency capacity `c_f - 1` when `c_f > 0`, and leave both
capacities as they are when `c_f = 0`. -/
theorem arc_self_tuning (s : ArcCache K V) (key : K) (value : V) (hg : key ∈ recencyGhost s) :
    (0 < s.lfuPart.capacity →
      (put s key value).lruPart.capacity = s.lruPart.capacity + 1 ∧
      (put s key value).lfuPart.capacity = s.lfuPart.capacity - 1 ∧
      (get s key).2.lruPart.capacity = s.lruPart.capacity + 1 ∧
      (get s key).2.lfuPart.capacity = s.lfuPart.capacity - 1) ∧
    (s.lfuPart.capacity = 0 →
      (put s key value).lruPart.capacity = s.lruPart.capacity ∧
      (put s key value).lfuPart.capacity = 0 ∧
      (get s key).2.lruPart.capacity = s.lruPart.capacity ∧
      (get s key).2.lfuPart.capacity = 0) := by
  obtain ⟨p1, p2⟩ := arc_put_capacity s key value
  obtain ⟨g1, g2⟩ := arc_get_capacity s key
  obtain ⟨c1, c2⟩ := arc_recency_hit_capacity s key hg
  rw [p1, p2, g1, g2, c1, c2]
  constructor
  · intro hpos
    simp [hpos]
  · intro hz
    simp [hz]

theorem arc_self_tuning_witness :
    2 ∈ recencyGhost (run (new 4 2 : ArcCache Nat Nat) scenario5) ∧
    (put (run (new 4 2 : ArcCache Nat Nat) scenario5) 2 20).lruPart.capacity
      = (run (new 4 2 : ArcCache Nat Nat) scenario5).lruPart.capacity + 1 ∧
    (get (run (new 4 2 : ArcCache Nat Nat) scenario5) 2).2.lfuPart.capacity
      = (run (new 4 2 : ArcCache Nat Nat) scenario5).lfuPart.capacity - 1 :=
  ⟨by decide,
    ((arc_self_tuning (run (new 4 2 : ArcCache Nat Nat) scenario5) 2 20 (by decide)).1
      (by decide)).1,
    ((arc_self_tuning (run (new 4 2 : ArcCache Nat Nat) scenario5) 2 20 (by decide)).1
      (by decide)).2.2.2⟩

end ArcCache
end MyCache

namespace MyCache

section AssocLemmas2
variable {K B : Type} [DecidableEq K]

theorem mem_keys_mapErase (m : List (K × B)) (k x : K) :
    x ∈ (mapErase m k).map Prod.fst ↔ x ∈ m.map Prod.fst ∧ x ≠ k := by
  rw [keys_mapErase]
  simp [List.mem_filter]

theorem mem_keys_mapAssign (m : List (K × B)) (k x : K) (b : B) :
    x ∈ (mapAssign m k b).map Prod.fst ↔ x = k ∨ x ∈ m.map Prod.fst := by
  cases h : m.lookup k with
  | none =>
    rw [keys_mapAssign_of_none m k b h]
    simp [or_comm]
  | some y =>
    rw [keys_mapAssign_of_some m k b y h]
    constructor
    · exact Or.inr
    · rintro (rfl | h2)
      · exact (lookup_isSome_iff_mem m x).1 (by rw [h]; rfl)
      · exact h2

theorem nodup_keys_mapErase (m : List (K × B)) (k : K) (h : (m.map Prod.fst).Nodup) :
    ((mapErase m k).map Prod.fst).Nodup := by
  rw [keys_mapErase]
  exact h.filter _

theorem nodup_keys_mapAssign (m : List (K × B)) (k : K) (b : B) (h : (m.map Prod.fst).Nodup) :
    ((mapAssign m k b).map Prod.fst).Nodup := by
  cases hl : m.lookup k with
  | none =>
    rw [keys_mapAssign_of_none m k b hl]
    have hk := (lookup_eq_none_iff_not_mem m k).1 hl
    rw [List.nodup_append]
    refine ⟨h, List.nodup_singleton k, ?_⟩
    intro x hx hy
    simp only [List.mem_singleton] at hy
    subst hy
    exact hk hx
  | some y => rw [keys_mapAssign_of_some m k b y hl]; exact h

theorem length_mapAssign_of_none (m : List (K × B)) (k : K) (b : B) (h : m.lookup k = none) :
    (mapAssign m k b).length = m.length + 1 := by
  unfold mapAssign
  rw [h]
  simp

theorem length_mapUpdate (m : List (K × B)) (k : K) (f : B → B) :
    (mapUpdate m k f).length = m.length := by
  unfold mapUpdate
  simp

theorem keys_mapUpdate (m : List (K × B)) (k : K) (f : B → B) :
    (mapUpdate m k f).map Prod.fst = m.map Prod.fst :=
  keys_map_update m k f

theorem lookup_mapUpdate (m : List (K × B)) (k k2 : K) (f : B → B) :
    (mapUpdate m k f).lookup k2 = if k2 = k then (m.lookup k2).map f else m.lookup k2 :=
  lookup_map_update m k k2 f

theorem lookup_some_of_mem_keys (m : List (K × B)) (k : K) (h : k ∈ m.map Prod.fst) :
    ∃ b, m.lookup k = some b := by
  have := (lookup_isSome_iff_mem m k).2 h
  cases hl : m.lookup k with
  | none => rw [hl] at this; simp at this
  | some b => exact ⟨b, rfl⟩

theorem mem_keys_of_lookup (m : List (K × B)) (k : K) (b : B) (h : m.lookup k = some b) :
    k ∈ m.map Prod.fst :=
  (lookup_isSome_iff_mem m k).1 (by rw [h]; rfl)

end AssocLemmas2

namespace ArcLruPart
variable {K V : Type} [DecidableEq K]

theorem arc_lru_inv_new (c t : Nat) : Inv (new c t : ArcLruPart K V) := by
  refine ⟨⟨List.nodup_nil, List.Perm.refl _, ?_, ?_⟩, Nat.zero_le _⟩
  · intro k n h; simp [new] at h
  · intro k h; simp [new] at h

theorem arc_lru_wf_checkGhost {s : ArcLruPart K V} (h : Wf s) (key : K) :
    Wf (checkGhost s key).2 := by
  unfold checkGhost
  split
  · refine ⟨h.1, h.2.1, h.2.2.1, ?_⟩
    intro k hk
    exact h.2.2.2 k ((mem_keys_mapErase _ _ _).1 hk).1
  · exact h

theorem arc_lru_main_checkGhost (s : ArcLruPart K V) (key : K) :
    (checkGhost s key).2.mainCache = s.mainCache ∧ (checkGhost s key).2.mainList = s.mainList ∧
    (checkGhost s key).2.capacity = s.capacity := by
  unfold checkGhost
  split <;> exact ⟨rfl, rfl, rfl⟩

theorem arc_lru_ghost_removeOldest (s : ArcLruPart K V) (k : K)
    (hk : k ∈ (removeOldestGhost s).ghostCache.map Prod.fst) : k ∈ s.ghostCache.map Prod.fst := by
  unfold removeOldestGhost at hk
  split at hk
  · exact hk
  · exact ((mem_keys_mapErase _ _ _).1 hk).1

/-- What `evictLeastRecent` does to a well-formed, non-empty recency part. -/
theorem arc_lru_evict_spec {s : ArcLruPart K V} (h : Wf s) (hne : s.mainCache ≠ []) :
    Wf (evictLeastRecent s) ∧
    (evictLeastRecent s).mainCache.length + 1 = s.mainCache.length ∧
    (∀ x, x ∈ (evictLeastRecent s).mainCache.map Prod.fst → x ∈ s.mainCache.map Prod.fst) ∧
    (∀ x, x ∈ (evictLeastRecent s).ghostCache.map Prod.fst →
      x ∈ s.ghostCache.map Prod.fst ∨ x ∈ s.mainCache.map Prod.fst) ∧
    (∀ x n, (evictLeastRecent s).mainCache.lookup x = some n → s.mainCache.lookup x = some n) := by
  obtain ⟨hnd, hperm, hkey, hdisj⟩ := h
  have hlne : s.mainList ≠ [] := by
    intro h0
    have := hperm.length_eq
    rw [h0] at this
    simp at this
    exact hne (List.length_eq_zero.1 this.symm)
  obtain ⟨k, hk⟩ : ∃ k, s.mainList.getLast? = some k := by
    cases hl : s.mainList.getLast? with
    | none => exact absurd (List.getLast?_eq_none_iff.1 hl) hlne
    | some k => exact ⟨k, rfl⟩
  have hkl : k ∈ s.mainList := List.mem_of_getLast?_eq_some hk
  have hkm : k ∈ s.mainCache.map Prod.fst := hperm.mem_iff.1 hkl
  obtain ⟨node, hnode⟩ := lookup_some_of_mem_keys _ _ hkm
  have hnk : node.key = k := hkey k node hnode
  have hsplit : s.mainList.dropLast ++ [k] = s.mainList :=
    List.dropLast_append_getLast? k (by rw [hk]; rfl)
  have hperm2 : s.mainList.dropLast.Perm ((mapErase s.mainCache k).map Prod.fst) := by
    rw [keys_mapErase, LruBase.filter_ne_eq_erase hnd]
    have h1 : (k :: s.mainList.dropLast).Perm (s.mainCache.map Prod.fst) := by
      have h0 := (List.perm_append_singleton k s.mainList.dropLast).symm
      rw [hsplit] at h0
      exact h0.trans hperm
    have h2 := h1.erase k
    rwa [List.erase_cons_head] at h2
  obtain ⟨s2, hs2, hml, hmc, hgc⟩ : ∃ s2 : ArcLruPart K V,
      evictLeastRecent s = { addToGhost s2 node with mainCache := mapErase s.mainCache k } ∧
      s2.mainList = s.mainList.dropLast ∧ s2.mainCache = s.mainCache ∧
      ∀ x, x ∈ s2.ghostCache.map Prod.fst → x ∈ s.ghostCache.map Prod.fst := by
    by_cases hg : s.ghostCache.length ≥ s.ghostCapacity
    · refine ⟨removeOldestGhost { s with mainList := s.mainList.dropLast }, ?_, ?_, ?_, ?_⟩
      · unfold evictLeastRecent
        simp only [hk, hnode, hg, if_true, addToGhost, hnk]
        unfold removeOldestGhost
        split <;> rfl
      · unfold removeOldestGhost
        split <;> rfl
      · unfold removeOldestGhost
        split <;> rfl
      · intro x hx
        exact arc_lru_ghost_removeOldest { s with mainList := s.mainList.dropLast } x hx
    · refine ⟨{ s with mainList := s.mainList.dropLast }, ?_, rfl, rfl, fun x hx => hx⟩
      unfold evictLeastRecent
      simp only [hk, hnode, hg, if_false, addToGhost, hnk]
  rw [hs2]
  refine ⟨⟨nodup_keys_mapErase _ _ hnd, ?_, ?_, ?_⟩, LruBase.length_mapErase_of_mem _ _ hnd hkm,
    ?_, ?_, ?_⟩
  · simpa [addToGhost, hml] using hperm2
  · intro x n hx
    have hxk : x ≠ k := by
      intro hxk
      rw [hxk, lookup_mapErase_self] at hx
      exact absurd hx (by simp)
    rw [lookup_mapErase_ne _ hxk] at hx
    exact hkey x n hx
  · intro x hx hxm
    have hx2 : x ∈ (mapAssign s2.ghostCache k { node with accessCount := 1 }).map Prod.fst := by
      simpa [addToGhost, hnk] using hx
    have hxm2 : x ∈ (mapErase s.mainCache k).map Prod.fst := hxm
    rw [mem_keys_mapErase] at hxm2
    rcases (mem_keys_mapAssign _ _ _ _).1 hx2 with hxk | hxg
    · exact hxm2.2 hxk
    · exact hdisj x (hgc x hxg) hxm2.1
  · intro x hx
    exact ((mem_keys_mapErase _ _ _).1 hx).1
  · intro x hx
    have hx2 : x ∈ (mapAssign s2.ghostCache k { node with accessCount := 1 }).map Prod.fst := by
      simpa [addToGhost, hnk] using hx
    rcases (mem_keys_mapAssign _ _ _ _).1 hx2 with hxk | hxg
    · right; rw [hxk]; exact hkm
    · left; exact hgc x hxg
  · intro x n hx
    have hxk : x ≠ k := by
      intro hxk
      have hx3 : (mapErase s.mainCache k).lookup x = some n := hx
      rw [hxk, lookup_mapErase_self] at hx3
      exact absurd hx3 (by simp)
    have hx3 : (mapErase s.mainCache k).lookup x = some n := hx
    rwa [lookup_mapErase_ne _ hxk] at hx3

theorem arc_lru_inv_increaseCapacity {s : ArcLruPart K V} (h : Inv s) :
    Inv (increaseCapacity s) :=
  ⟨h.1, Nat.le_succ_of_le h.2⟩

theorem arc_lru_inv_decreaseCapacity {s : ArcLruPart K V} (h : Inv s) :
    Inv (decreaseCapacity s).2 ∧
    (∀ x, x ∈ (decreaseCapacity s).2.mainCache.map Prod.fst → x ∈ s.mainCache.map Prod.fst) ∧
    (∀ x, x ∈ (decreaseCapacity s).2.ghostCache.map Prod.fst →
      x ∈ s.ghostCache.map Prod.fst ∨ x ∈ s.mainCache.map Prod.fst) ∧
    (∀ x n, (decreaseCapacity s).2.mainCache.lookup x = some n →
      s.mainCache.lookup x = some n) := by
  unfold decreaseCapacity
  by_cases hc : s.capacity ≤ 0
  · simp only [hc, if_true]
    exact ⟨h, fun x hx => hx, fun x hx => Or.inl hx, fun x n hx => hx⟩
  · simp only [hc, if_false]
    by_cases hfull : s.mainCache.length = s.capacity
    · simp only [hfull, if_true]
      have hne : s.mainCache ≠ [] := by
        intro h0
        rw [h0] at hfull
        simp at hfull
        omega
      obtain ⟨e1, e2, e3, e4, e5⟩ := arc_lru_evict_spec h.1 hne
      refine ⟨⟨e1, ?_⟩, e3, e4, e5⟩
      show (evictLeastRecent s).mainCache.length ≤ (evictLeastRecent s).capacity - 1
      rw [arc_lru_capacity_evict]
      omega
    · simp only [hfull, if_false]
      refine ⟨⟨h.1, ?_⟩, fun x hx => hx, fun x hx => Or.inl hx, fun x n hx => hx⟩
      show s.mainCache.length ≤ s.capacity - 1
      have := h.2
      omega

theorem arc_lru_wf_touch {s : ArcLruPart K V} (h : Wf s) (key : K) (f : ArcNode K V → ArcNode K V)
    (hf : ∀ n, (f n).key = n.key) (hk : key ∈ s.mainCache.map Prod.fst) :
    Wf { s with mainCache := mapUpdate s.mainCache key f,
                mainList := key :: s.mainList.erase key } := by
  obtain ⟨hnd, hperm, hkey, hdisj⟩ := h
  refine ⟨?_, ?_, ?_, ?_⟩
  · show ((mapUpdate s.mainCache key f).map Prod.fst).Nodup
    rw [keys_mapUpdate]; exact hnd
  · show (key :: s.mainList.erase key).Perm ((mapUpdate s.mainCache key f).map Prod.fst)
    rw [keys_mapUpdate]
    exact (List.perm_cons_erase (hperm.mem_iff.2 hk)).symm.trans hperm
  · intro x n hx
    have hx2 : (mapUpdate s.mainCache key f).lookup x = some n := hx
    rw [lookup_mapUpdate] at hx2
    split at hx2
    · cases hl : s.mainCache.lookup x with
      | none => rw [hl] at hx2; simp at hx2
      | some m =>
        rw [hl] at hx2
        simp only [Option.map_some', Option.some.injEq] at hx2
        rw [← hx2, hf]
        exact hkey x m hl
    · exact hkey x n hx2
  · intro x hx
    show x ∉ (mapUpdate s.mainCache key f).map Prod.fst
    rw [keys_mapUpdate]
    exact hdisj x hx

theorem arc_lru_get_eq {s : ArcLruPart K V} (h : Wf s) (key : K) (node : ArcNode K V)
    (hl : s.mainCache.lookup key = some node) :
    get s key = (some (node.value, decide (node.accessCount + 1 ≥ s.transformThreshold)),
      { s with mainCache := mapUpdate s.mainCache key ArcNode.incrementAccessCount,
               mainList := key :: s.mainList.erase key }) := by
  have hk : node.key = key := h.2.2.1 key node hl
  unfold get
  simp only [hl, updateNodeAccess, moveToFront, addToFront, hk, ArcNode.incrementAccessCount]

theorem arc_lru_get_miss (s : ArcLruPart K V) (key : K) (hl : s.mainCache.lookup key = none) :
    get s key = (none, s) := by
  unfold get
  simp only [hl]

theorem arc_lru_inv_get {s : ArcLruPart K V} (h : Inv s) (key : K) : Inv (get s key).2 := by
  cases hl : s.mainCache.lookup key with
  | none => rw [arc_lru_get_miss s key hl]; exact h
  | some node =>
    rw [arc_lru_get_eq h.1 key node hl]
    refine ⟨arc_lru_wf_touch h.1 key _ (fun n => rfl) (mem_keys_of_lookup _ _ _ hl), ?_⟩
    show (mapUpdate s.mainCache key _).length ≤ s.capacity
    rw [length_mapUpdate]
    exact h.2

theorem arc_lru_put_hit (s : ArcLruPart K V) (key : K) (value : V) (node : ArcNode K V)
    (hc : s.capacity ≠ 0) (hl : s.mainCache.lookup key = some node) :
    put s key value = (true,
      { s with mainCache := mapUpdate s.mainCache key (fun n => { n with value := value }),
               mainList := key :: s.mainList.erase key }) := by
  unfold put
  simp only [hc, if_false, hl, updateExistingNode, moveToFront, addToFront]

theorem arc_lru_put_miss (s : ArcLruPart K V) (key : K) (value : V)
    (hc : s.capacity ≠ 0) (hl : s.mainCache.lookup key = none) :
    put s key value = (true, addToFront
      { (if s.mainCache.length ≥ s.capacity then evictLeastRecent s else s) with
        mainCache := mapAssign
          (if s.mainCache.length ≥ s.capacity then evictLeastRecent s else s).mainCache
          key (ArcNode.mk1 key value) } key) := by
  unfold put
  simp only [hc, if_false, hl, addNewNode]

/-- What `put` does to the recency part when the key is not in its ghost map. -/
theorem arc_lru_inv_put {s : ArcLruPart K V} (h : Inv s) (key : K) (value : V)
    (hg : key ∉ s.ghostCache.map Prod.fst) :
    Inv (put s key value).2 ∧
    (∀ x, x ∈ (put s key value).2.ghostCache.map Prod.fst →
      x ∈ s.ghostCache.map Prod.fst ∨ (x ∈ s.mainCache.map Prod.fst ∧ x ≠ key)) := by
  by_cases hc : s.capacity = 0
  · have : put s key value = (false, s) := by unfold put; simp only [hc, if_true]
    rw [this]
    exact ⟨h, fun x hx => Or.inl hx⟩
  cases hl : s.mainCache.lookup key with
  | some node =>
    rw [arc_lru_put_hit s key value node hc hl]
    exact ⟨⟨arc_lru_wf_touch h.1 key _ (fun n => rfl) (mem_keys_of_lookup _ _ _ hl),
      le_of_eq_of_le (length_mapUpdate s.mainCache key (fun n => { n with value := value })) h.2⟩, fun x hx => Or.inl hx⟩
  | none =>
    rw [arc_lru_put_miss s key value hc hl]
    have hkm : key ∉ s.mainCache.map Prod.fst := (lookup_eq_none_iff_not_mem _ _).1 hl
    obtain ⟨s1, hs1, hw, hlen, hsub, hgh⟩ : ∃ s1 : ArcLruPart K V,
        (if s.mainCache.length ≥ s.capacity then evictLeastRecent s else s) = s1 ∧ Wf s1 ∧
        s1.mainCache.length + 1 ≤ s.capacity ∧
        (∀ x, x ∈ s1.mainCache.map Prod.fst → x ∈ s.mainCache.map Prod.fst) ∧
        (∀ x, x ∈ s1.ghostCache.map Prod.fst →
          x ∈ s.ghostCache.map Prod.fst ∨ x ∈ s.mainCache.map Prod.fst) := by
      by_cases hfull : s.mainCache.length ≥ s.capacity
      · have hne : s.mainCache ≠ [] := by
          intro h0
          rw [h0] at hfull
          simp at hfull
          exact hc hfull
        obtain ⟨e1, e2, e3, e4, _⟩ := arc_lru_evict_spec h.1 hne
        refine ⟨evictLeastRecent s, by simp only [hfull, if_true], e1, ?_, e3, e4⟩
        have := h.2
        omega
      · refine ⟨s, by simp only [hfull, if_false], h.1, by omega, fun x hx => hx,
          fun x hx => Or.inl hx⟩
    rw [hs1]
    have hk1 : key ∉ s1.mainCache.map Prod.fst := fun hx => hkm (hsub key hx)
    have hl1 : s1.mainCache.lookup key = none := (lookup_eq_none_iff_not_mem _ _).2 hk1
    obtain ⟨hnd, hperm, hkey, hdisj⟩ := hw
    have hcap : s1.capacity = s.capacity := by
      rw [← hs1]
      split
      · exact arc_lru_capacity_evict s
      · rfl
    refine ⟨⟨⟨?_, ?_, ?_, ?_⟩, ?_⟩, ?_⟩
    · exact nodup_keys_mapAssign _ _ _ hnd
    · show (key :: s1.mainList).Perm ((mapAssign s1.mainCache key _).map Prod.fst)
      rw [keys_mapAssign_of_none _ _ _ hl1]
      exact (List.Perm.cons key hperm).trans (List.perm_append_singleton key _).symm
    · intro x n hx
      have hx2 : (mapAssign s1.mainCache key (ArcNode.mk1 key value)).lookup x = some n := hx
      by_cases hxk : x = key
      · rw [hxk, lookup_mapAssign_self] at hx2
        simp only [Option.some.injEq] at hx2
        rw [← hx2, hxk]
        rfl
      · rw [lookup_mapAssign_ne _ _ hxk] at hx2
        exact hkey x n hx2
    · intro x hx hxm
      have hx1 : x ∈ s1.ghostCache.map Prod.fst := hx
      have hxm2 : x ∈ (mapAssign s1.mainCache key (ArcNode.mk1 key value)).map Prod.fst := hxm
      rcases (mem_keys_mapAssign _ _ _ _).1 hxm2 with hxk | hxo
      · rcases hgh x hx1 with hg1 | hg2
        · exact hg (hxk ▸ hg1)
        · exact hkm (hxk ▸ hg2)
      · exact hdisj x hx1 hxo
    · show (mapAssign s1.mainCache key (ArcNode.mk1 key value)).length ≤ s1.capacity
      rw [length_mapAssign_of_none _ _ _ hl1, hcap]
      exact hlen
    · intro x hx
      have hx1 : x ∈ s1.ghostCache.map Prod.fst := hx
      rcases hgh x hx1 with hg1 | hg2
      · exact Or.inl hg1
      · exact Or.inr ⟨hg2, fun hxk => hkm (hxk ▸ hg2)⟩

end ArcLruPart
end MyCache

namespace MyCache

theorem leastKey_spec {B : Type} (m : List (Nat × B)) (hne : m ≠ []) :
    ∃ f, leastKey m = some f ∧ f ∈ m.map Prod.fst ∧ ∀ g ∈ m.map Prod.fst, f ≤ g := by
  cases m with
  | nil => exact absurd rfl hne
  | cons e rest =>
    refine ⟨_, rfl, ?_⟩
    have key : ∀ (l : List (Nat × B)) (a : Nat),
        (l.foldl (fun acc x => min acc x.1) a = a ∨
          l.foldl (fun acc x => min acc x.1) a ∈ l.map Prod.fst) ∧
        l.foldl (fun acc x => min acc x.1) a ≤ a ∧
        ∀ g ∈ l.map Prod.fst, l.foldl (fun acc x => min acc x.1) a ≤ g := by
      intro l
      induction l with
      | nil => intro a; simp
      | cons x l ih =>
        intro a
        obtain ⟨h1, h2, h3⟩ := ih (min a x.1)
        simp only [List.foldl_cons, List.map_cons, List.mem_cons]
        refine ⟨?_, ?_, ?_⟩
        · rcases h1 with h1 | h1
          · rw [h1]
            rcases Nat.le_total a x.1 with hle | hle
            · left; exact Nat.min_eq_left hle
            · right; left; exact Nat.min_eq_right hle
          · right; right; exact h1
        · exact le_trans h2 (Nat.min_le_left _ _)
        · intro g hg
          rcases hg with hg | hg
          · rw [hg]; exact le_trans h2 (Nat.min_le_right _ _)
          · exact h3 g hg
    obtain ⟨h1, h2, h3⟩ := key rest e.1
    simp only [List.map_cons, List.mem_cons]
    refine ⟨?_, ?_⟩
    · rcases h1 with h1 | h1
      · left; exact h1
      · right; exact h1
    · intro g hg
      rcases hg with hg | hg
      · rw [hg]; exact h2
      · exact h3 g hg

namespace ArcLfuPart
variable {K V : Type} [DecidableEq K]

theorem arc_bucketOf_mapErase (m : List (Nat × List K)) (f g : Nat) :
    bucketOf (mapErase m f) g = if g = f then [] else bucketOf m g := by
  unfold bucketOf
  split
  · rename_i h; rw [h, lookup_mapErase_self]; rfl
  · rename_i h; rw [lookup_mapErase_ne _ h]

theorem arc_bucketOf_mapAssign (m : List (Nat × List K)) (f g : Nat) (l : List K) :
    bucketOf (mapAssign m f l) g = if g = f then l else bucketOf m g := by
  unfold bucketOf
  split
  · rename_i h; rw [h, lookup_mapAssign_self]; rfl
  · rename_i h; rw [lookup_mapAssign_ne _ _ h]

theorem arc_bucketOf_pushBack (m : List (Nat × List K)) (f g : Nat) (k : K) :
    bucketOf (pushBack m f k) g = if g = f then bucketOf m f ++ [k] else bucketOf m g := by
  unfold pushBack
  rw [arc_bucketOf_mapAssign]
  rfl

theorem arc_stored_mapErase {m : List (Nat × List K)}
    (h : ∀ (f : Nat) (l : List K), m.lookup f = some l → l ≠ []) (f0 : Nat) :
    ∀ (f : Nat) (l : List K), (mapErase m f0).lookup f = some l → l ≠ [] := by
  intro f l hl
  by_cases hf : f = f0
  · rw [hf, lookup_mapErase_self] at hl; simp at hl
  · rw [lookup_mapErase_ne _ hf] at hl; exact h f l hl

theorem arc_stored_mapAssign {m : List (Nat × List K)}
    (h : ∀ (f : Nat) (l : List K), m.lookup f = some l → l ≠ []) (f0 : Nat) (l0 : List K)
    (h0 : l0 ≠ []) :
    ∀ (f : Nat) (l : List K), (mapAssign m f0 l0).lookup f = some l → l ≠ [] := by
  intro f l hl
  by_cases hf : f = f0
  · rw [hf, lookup_mapAssign_self] at hl
    simp only [Option.some.injEq] at hl
    rw [← hl]; exact h0
  · rw [lookup_mapAssign_ne _ _ hf] at hl; exact h f l hl

theorem arc_stored_pushBack {m : List (Nat × List K)}
    (h : ∀ (f : Nat) (l : List K), m.lookup f = some l → l ≠ []) (f0 : Nat) (k : K) :
    ∀ (f : Nat) (l : List K), (pushBack m f0 k).lookup f = some l → l ≠ [] :=
  arc_stored_mapAssign h f0 _ (by simp)

theorem arc_bucket_stored {m : List (Nat × List K)} {f : Nat} (h : bucketOf m f ≠ []) :
    f ∈ m.map Prod.fst := by
  unfold bucketOf at h
  cases hl : m.lookup f with
  | none => rw [hl] at h; exact absurd rfl h
  | some l => exact mem_keys_of_lookup m f l hl

theorem arc_lfu_update_fields (s : ArcLfuPart K V) (node : ArcNode K V) :
    (updateNodeFrequency s node).mainCache
      = mapUpdate s.mainCache node.key ArcNode.incrementAccessCount ∧
    (updateNodeFrequency s node).freqMap
      = pushBack
          (if (bucketOf s.freqMap node.accessCount).filter (fun x => decide (x ≠ node.key)) = []
            then mapErase s.freqMap node.accessCount
            else mapAssign s.freqMap node.accessCount
              ((bucketOf s.freqMap node.accessCount).filter (fun x => decide (x ≠ node.key))))
          (node.accessCount + 1) node.key ∧
    (updateNodeFrequency s node).minFreq
      = (if (bucketOf s.freqMap node.accessCount).filter (fun x => decide (x ≠ node.key)) = []
            ∧ node.accessCount = s.minFreq
          then node.accessCount + 1 else s.minFreq) ∧
    (updateNodeFrequency s node).ghostCache = s.ghostCache ∧
    (updateNodeFrequency s node).ghostList = s.ghostList ∧
    (updateNodeFrequency s node).capacity = s.capacity ∧
    (updateNodeFrequency s node).ghostCapacity = s.ghostCapacity := by
  unfold updateNodeFrequency bucketOf
  simp only []
  by_cases h : ((s.freqMap.lookup node.accessCount).getD []).filter
      (fun x => decide (x ≠ node.key)) = []
  · have hE : (((s.freqMap.lookup node.accessCount).getD []).filter
        (fun x => decide (x ≠ node.key))).isEmpty = true := by rw [h]; rfl
    rw [if_pos hE, if_pos h]
    refine ⟨rfl, rfl, ?_, rfl, rfl, rfl, rfl⟩
    have e : (((s.freqMap.lookup node.accessCount).getD []).filter
        (fun x => decide (x ≠ node.key)) = [] ∧ node.accessCount = s.minFreq)
        ↔ node.accessCount = s.minFreq := ⟨fun x => x.2, fun x => ⟨h, x⟩⟩
    simp only [e]
    rfl
  · have hE : ¬ (((s.freqMap.lookup node.accessCount).getD []).filter
        (fun x => decide (x ≠ node.key))).isEmpty = true := by
      rw [List.isEmpty_iff]; exact h
    rw [if_neg hE, if_neg h, if_neg (fun hh => h hh.1)]
    exact ⟨rfl, rfl, rfl, rfl, rfl, rfl, rfl⟩

theorem arc_lfu_update_bucket (s : ArcLfuPart K V) (node : ArcNode K V) (g : Nat) :
    bucketOf (updateNodeFrequency s node).freqMap g
      = if g = node.accessCount + 1 then bucketOf s.freqMap (node.accessCount + 1) ++ [node.key]
        else if g = node.accessCount
          then (bucketOf s.freqMap node.accessCount).filter (fun x => decide (x ≠ node.key))
          else bucketOf s.freqMap g := by
  rw [(arc_lfu_update_fields s node).2.1, arc_bucketOf_pushBack]
  have hne : node.accessCount ≠ node.accessCount + 1 := by omega
  by_cases hg : g = node.accessCount + 1
  · simp only [hg, if_true]
    split
    · rw [arc_bucketOf_mapErase]; simp
    · rw [arc_bucketOf_mapAssign]; simp
  · simp only [hg, if_false]
    split
    · rename_i he
      rw [arc_bucketOf_mapErase]
      split
      · exact he.symm
      · rfl
    · rw [arc_bucketOf_mapAssign]

theorem arc_lfu_wf_update {s : ArcLfuPart K V} (h : Wf s) (key : K) (node : ArcNode K V)
    (hl : s.mainCache.lookup key = some node) : Wf (updateNodeFrequency s node) := by
  obtain ⟨hnd, hkey, hst, hbn, hmem, hmin, hne⟩ := h
  have hk : node.key = key := (hkey key node hl).1
  obtain ⟨e1, e2, e3, -, -, -, -⟩ := arc_lfu_update_fields s node
  have hb := arc_lfu_update_bucket s node
  have hkf : key ∈ bucketOf s.freqMap node.accessCount := (hmem _ _).2 ⟨node, hl, rfl⟩
  have hknot : key ∉ bucketOf s.freqMap (node.accessCount + 1) := by
    intro hin
    obtain ⟨n, hn1, hn2⟩ := (hmem _ _).1 hin
    rw [hl] at hn1
    simp only [Option.some.injEq] at hn1
    rw [← hn1] at hn2
    omega
  have hlook : ∀ x, (updateNodeFrequency s node).mainCache.lookup x
      = if x = key then (s.mainCache.lookup x).map ArcNode.incrementAccessCount
        else s.mainCache.lookup x := by
    intro x
    rw [e1, hk, lookup_mapUpdate]
  have hfne : bucketOf s.freqMap node.accessCount ≠ [] := List.ne_nil_of_mem hkf
  refine ⟨?_, ?_, ?_, ?_, ?_, ?_, ?_⟩
  · rw [e1, keys_mapUpdate]; exact hnd
  · intro x n hx
    rw [hlook] at hx
    split at hx
    · rename_i hxk
      rw [hxk, hl] at hx
      simp only [Option.map_some', Option.some.injEq] at hx
      rw [← hx, hxk]
      exact ⟨hk, Nat.le_succ_of_le (hkey key node hl).2⟩
    · exact hkey x n hx
  · rw [e2]
    apply arc_stored_pushBack
    split
    · exact arc_stored_mapErase hst _
    · rename_i hne2
      exact arc_stored_mapAssign hst _ _ hne2
  · intro g
    rw [hb]
    split
    · rw [List.nodup_append]
      refine ⟨hbn _, List.nodup_singleton _, ?_⟩
      intro x hx hx2
      simp only [List.mem_singleton] at hx2
      rw [hx2, hk] at hx
      exact hknot hx
    · split
      · exact (hbn _).filter _
      · exact hbn g
  · intro g x
    rw [hb, hlook]
    by_cases hxk : x = key
    · simp only [hxk, if_true, hl, Option.map_some', Option.some.injEq, exists_eq_left',
        ArcNode.incrementAccessCount]
      by_cases hg : g = node.accessCount + 1
      · simp [hg, hk]
      · simp only [hg, if_false]
        have hg2 : ¬ node.accessCount + 1 = g := fun hh => hg hh.symm
        simp only [hg2, iff_false]
        split
        · simp [hk]
        · rename_i hg3
          intro hin
          obtain ⟨n, hn1, hn2⟩ := (hmem _ _).1 hin
          rw [hl] at hn1
          simp only [Option.some.injEq] at hn1
          rw [← hn1] at hn2
          exact hg3 hn2.symm
    · simp only [hxk, if_false]
      rw [← hmem]
      split
      · rename_i hg
        rw [hg]
        simp [hk, hxk]
      · split
        · rename_i hg
          rw [hg]
          simp [hk, hxk]
        · rfl
  · intro g hg
    rw [hb] at hg
    rw [e3]
    have hmf : s.minFreq ≤ node.accessCount := hmin _ hfne
    split
    · rename_i hc
      split at hg
      · omega
      · split at hg
        · exact absurd hc.1 hg
        · have := hmin g hg
          omega
    · split at hg
      · omega
      · split at hg
        · omega
        · exact hmin g hg
  · intro _
    rw [e3, hb]
    split
    · simp
    · rename_i hc
      split
      · simp
      · split
        · rename_i hg
          intro hemp
          exact hc ⟨hemp, hg.symm⟩
        · apply hne
          intro h0
          rw [h0] at hl
          simp at hl

theorem arc_lfu_removeOldest_fields (s : ArcLfuPart K V) :
    (removeOldestGhost s).mainCache = s.mainCache ∧
    (removeOldestGhost s).freqMap = s.freqMap ∧
    (removeOldestGhost s).minFreq = s.minFreq ∧
    (removeOldestGhost s).capacity = s.capacity ∧
    ∀ x, x ∈ (removeOldestGhost s).ghostCache.map Prod.fst → x ∈ s.ghostCache.map Prod.fst := by
  unfold removeOldestGhost
  split
  · exact ⟨rfl, rfl, rfl, rfl, fun x hx => hx⟩
  · exact ⟨rfl, rfl, rfl, rfl, fun x hx => ((mem_keys_mapErase _ _ _).1 hx).1⟩

/-- The shape of the result of `evictLeastFrequent` on a non-empty well-formed
frequency part. -/
theorem arc_lfu_evict_fields {s : ArcLfuPart K V} (h : Wf s) (hne : s.mainCache ≠ []) :
    ∃ (leastNode : K) (rest : List K) (node : ArcNode K V),
      bucketOf s.freqMap s.minFreq = leastNode :: rest ∧
      s.mainCache.lookup leastNode = some node ∧
      (evictLeastFrequent s).mainCache = mapErase s.mainCache leastNode ∧
      (evictLeastFrequent s).freqMap
        = (if rest = [] then mapErase s.freqMap s.minFreq
           else mapAssign s.freqMap s.minFreq rest) ∧
      (evictLeastFrequent s).minFreq
        = (if rest = [] then (leastKey (mapErase s.freqMap s.minFreq)).getD s.minFreq
           else s.minFreq) ∧
      (evictLeastFrequent s).capacity = s.capacity ∧
      ∀ x, x ∈ (evictLeastFrequent s).ghostCache.map Prod.fst →
        x ∈ s.ghostCache.map Prod.fst ∨ x = leastNode := by
  obtain ⟨hnd, hkey, hst, hbn, hmem, hmin, hnemp⟩ := h
  have hb := hnemp hne
  obtain ⟨leastNode, rest, hlr⟩ : ∃ a r, bucketOf s.freqMap s.minFreq = a :: r := by
    cases hc : bucketOf s.freqMap s.minFreq with
    | nil => exact absurd hc hb
    | cons a r => exact ⟨a, r, rfl⟩
  obtain ⟨node, hnode, hcnt⟩ := (hmem s.minFreq leastNode).1 (by rw [hlr]; exact List.mem_cons_self _ _)
  have hnk : node.key = leastNode := (hkey _ _ hnode).1
  have hfm : s.freqMap.isEmpty = false := by
    cases hm : s.freqMap with
    | nil => rw [bucketOf, hm] at hlr; simp at hlr
    | cons a r => rfl
  have hlr2 : (s.freqMap.lookup s.minFreq).getD [] = leastNode :: rest := hlr
  refine ⟨leastNode, rest, node, hlr, hnode, ?_⟩
  obtain ⟨s1, hs1⟩ : ∃ s1 : ArcLfuPart K V, s1 =
      (if rest.isEmpty then
        { s with freqMap := mapErase s.freqMap s.minFreq,
                 minFreq := (leastKey (mapErase s.freqMap s.minFreq)).getD s.minFreq }
      else { s with freqMap := mapAssign s.freqMap s.minFreq rest }) := ⟨_, rfl⟩
  obtain ⟨s2, hs2⟩ : ∃ s2 : ArcLfuPart K V, s2 =
      (if s1.ghostCache.length ≥ s1.ghostCapacity then removeOldestGhost s1 else s1) := ⟨_, rfl⟩
  have hev : evictLeastFrequent s
      = { addToGhost s2 node with mainCache := mapErase (addToGhost s2 node).mainCache node.key } := by
    rw [hs2, hs1]
    unfold evictLeastFrequent
    simp only [hfm, Bool.false_eq_true, if_false, hlr2, hnode]
  have h1 : s1.mainCache = s.mainCache ∧ s1.capacity = s.capacity ∧
      s1.ghostCache = s.ghostCache ∧
      s1.freqMap = (if rest = [] then mapErase s.freqMap s.minFreq
           else mapAssign s.freqMap s.minFreq rest) ∧
      s1.minFreq = (if rest = [] then (leastKey (mapErase s.freqMap s.minFreq)).getD s.minFreq
           else s.minFreq) := by
    rw [hs1]
    by_cases hr : rest = []
    · have hrE : rest.isEmpty = true := by rw [hr]; rfl
      rw [if_pos hrE, if_pos hr, if_pos hr]
      exact ⟨rfl, rfl, rfl, rfl, rfl⟩
    · have hrE : ¬ rest.isEmpty = true := by rw [List.isEmpty_iff]; exact hr
      rw [if_neg hrE, if_neg hr, if_neg hr]
      exact ⟨rfl, rfl, rfl, rfl, rfl⟩
  have h2 : s2.mainCache = s1.mainCache ∧ s2.freqMap = s1.freqMap ∧ s2.minFreq = s1.minFreq ∧
      s2.capacity = s1.capacity ∧
      ∀ x, x ∈ s2.ghostCache.map Prod.fst → x ∈ s1.ghostCache.map Prod.fst := by
    rw [hs2]
    split
    · exact arc_lfu_removeOldest_fields s1
    · exact ⟨rfl, rfl, rfl, rfl, fun x hx => hx⟩
  rw [hev]
  refine ⟨?_, ?_, ?_, ?_, ?_⟩
  · show mapErase s2.mainCache node.key = _
    rw [h2.1, h1.1, hnk]
  · show s2.freqMap = _
    rw [h2.2.1, h1.2.2.2.1]
  · show s2.minFreq = _
    rw [h2.2.2.1, h1.2.2.2.2]
  · show s2.capacity = _
    rw [h2.2.2.2.1, h1.2.1]
  · intro x hx
    have hx2 : x ∈ (mapAssign s2.ghostCache node.key node).map Prod.fst := hx
    rcases (mem_keys_mapAssign _ _ _ _).1 hx2 with hx1 | hx1
    · exact Or.inr (hx1.trans hnk)
    · left
      have := h2.2.2.2.2 x hx1
      rwa [h1.2.2.1] at this

/-- What `evictLeastFrequent` does to a well-formed, non-empty frequency part. -/
theorem arc_lfu_evict_spec {s : ArcLfuPart K V} (h : Wf s) (hne : s.mainCache ≠ []) :
    Wf (evictLeastFrequent s) ∧
    (evictLeastFrequent s).mainCache.length + 1 = s.mainCache.length ∧
    (∀ x n, (evictLeastFrequent s).mainCache.lookup x = some n →
      s.mainCache.lookup x = some n) ∧
    (∀ x, x ∈ (evictLeastFrequent s).ghostCache.map Prod.fst →
      x ∈ s.ghostCache.map Prod.fst ∨ x ∈ s.mainCache.map Prod.fst) := by
  obtain ⟨a, rest, node, hlr, hnode, e1, e2, e3, -, e5⟩ := arc_lfu_evict_fields h hne
  obtain ⟨hnd, hkey, hst, hbn, hmem, hmin, hnemp⟩ := h
  have hcnt : node.accessCount = s.minFreq := by
    obtain ⟨n, hn1, hn2⟩ := (hmem s.minFreq a).1 (by rw [hlr]; exact List.mem_cons_self _ _)
    rw [hnode] at hn1
    simp only [Option.some.injEq] at hn1
    rw [hn1]; exact hn2
  have ham : a ∈ s.mainCache.map Prod.fst := mem_keys_of_lookup _ _ _ hnode
  have hndb : (a :: rest).Nodup := by rw [← hlr]; exact hbn _
  have hb : ∀ g, bucketOf (evictLeastFrequent s).freqMap g
      = if g = s.minFreq then rest else bucketOf s.freqMap g := by
    intro g
    rw [e2]
    by_cases hr : rest = []
    · rw [if_pos hr, arc_bucketOf_mapErase, hr]
    · rw [if_neg hr, arc_bucketOf_mapAssign]
  have hlook : ∀ x, (evictLeastFrequent s).mainCache.lookup x
      = if x = a then none else s.mainCache.lookup x := by
    intro x
    rw [e1]
    split
    · rename_i hx; rw [hx, lookup_mapErase_self]
    · rename_i hx; rw [lookup_mapErase_ne _ hx]
  have hmemb : ∀ (f : Nat) (k : K), k ∈ bucketOf (evictLeastFrequent s).freqMap f ↔
      ∃ n : ArcNode K V, (evictLeastFrequent s).mainCache.lookup k = some n ∧ n.accessCount = f := by
    intro g x
    rw [hb, hlook]
    by_cases hxa : x = a
    · have hfalse : ¬ ∃ n : ArcNode K V,
          (if x = a then none else s.mainCache.lookup x) = some n ∧ n.accessCount = g := by
        rw [if_pos hxa]
        rintro ⟨n, hn, _⟩
        exact absurd hn (by simp)
      refine iff_of_false ?_ hfalse
      rw [hxa]
      split
      · exact (List.nodup_cons.1 hndb).1
      · rename_i hg
        intro hin
        obtain ⟨n, hn1, hn2⟩ := (hmem _ _).1 hin
        rw [hnode] at hn1
        simp only [Option.some.injEq] at hn1
        rw [← hn1, hcnt] at hn2
        exact hg hn2.symm
    · simp only [hxa, if_false]
      rw [← hmem]
      split
      · rename_i hg
        rw [hg, hlr]
        simp [hxa]
      · rfl
  have hstored : ∀ (f : Nat) (l : List K), (evictLeastFrequent s).freqMap.lookup f = some l → l ≠ [] := by
    rw [e2]
    by_cases hr : rest = []
    · rw [if_pos hr]; exact arc_stored_mapErase hst _
    · rw [if_neg hr]; exact arc_stored_mapAssign hst _ _ hr
  refine ⟨⟨?_, ?_, hstored, ?_, hmemb, ?_, ?_⟩, ?_, ?_, ?_⟩
  · rw [e1]; exact nodup_keys_mapErase _ _ hnd
  · intro x n hx
    rw [hlook] at hx
    split at hx
    · simp at hx
    · exact hkey x n hx
  · intro g
    rw [hb]
    split
    · exact (List.nodup_cons.1 hndb).2
    · exact hbn g
  · intro g hg
    rw [e3]
    by_cases hr : rest = []
    · rw [if_pos hr]
      have hgs := arc_bucket_stored hg
      have hmne : (evictLeastFrequent s).freqMap ≠ [] := by
        intro h0; rw [h0] at hgs; simp at hgs
      obtain ⟨f0, hf1, hf2, hf3⟩ := leastKey_spec _ hmne
      rw [e2, if_pos hr] at hf1 hgs hf3
      rw [hf1]
      exact hf3 g hgs
    · rw [if_neg hr]
      rw [hb] at hg
      split at hg
      · rename_i hgm; omega
      · exact hmin g hg
  · intro hne2
    rw [e3, hb]
    by_cases hr : rest = []
    · rw [if_pos hr]
      obtain ⟨e, rest2, hm⟩ : ∃ e r, (evictLeastFrequent s).mainCache = e :: r := by
        cases hc : (evictLeastFrequent s).mainCache with
        | nil => exact absurd hc hne2
        | cons e r => exact ⟨e, r, rfl⟩
      obtain ⟨n, hn⟩ := lookup_some_of_mem_keys (evictLeastFrequent s).mainCache e.1
        (by rw [hm]; simp)
      have hin := (hmemb n.accessCount e.1).2 ⟨n, hn, rfl⟩
      have hgs := arc_bucket_stored (List.ne_nil_of_mem hin)
      have hmne : (evictLeastFrequent s).freqMap ≠ [] := by
        intro h0; rw [h0] at hgs; simp at hgs
      obtain ⟨f0, hf1, hf2, hf3⟩ := leastKey_spec _ hmne
      rw [e2, if_pos hr] at hf1
      rw [hf1]
      simp only [Option.getD_some]
      obtain ⟨l, hl⟩ := lookup_some_of_mem_keys _ _ hf2
      have hlne := hstored f0 l hl
      have hbl : bucketOf (evictLeastFrequent s).freqMap f0 = l := by
        unfold bucketOf; rw [hl]; rfl
      rw [hb] at hbl
      rw [hbl]
      exact hlne
    · rw [if_neg hr]
      simp only [if_true]
      exact hr
  · rw [e1]
    exact LruBase.length_mapErase_of_mem _ _ hnd ham
  · intro x n hx
    rw [hlook] at hx
    split at hx
    · simp at hx
    · exact hx
  · intro x hx
    rcases e5 x hx with h1 | h1
    · exact Or.inl h1
    · exact Or.inr (h1 ▸ ham)

theorem arc_lfu_wf_setValue {s : ArcLfuPart K V} (h : Wf s) (key : K) (value : V)
    (t : ArcLfuPart K V)
    (ht : t.mainCache = mapUpdate s.mainCache key (fun n => { n with value := value }) ∧
      t.freqMap = s.freqMap ∧ t.minFreq = s.minFreq) : Wf t := by
  obtain ⟨hnd, hkey, hst, hbn, hmem, hmin, hnemp⟩ := h
  obtain ⟨t1, t2, t3⟩ := ht
  have hlook : ∀ x, t.mainCache.lookup x
      = if x = key then (s.mainCache.lookup x).map (fun n => { n with value := value })
        else s.mainCache.lookup x := by
    intro x; rw [t1, lookup_mapUpdate]
  have hex : ∀ (x : K) (f : Nat), (∃ n : ArcNode K V, t.mainCache.lookup x = some n ∧ n.accessCount = f)
      ↔ ∃ n : ArcNode K V, s.mainCache.lookup x = some n ∧ n.accessCount = f := by
    intro x f
    rw [hlook]
    split
    · cases hl : s.mainCache.lookup x with
      | none => simp
      | some m => simp
    · rfl
  refine ⟨?_, ?_, ?_, ?_, ?_, ?_, ?_⟩
  · rw [t1, keys_mapUpdate]; exact hnd
  · intro x n hx
    rw [hlook] at hx
    split at hx
    · cases hl : s.mainCache.lookup x with
      | none => rw [hl] at hx; simp at hx
      | some m =>
        rw [hl] at hx
        simp only [Option.map_some', Option.some.injEq] at hx
        rw [← hx]
        exact hkey x m hl
    · exact hkey x n hx
  · rw [t2]; exact hst
  · rw [t2]; exact hbn
  · intro f x
    rw [t2, hex]
    exact hmem f x
  · rw [t2, t3]; exact hmin
  · intro hne
    rw [t2, t3]
    apply hnemp
    intro h0
    rw [t1, h0] at hne
    exact hne rfl

theorem arc_lfu_wf_insert {s : ArcLfuPart K V} (h : Wf s) (key : K) (value : V)
    (hk : s.mainCache.lookup key = none) (t : ArcLfuPart K V)
    (ht : t.mainCache = mapAssign s.mainCache key (ArcNode.mk1 key value) ∧
      t.freqMap = pushBack s.freqMap 1 key ∧ t.minFreq = 1) : Wf t := by
  obtain ⟨hnd, hkey, hst, hbn, hmem, hmin, hnemp⟩ := h
  obtain ⟨t1, t2, t3⟩ := ht
  have hlook : ∀ x, t.mainCache.lookup x
      = if x = key then some (ArcNode.mk1 key value) else s.mainCache.lookup x := by
    intro x
    rw [t1]
    split
    · rename_i hx; rw [hx, lookup_mapAssign_self]
    · rename_i hx; rw [lookup_mapAssign_ne _ _ hx]
  have hb : ∀ g, bucketOf t.freqMap g
      = if g = 1 then bucketOf s.freqMap 1 ++ [key] else bucketOf s.freqMap g := by
    intro g; rw [t2, arc_bucketOf_pushBack]
  have hknot : ∀ g, key ∉ bucketOf s.freqMap g := by
    intro g hin
    obtain ⟨n, hn, _⟩ := (hmem g key).1 hin
    rw [hk] at hn
    simp at hn
  refine ⟨?_, ?_, ?_, ?_, ?_, ?_, ?_⟩
  · rw [t1]; exact nodup_keys_mapAssign _ _ _ hnd
  · intro x n hx
    rw [hlook] at hx
    split at hx
    · rename_i hxk
      simp only [Option.some.injEq] at hx
      rw [← hx, hxk]
      exact ⟨rfl, Nat.le_refl 1⟩
    · exact hkey x n hx
  · rw [t2]; exact arc_stored_pushBack hst 1 key
  · intro g
    rw [hb]
    split
    · rw [List.nodup_append]
      refine ⟨hbn _, List.nodup_singleton _, ?_⟩
      intro x hx hx2
      simp only [List.mem_singleton] at hx2
      rw [hx2] at hx
      exact hknot 1 hx
    · exact hbn g
  · intro g x
    rw [hb, hlook]
    by_cases hxk : x = key
    · rw [if_pos hxk, hxk]
      by_cases hg : g = 1
      · rw [if_pos hg, hg]
        simp [ArcNode.mk1]
      · rw [if_neg hg]
        refine iff_of_false (hknot g) ?_
        rintro ⟨n, hn1, hn2⟩
        simp only [Option.some.injEq] at hn1
        rw [← hn1] at hn2
        exact hg hn2.symm
    · rw [if_neg hxk, ← hmem]
      split
      · rename_i hg
        rw [hg]
        simp [hxk]
      · rfl
  · intro g hg
    rw [t3]
    rw [hb] at hg
    split at hg
    · omega
    · obtain ⟨x, hx⟩ := List.exists_mem_of_ne_nil _ hg
      obtain ⟨n, hn1, hn2⟩ := (hmem g x).1 hx
      have := (hkey x n hn1).2
      omega
  · intro _
    rw [t3, hb]
    simp

theorem arc_lfu_put_hit {s : ArcLfuPart K V} (h : Wf s) (key : K) (value : V)
    (node : ArcNode K V) (hc : s.capacity ≠ 0) (hl : s.mainCache.lookup key = some node) :
    ∃ t : ArcLfuPart K V, Wf t ∧
      t.mainCache = mapUpdate s.mainCache key (fun n => { n with value := value }) ∧
      t.mainCache.lookup key = some { node with value := value } ∧
      t.capacity = s.capacity ∧ t.ghostCache = s.ghostCache ∧ t.ghostList = s.ghostList ∧
      put s key value = (true, updateNodeFrequency t { node with value := value }) := by
  have hk : node.key = key := (h.2.1 key node hl).1
  obtain ⟨t, ht⟩ : ∃ t : ArcLfuPart K V, t =
      { s with mainCache := mapUpdate s.mainCache key (fun n => { n with value := value }) } :=
    ⟨_, rfl⟩
  have hm : t.mainCache = mapUpdate s.mainCache key (fun n => { n with value := value }) := by
    rw [ht]
  refine ⟨t, arc_lfu_wf_setValue h key value t ⟨hm, by rw [ht], by rw [ht]⟩, hm, ?_,
    by rw [ht], by rw [ht], by rw [ht], ?_⟩
  · rw [hm, lookup_mapUpdate, if_pos rfl, hl]
    rfl
  · unfold put
    simp only [hc, if_false, hl, updateExistingNode, hk, ht]

theorem arc_lfu_put_miss (s : ArcLfuPart K V) (key : K) (value : V)
    (hc : s.capacity ≠ 0) (hl : s.mainCache.lookup key = none) :
    ∃ t : ArcLfuPart K V,
      t = (if s.mainCache.length ≥ s.capacity then evictLeastFrequent s else s) ∧
      (put s key value).2.mainCache = mapAssign t.mainCache key (ArcNode.mk1 key value) ∧
      (put s key value).2.freqMap = pushBack t.freqMap 1 key ∧
      (put s key value).2.minFreq = 1 ∧
      (put s key value).2.capacity = t.capacity ∧
      (put s key value).2.ghostCache = t.ghostCache := by
  refine ⟨_, rfl, ?_⟩
  unfold put
  simp only [hc, if_false, hl, addNewNode, and_self]

theorem arc_lfu_wf_congr {s t : ArcLfuPart K V} (h : Wf s) (h1 : t.mainCache = s.mainCache)
    (h2 : t.freqMap = s.freqMap) (h3 : t.minFreq = s.minFreq) : Wf t := by
  unfold Wf
  rw [h1, h2, h3]
  exact h

theorem arc_lfu_inv_new (c t : Nat) : Inv (new c t : ArcLfuPart K V) := by
  refine ⟨⟨List.nodup_nil, ?_, ?_, ?_, ?_, ?_, ?_⟩, Nat.zero_le _⟩
  · intro k n h; simp [new] at h
  · intro f l h; simp [new] at h
  · intro f; simp [new, bucketOf]
  · intro f k; simp [new, bucketOf]
  · intro f h; simp [new, bucketOf] at h
  · intro h; simp [new] at h

theorem arc_lfu_checkGhost_fields (s : ArcLfuPart K V) (key : K) :
    (checkGhost s key).2.mainCache = s.mainCache ∧ (checkGhost s key).2.freqMap = s.freqMap ∧
    (checkGhost s key).2.minFreq = s.minFreq ∧ (checkGhost s key).2.capacity = s.capacity ∧
    (∀ x, x ∈ (checkGhost s key).2.ghostCache.map Prod.fst → x ∈ s.ghostCache.map Prod.fst) := by
  unfold checkGhost
  split
  · exact ⟨rfl, rfl, rfl, rfl, fun x hx => ((mem_keys_mapErase _ _ _).1 hx).1⟩
  · exact ⟨rfl, rfl, rfl, rfl, fun x hx => hx⟩

theorem arc_lfu_inv_checkGhost {s : ArcLfuPart K V} (h : Inv s) (key : K) :
    Inv (checkGhost s key).2 := by
  obtain ⟨e1, e2, e3, e4, -⟩ := arc_lfu_checkGhost_fields s key
  refine ⟨arc_lfu_wf_congr h.1 e1 e2 e3, ?_⟩
  rw [e1, e4]
  exact h.2

theorem arc_lfu_inv_increaseCapacity {s : ArcLfuPart K V} (h : Inv s) :
    Inv (increaseCapacity s) :=
  ⟨arc_lfu_wf_congr h.1 rfl rfl rfl, Nat.le_succ_of_le h.2⟩

theorem arc_lfu_inv_decreaseCapacity {s : ArcLfuPart K V} (h : Inv s) :
    Inv (decreaseCapacity s).2 ∧
    (∀ x n, (decreaseCapacity s).2.mainCache.lookup x = some n →
      s.mainCache.lookup x = some n) ∧
    (∀ x, x ∈ (decreaseCapacity s).2.ghostCache.map Prod.fst →
      x ∈ s.ghostCache.map Prod.fst ∨ x ∈ s.mainCache.map Prod.fst) := by
  unfold decreaseCapacity
  by_cases hc : s.capacity ≤ 0
  · simp only [hc, if_true]
    exact ⟨h, fun x n hx => hx, fun x hx => Or.inl hx⟩
  · simp only [hc, if_false]
    by_cases hfull : s.mainCache.length = s.capacity
    · simp only [hfull, if_true]
      have hne : s.mainCache ≠ [] := by
        intro h0
        rw [h0] at hfull
        simp at hfull
        omega
      obtain ⟨e1, e2, e3, e4⟩ := arc_lfu_evict_spec h.1 hne
      refine ⟨⟨arc_lfu_wf_congr e1 rfl rfl rfl, ?_⟩, e3, e4⟩
      show (evictLeastFrequent s).mainCache.length ≤ (evictLeastFrequent s).capacity - 1
      rw [arc_lfu_capacity_evict]
      omega
    · simp only [hfull, if_false]
      refine ⟨⟨arc_lfu_wf_congr h.1 rfl rfl rfl, ?_⟩, fun x n hx => hx, fun x hx => Or.inl hx⟩
      show s.mainCache.length ≤ s.capacity - 1
      have := h.2
      omega

theorem arc_lfu_get_hit (s : ArcLfuPart K V) (key : K) (node : ArcNode K V)
    (hl : s.mainCache.lookup key = some node) :
    get s key = (some node.value, updateNodeFrequency s node) := by
  unfold get
  simp only [hl]

theorem arc_lfu_get_miss (s : ArcLfuPart K V) (key : K) (hl : s.mainCache.lookup key = none) :
    get s key = (none, s) := by
  unfold get
  simp only [hl]

theorem arc_lfu_inv_update {s : ArcLfuPart K V} (h : Inv s) (key : K) (node : ArcNode K V)
    (hl : s.mainCache.lookup key = some node) : Inv (updateNodeFrequency s node) := by
  obtain ⟨e1, -, -, -, -, e6, -⟩ := arc_lfu_update_fields s node
  refine ⟨arc_lfu_wf_update h.1 key node hl, ?_⟩
  rw [e1, e6, length_mapUpdate]
  exact h.2

theorem arc_lfu_inv_get {s : ArcLfuPart K V} (h : Inv s) (key : K) : Inv (get s key).2 := by
  cases hl : s.mainCache.lookup key with
  | none => rw [arc_lfu_get_miss s key hl]; exact h
  | some node => rw [arc_lfu_get_hit s key node hl]; exact arc_lfu_inv_update h key node hl

theorem arc_lfu_ghost_get (s : ArcLfuPart K V) (key : K) :
    (get s key).2.ghostCache = s.ghostCache := by
  cases hl : s.mainCache.lookup key with
  | none => rw [arc_lfu_get_miss s key hl]
  | some node => rw [arc_lfu_get_hit s key node hl]; exact (arc_lfu_update_fields s node).2.2.2.1

/-- What `put` does to the frequency part. -/
theorem arc_lfu_inv_put {s : ArcLfuPart K V} (h : Inv s) (key : K) (value : V) :
    Inv (put s key value).2 ∧
    (∀ x, x ∈ (put s key value).2.ghostCache.map Prod.fst →
      x ∈ s.ghostCache.map Prod.fst ∨ (x ∈ s.mainCache.map Prod.fst ∧ x ≠ key)) ∧
    (s.capacity ≠ 0 →
      ∃ n, (put s key value).2.mainCache.lookup key = some n ∧ n.value = value) := by
  by_cases hc : s.capacity = 0
  · have : put s key value = (false, s) := by unfold put; simp only [hc, if_true]
    rw [this]
    exact ⟨h, fun x hx => Or.inl hx, fun hh => absurd hc hh⟩
  cases hl : s.mainCache.lookup key with
  | some node =>
    obtain ⟨t, tw, tm, tl, tc, tg, -, tp⟩ := arc_lfu_put_hit h.1 key value node hc hl
    rw [tp]
    have hti : Inv t := ⟨tw, by rw [tm, tc, length_mapUpdate]; exact h.2⟩
    obtain ⟨e1, -, -, e4, -, -, -⟩ := arc_lfu_update_fields t { node with value := value }
    refine ⟨arc_lfu_inv_update hti key _ tl, ?_, ?_⟩
    · intro x hx
      rw [e4, tg] at hx
      exact Or.inl hx
    · intro _
      have hk : node.key = key := (h.1.2.1 key node hl).1
      refine ⟨ArcNode.incrementAccessCount { node with value := value }, ?_, rfl⟩
      show (updateNodeFrequency t { node with value := value }).mainCache.lookup key = _
      rw [e1]
      show (mapUpdate t.mainCache node.key ArcNode.incrementAccessCount).lookup key = _
      rw [lookup_mapUpdate, if_pos hk.symm, tl]
      rfl
  | none =>
    obtain ⟨t, ht, p1, p2, p3, p4, p5⟩ := arc_lfu_put_miss s key value hc hl
    have hkm : key ∉ s.mainCache.map Prod.fst := (lookup_eq_none_iff_not_mem _ _).1 hl
    obtain ⟨hw, hlen, hsub, hgh, hcap⟩ : Wf t ∧ t.mainCache.length + 1 ≤ s.capacity ∧
        (∀ x n, t.mainCache.lookup x = some n → s.mainCache.lookup x = some n) ∧
        (∀ x, x ∈ t.ghostCache.map Prod.fst →
          x ∈ s.ghostCache.map Prod.fst ∨ x ∈ s.mainCache.map Prod.fst) ∧
        t.capacity = s.capacity := by
      rw [ht]
      by_cases hfull : s.mainCache.length ≥ s.capacity
      · have hne : s.mainCache ≠ [] := by
          intro h0
          rw [h0] at hfull
          simp at hfull
          exact hc hfull
        obtain ⟨e1, e2, e3, e4⟩ := arc_lfu_evict_spec h.1 hne
        rw [if_pos hfull]
        refine ⟨e1, ?_, e3, e4, arc_lfu_capacity_evict s⟩
        have := h.2
        omega
      · rw [if_neg hfull]
        exact ⟨h.1, by omega, fun x n hx => hx, fun x hx => Or.inl hx, rfl⟩
    have hl1 : t.mainCache.lookup key = none := by
      cases hlt : t.mainCache.lookup key with
      | none => rfl
      | some n => rw [hsub key n hlt] at hl; simp at hl
    refine ⟨⟨arc_lfu_wf_insert hw key value hl1 _ ⟨p1, p2, p3⟩, ?_⟩, ?_, ?_⟩
    · rw [p1, p4, length_mapAssign_of_none _ _ _ hl1, hcap]
      exact hlen
    · intro x hx
      rw [p5] at hx
      rcases hgh x hx with hg1 | hg2
      · exact Or.inl hg1
      · exact Or.inr ⟨hg2, fun hxk => hkm (hxk ▸ hg2)⟩
    · intro _
      exact ⟨ArcNode.mk1 key value, by rw [p1, lookup_mapAssign_self], rfl⟩

end ArcLfuPart
end MyCache

namespace MyCache
namespace ArcLruPart
variable {K V : Type} [DecidableEq K]

theorem arc_lru_ghost_get (s : ArcLruPart K V) (key : K) :
    (get s key).2.ghostCache = s.ghostCache := by
  unfold get
  split <;> rfl

theorem arc_lru_inv_checkGhost {s : ArcLruPart K V} (h : Inv s) (key : K) :
    Inv (checkGhost s key).2 := by
  obtain ⟨e1, -, e3⟩ := arc_lru_main_checkGhost s key
  refine ⟨arc_lru_wf_checkGhost h.1 key, ?_⟩
  rw [e1, e3]
  exact h.2

theorem arc_lru_checkGhost_absent (s : ArcLruPart K V) (key : K) :
    key ∉ (checkGhost s key).2.ghostCache.map Prod.fst := by
  by_cases h : key ∈ s.ghostCache.map Prod.fst
  · rw [arc_lru_checkGhost_hit s key h]
    exact (lookup_eq_none_iff_not_mem _ _).1 (lookup_mapErase_self _ _)
  · rw [arc_lru_checkGhost_miss s key h]
    exact h

theorem arc_lru_checkGhost_fst (s : ArcLruPart K V) (key : K) :
    (checkGhost s key).1 = true ↔ key ∈ s.ghostCache.map Prod.fst := by
  by_cases h : key ∈ s.ghostCache.map Prod.fst
  · rw [arc_lru_checkGhost_hit s key h]; simp [h]
  · rw [arc_lru_checkGhost_miss s key h]; simp [h]

/-- With a capacity other than 0, `put` leaves the key resident with the value. -/
theorem arc_lru_put_value (s : ArcLruPart K V) (key : K) (value : V) (hc : s.capacity ≠ 0) :
    ∃ n, (put s key value).2.mainCache.lookup key = some n ∧ n.value = value := by
  cases hl : s.mainCache.lookup key with
  | some node =>
    rw [arc_lru_put_hit s key value node hc hl]
    refine ⟨{ node with value := value }, ?_, rfl⟩
    show (mapUpdate s.mainCache key (fun n => { n with value := value })).lookup key = _
    rw [lookup_mapUpdate, if_pos rfl, hl]
    rfl
  | none =>
    rw [arc_lru_put_miss s key value hc hl]
    exact ⟨ArcNode.mk1 key value, lookup_mapAssign_self _ _ _, rfl⟩

end ArcLruPart

namespace ArcLfuPart
variable {K V : Type} [DecidableEq K]

theorem arc_lfu_checkGhost_fst (s : ArcLfuPart K V) (key : K) :
    (checkGhost s key).1 = true ↔ key ∈ s.ghostCache.map Prod.fst := by
  unfold checkGhost
  cases hl : s.ghostCache.lookup key with
  | none =>
    have := (lookup_eq_none_iff_not_mem _ _).1 hl
    simp [this]
  | some n =>
    have := mem_keys_of_lookup _ _ _ hl
    simp [this]

theorem arc_lfu_checkGhost_miss (s : ArcLfuPart K V) (key : K)
    (h : key ∉ s.ghostCache.map Prod.fst) : checkGhost s key = (false, s) := by
  have h1 := (lookup_eq_none_iff_not_mem s.ghostCache key).2 h
  unfold checkGhost
  rw [h1]

end ArcLfuPart

namespace ArcCache
variable {K V : Type} [DecidableEq K]

theorem arc_inv_new (c t : Nat) : Inv (new c t : ArcCache K V) :=
  ⟨ArcLruPart.arc_lru_inv_new c t, ArcLfuPart.arc_lfu_inv_new c t⟩

theorem arc_checkGhostCaches_miss (s : ArcCache K V) (key : K)
    (h1 : key ∉ recencyGhost s) (h2 : key ∉ frequencyGhost s) :
    checkGhostCaches s key = (false, s) := by
  unfold checkGhostCaches
  simp only [ArcLruPart.arc_lru_checkGhost_miss s.lruPart key h1,
    ArcLfuPart.arc_lfu_checkGhost_miss s.lfuPart key h2, Bool.false_eq_true, if_false]

theorem arc_checkGhostCaches_fst (s : ArcCache K V) (key : K) :
    (checkGhostCaches s key).1 = false ↔ (key ∉ recencyGhost s ∧ key ∉ frequencyGhost s) := by
  constructor
  · intro h
    by_contra hc
    have hin : key ∈ recencyGhost s ∨ key ∈ frequencyGhost s := by
      by_contra hn
      exact hc ⟨fun a => hn (Or.inl a), fun a => hn (Or.inr a)⟩
    have : (checkGhostCaches s key).1 = true := by
      unfold checkGhostCaches
      by_cases hr : key ∈ recencyGhost s
      · have := (ArcLruPart.arc_lru_checkGhost_fst s.lruPart key).2 hr
        simp only [this, if_true]
        split <;> rfl
      · have hf : key ∈ frequencyGhost s := hin.resolve_left hr
        have h1 := ArcLruPart.arc_lru_checkGhost_miss s.lruPart key hr
        have h2 := (ArcLfuPart.arc_lfu_checkGhost_fst s.lfuPart key).2 hf
        simp only [h1, Bool.false_eq_true, if_false, h2, if_true]
        split <;> rfl
    rw [this] at h
    exact absurd h (by simp)
  · intro h
    rw [arc_checkGhostCaches_miss s key h.1 h.2]

theorem arc_inv_checkGhostCaches {s : ArcCache K V} (h : Inv s) (key : K) :
    Inv (checkGhostCaches s key).2 := by
  have hg := ArcLruPart.arc_lru_inv_checkGhost h.1 key
  unfold checkGhostCaches
  simp only
  split
  · split
    · exact ⟨ArcLruPart.arc_lru_inv_increaseCapacity hg,
        (ArcLfuPart.arc_lfu_inv_decreaseCapacity h.2).1⟩
    · exact ⟨hg, (ArcLfuPart.arc_lfu_inv_decreaseCapacity h.2).1⟩
  · have hg2 := ArcLfuPart.arc_lfu_inv_checkGhost h.2 key
    split
    · split
      · exact ⟨(ArcLruPart.arc_lru_inv_decreaseCapacity hg).1,
          ArcLfuPart.arc_lfu_inv_increaseCapacity hg2⟩
      · exact ⟨(ArcLruPart.arc_lru_inv_decreaseCapacity hg).1, hg2⟩
    · exact ⟨hg, hg2⟩

theorem arc_inv_put {s : ArcCache K V} (h : Inv s) (key : K) (value : V) :
    Inv (put s key value) := by
  have hc := arc_inv_checkGhostCaches h key
  unfold put
  simp only
  by_cases hin : (checkGhostCaches s key).1 = true
  · simp only [hin, Bool.not_true, Bool.false_eq_true, if_false]
    have hck := ArcLruPart.arc_lru_inv_checkGhost hc.1 key
    split
    · exact ⟨(ArcLruPart.arc_lru_inv_put hck key value
        (ArcLruPart.arc_lru_checkGhost_absent _ key)).1, hc.2⟩
    · exact ⟨hck, (ArcLfuPart.arc_lfu_inv_put hc.2 key value).1⟩
  · have hin2 : (checkGhostCaches s key).1 = false := by
      cases hb : (checkGhostCaches s key).1 with
      | true => exact absurd hb hin
      | false => rfl
    have hmiss := (arc_checkGhostCaches_fst s key).1 hin2
    rw [arc_checkGhostCaches_miss s key hmiss.1 hmiss.2]
    simp only [Bool.not_false, if_true]
    have hgi := ArcLruPart.arc_lru_inv_get h.1 key
    have hgg : key ∉ (ArcLruPart.get s.lruPart key).2.ghostCache.map Prod.fst := by
      rw [ArcLruPart.arc_lru_ghost_get]; exact hmiss.1
    split
    · split
      · exact ⟨(ArcLruPart.arc_lru_inv_put hgi key value hgg).1,
          (ArcLfuPart.arc_lfu_inv_put h.2 key value).1⟩
      · exact ⟨(ArcLruPart.arc_lru_inv_put hgi key value hgg).1, h.2⟩
    · split
      · exact ⟨hgi, (ArcLfuPart.arc_lfu_inv_put (ArcLfuPart.arc_lfu_inv_get h.2 key) key value).1⟩
      · exact ⟨(ArcLruPart.arc_lru_inv_put hgi key value hgg).1, ArcLfuPart.arc_lfu_inv_get h.2 key⟩

theorem arc_inv_get {s : ArcCache K V} (h : Inv s) (key : K) : Inv (get s key).2 := by
  have hc := arc_inv_checkGhostCaches h key
  unfold get
  simp only
  split
  · split
    · exact ⟨ArcLruPart.arc_lru_inv_get hc.1 key, (ArcLfuPart.arc_lfu_inv_put hc.2 key _).1⟩
    · exact ⟨ArcLruPart.arc_lru_inv_get hc.1 key, hc.2⟩
  · exact ⟨ArcLruPart.arc_lru_inv_get hc.1 key, ArcLfuPart.arc_lfu_inv_get hc.2 key⟩

theorem arc_inv_step {s : ArcCache K V} (h : Inv s) (op : Op K V) : Inv (step s op) := by
  cases op with
  | put key value => exact arc_inv_put h key value
  | get key => exact arc_inv_get h key

theorem arc_inv_run {s : ArcCache K V} (h : Inv s) (ops : List (Op K V)) : Inv (run s ops) := by
  induction ops generalizing s with
  | nil => exact h
  | cons op ops ih => exact ih (arc_inv_step h op)

theorem arc_reachable_inv {c t : Nat} {s : ArcCache K V} (h : Reachable c t s) : Inv s := by
  obtain ⟨ops, rfl⟩ := h
  exact arc_inv_run (arc_inv_new c t) ops

end ArcCache
end MyCache

namespace MyCache
namespace ArcCache
variable {K V : Type} [DecidableEq K]

/-- C15 (ARC disjointness invariant), the claim as stated fails: reachable states
in which key 1 is in the recency ghost and in the frequency main cache, key 1 is in
both ghosts, and key 2 is in the frequency ghost and in the recency main cache. No
operation of these traces is on a key that is in a ghost list at that moment. -/
theorem arc_disjointness_counterexample :
    (1 ∈ recencyGhost (run (new 1 2 : ArcCache Nat Nat) [.put 1 1, .put 1 1, .put 2 2]) ∧
      1 ∈ frequencyMain (run (new 1 2 : ArcCache Nat Nat) [.put 1 1, .put 1 1, .put 2 2])) ∧
    (1 ∈ recencyGhost (run (new 2 2 : ArcCache Nat Nat)
        [.put 1 1, .put 1 1, .put 2 2, .put 2 2, .put 3 3, .put 3 3]) ∧
      1 ∈ frequencyGhost (run (new 2 2 : ArcCache Nat Nat)
        [.put 1 1, .put 1 1, .put 2 2, .put 2 2, .put 3 3, .put 3 3])) ∧
    (2 ∈ frequencyGhost (run (new 2 2 : ArcCache Nat Nat)
        [.put 1 1, .put 1 1, .put 1 1, .put 2 2, .put 2 2, .put 3 3, .put 3 3]) ∧
      2 ∈ recencyMain (run (new 2 2 : ArcCache Nat Nat)
        [.put 1 1, .put 1 1, .put 1 1, .put 2 2, .put 2 2, .put 3 3, .put 3 3])) := by
  decide

/-- C15 (ARC disjointness invariant), as the code has it: in every state reachable
from the empty cache by `put` and `get`, the key sets of the recency ghost and of
the recency main cache are disjoint. -/
theorem arc_recency_disjoint (c t : Nat) (s : ArcCache K V) (hs : Reachable c t s) (k : K)
    (hk : k ∈ recencyGhost s) : k ∉ recencyMain s :=
  (arc_reachable_inv hs).1.1.2.2.2 k hk

theorem arc_recency_disjoint_witness :
    Reachable 1 2 (run (new 1 2 : ArcCache Nat Nat) [.put 1 1, .put 1 1, .put 2 2]) ∧
    1 ∈ recencyGhost (run (new 1 2 : ArcCache Nat Nat) [.put 1 1, .put 1 1, .put 2 2]) ∧
    1 ∉ recencyMain (run (new 1 2 : ArcCache Nat Nat) [.put 1 1, .put 1 1, .put 2 2]) :=
  ⟨⟨_, rfl⟩, by decide, arc_recency_disjoint 1 2 _ ⟨_, rfl⟩ 1 (by decide)⟩

/-- C17 (ARC resident bound): in every state reachable from the empty cache by
`put` and `get`, the recency main cache holds at most `c_r` entries and the
frequency main cache holds at most `c_f` entries, so the two together hold at
most `c_r + c_f`. -/
theorem arc_resident_bound (c t : Nat) (s : ArcCache K V) (hs : Reachable c t s) :
    s.lruPart.mainCache.length ≤ s.lruPart.capacity ∧
    s.lfuPart.mainCache.length ≤ s.lfuPart.capacity ∧
    s.lruPart.mainCache.length + s.lfuPart.mainCache.length
      ≤ s.lruPart.capacity + s.lfuPart.capacity := by
  have h := arc_reachable_inv hs
  exact ⟨h.1.2, h.2.2, Nat.add_le_add h.1.2 h.2.2⟩

theorem arc_resident_bound_witness :
    Reachable 4 2 (run (new 4 2 : ArcCache Nat Nat) scenario5) ∧
    (run (new 4 2 : ArcCache Nat Nat) scenario5).lruPart.mainCache.length
      ≤ (run (new 4 2 : ArcCache Nat Nat) scenario5).lruPart.capacity ∧
    (run (new 4 2 : ArcCache Nat Nat) scenario5).lfuPart.mainCache.length
      ≤ (run (new 4 2 : ArcCache Nat Nat) scenario5).lfuPart.capacity :=
  ⟨⟨_, rfl⟩, (arc_resident_bound 4 2 _ ⟨_, rfl⟩).1, (arc_resident_bound 4 2 _ ⟨_, rfl⟩).2.1⟩

end ArcCache
end MyCache

namespace MyCache
namespace ArcCache
variable {K V : Type} [DecidableEq K]

theorem arc_put_recency_resident {s : ArcCache K V} (hw : ArcLruPart.Wf s.lruPart) (k : K) (v : V)
    (h1 : k ∉ recencyGhost s) (h2 : k ∉ frequencyGhost s) (node : ArcNode K V)
    (hl : s.lruPart.mainCache.lookup k = some node) :
    (put s k v).lruPart = (ArcLruPart.put (ArcLruPart.get s.lruPart k).2 k v).2 ∧
    ((put s k v).lfuPart = s.lfuPart ∨
      (put s k v).lfuPart = (ArcLfuPart.put s.lfuPart k v).2) := by
  unfold put
  rw [arc_checkGhostCaches_miss s k h1 h2]
  simp only [Bool.not_false, if_true]
  rw [ArcLruPart.arc_lru_get_eq hw k node hl]
  simp only
  split
  · exact ⟨rfl, Or.inr rfl⟩
  · exact ⟨rfl, Or.inl rfl⟩

theorem arc_put_frequency_resident (s : ArcCache K V) (k : K) (v : V)
    (h1 : k ∉ recencyGhost s) (h2 : k ∉ frequencyGhost s)
    (hl : s.lruPart.mainCache.lookup k = none) (node : ArcNode K V)
    (hf : s.lfuPart.mainCache.lookup k = some node) :
    (put s k v).lruPart = s.lruPart ∧
    (put s k v).lfuPart = (ArcLfuPart.put (ArcLfuPart.get s.lfuPart k).2 k v).2 := by
  unfold put
  rw [arc_checkGhostCaches_miss s k h1 h2]
  simp only [Bool.not_false, if_true]
  rw [ArcLruPart.arc_lru_get_miss s.lruPart k hl, ArcLfuPart.arc_lfu_get_hit s.lfuPart k node hf]
  simp only [and_self]

theorem arc_put_fresh (s : ArcCache K V) (k : K) (v : V)
    (h1 : k ∉ recencyGhost s) (h2 : k ∉ frequencyGhost s)
    (hl : s.lruPart.mainCache.lookup k = none) (hf : s.lfuPart.mainCache.lookup k = none) :
    (put s k v).lruPart = (ArcLruPart.put s.lruPart k v).2 ∧ (put s k v).lfuPart = s.lfuPart := by
  unfold put
  rw [arc_checkGhostCaches_miss s k h1 h2]
  simp only [Bool.not_false, if_true]
  rw [ArcLruPart.arc_lru_get_miss s.lruPart k hl, ArcLfuPart.arc_lfu_get_miss s.lfuPart k hf]
  simp only [and_self]

theorem arc_get_recency_resident {s : ArcCache K V} (hw : ArcLruPart.Wf s.lruPart) (k : K)
    (h1 : k ∉ recencyGhost s) (h2 : k ∉ frequencyGhost s) (node : ArcNode K V)
    (hl : s.lruPart.mainCache.lookup k = some node) :
    (get s k).1 = some node.value ∧
    (get s k).2.lruPart = (ArcLruPart.get s.lruPart k).2 ∧
    (get s k).2.lfuPart =
      (if node.accessCount + 1 ≥ s.lruPart.transformThreshold
        then (ArcLfuPart.put s.lfuPart k node.value).2 else s.lfuPart) := by
  unfold get
  rw [arc_checkGhostCaches_miss s k h1 h2]
  simp only
  rw [ArcLruPart.arc_lru_get_eq hw k node hl]
  simp only
  by_cases hc : node.accessCount + 1 ≥ s.lruPart.transformThreshold
  · simp only [hc, decide_True, if_true, and_self]
  · simp only [hc, decide_False, Bool.false_eq_true, if_false, and_self]

theorem arc_get_frequency_resident (s : ArcCache K V) (k : K)
    (h1 : k ∉ recencyGhost s) (h2 : k ∉ frequencyGhost s)
    (hl : s.lruPart.mainCache.lookup k = none) (node : ArcNode K V)
    (hf : s.lfuPart.mainCache.lookup k = some node) :
    (get s k).1 = some node.value := by
  unfold get
  rw [arc_checkGhostCaches_miss s k h1 h2]
  simp only
  rw [ArcLruPart.arc_lru_get_miss s.lruPart k hl, ArcLfuPart.arc_lfu_get_hit s.lfuPart k node hf]

theorem length_pos_of_lookup {A B : Type} [DecidableEq A] (m : List (A × B)) (a : A) (b : B)
    (h : m.lookup a = some b) : 1 ≤ m.length := by
  cases m with
  | nil => simp at h
  | cons e r => simp

/-- After `put(k, v)` on a key outside both ghost lists that is resident or finds
room in the recency part, the key is outside both ghost lists and the cache that
answers `get(k)` holds `v` for it. -/
theorem arc_put_then_lookup {s : ArcCache K V} (hI : Inv s) (k : K) (v : V)
    (h1 : k ∉ recencyGhost s) (h2 : k ∉ frequencyGhost s)
    (h3 : k ∈ recencyMain s ∨ k ∈ frequencyMain s ∨ 1 ≤ s.lruPart.capacity) :
    k ∉ recencyGhost (put s k v) ∧ k ∉ frequencyGhost (put s k v) ∧
    ((∃ n, (put s k v).lruPart.mainCache.lookup k = some n ∧ n.value = v) ∨
      ((put s k v).lruPart.mainCache.lookup k = none ∧
        ∃ n, (put s k v).lfuPart.mainCache.lookup k = some n ∧ n.value = v)) := by
  have hfg : ∀ x, x ∈ (ArcLfuPart.put s.lfuPart k v).2.ghostCache.map Prod.fst →
      x ∈ s.lfuPart.ghostCache.map Prod.fst ∨ (x ∈ s.lfuPart.mainCache.map Prod.fst ∧ x ≠ k) :=
    (ArcLfuPart.arc_lfu_inv_put hI.2 k v).2.1
  cases hl : s.lruPart.mainCache.lookup k with
  | some node =>
    obtain ⟨e1, e2⟩ := arc_put_recency_resident hI.1.1 k v h1 h2 node hl
    have hgi := ArcLruPart.arc_lru_inv_get hI.1 k
    have hgg : k ∉ (ArcLruPart.get s.lruPart k).2.ghostCache.map Prod.fst := by
      rw [ArcLruPart.arc_lru_ghost_get]; exact h1
    have hcap : (ArcLruPart.get s.lruPart k).2.capacity ≠ 0 := by
      rw [ArcLruPart.arc_lru_capacity_get]
      have := length_pos_of_lookup _ _ _ hl
      have := hI.1.2
      omega
    refine ⟨?_, ?_, Or.inl ?_⟩
    · unfold recencyGhost
      rw [e1]
      intro hin
      rcases (ArcLruPart.arc_lru_inv_put hgi k v hgg).2 k hin with hh | hh
      · exact hgg hh
      · exact hh.2 rfl
    · unfold frequencyGhost
      rcases e2 with e2 | e2
      · rw [e2]; exact h2
      · rw [e2]
        intro hin
        rcases hfg k hin with hh | hh
        · exact h2 hh
        · exact hh.2 rfl
    · rw [e1]
      exact ArcLruPart.arc_lru_put_value _ k v hcap
  | none =>
    cases hf : s.lfuPart.mainCache.lookup k with
    | some node =>
      obtain ⟨e1, e2⟩ := arc_put_frequency_resident s k v h1 h2 hl node hf
      have hgi := ArcLfuPart.arc_lfu_inv_get hI.2 k
      have hcap : (ArcLfuPart.get s.lfuPart k).2.capacity ≠ 0 := by
        rw [ArcLfuPart.arc_lfu_capacity_get]
        have := length_pos_of_lookup _ _ _ hf
        have := hI.2.2
        omega
      obtain ⟨-, p2, p3⟩ := ArcLfuPart.arc_lfu_inv_put hgi k v
      refine ⟨?_, ?_, Or.inr ⟨?_, ?_⟩⟩
      · unfold recencyGhost; rw [e1]; exact h1
      · unfold frequencyGhost
        rw [e2]
        intro hin
        rcases p2 k hin with hh | hh
        · rw [ArcLfuPart.arc_lfu_ghost_get] at hh
          exact h2 hh
        · exact hh.2 rfl
      · rw [e1]; exact hl
      · rw [e2]; exact p3 hcap
    | none =>
      obtain ⟨e1, e2⟩ := arc_put_fresh s k v h1 h2 hl hf
      have hcap : s.lruPart.capacity ≠ 0 := by
        rcases h3 with h3 | h3 | h3
        · exact absurd h3 ((lookup_eq_none_iff_not_mem _ _).1 hl)
        · exact absurd h3 ((lookup_eq_none_iff_not_mem _ _).1 hf)
        · omega
      refine ⟨?_, ?_, Or.inl ?_⟩
      · unfold recencyGhost
        rw [e1]
        intro hin
        rcases (ArcLruPart.arc_lru_inv_put hI.1 k v h1).2 k hin with hh | hh
        · exact h1 hh
        · exact hh.2 rfl
      · unfold frequencyGhost; rw [e2]; exact h2
      · rw [e1]
        exact ArcLruPart.arc_lru_put_value _ k v hcap

/-- C18 (ARC overwrite idempotence), the claim as stated fails.  On a cache of
capacity 1, after `put(1, 1), put(2, 2)`, the call `put(1, 10)` is a recency
ghost hit; it lowers the frequency capacity to 0 and hands the pair to the
frequency part, which stores nothing, and `get(1)` returns false.  On a cache of
capacity 2, after `put 1, put 2, put 1, put 3, put 2`, key 1 is resident in the
recency main cache and recorded in the frequency ghost; `put(1, 99)` writes to
the frequency part only and `get(1)` returns the value 10 of the recency part. -/
theorem arc_overwrite_counterexample :
    (Reachable 1 2 (run (new 1 2 : ArcCache Nat Nat) [.put 1 1, .put 2 2]) ∧
      (get (put (run (new 1 2 : ArcCache Nat Nat) [.put 1 1, .put 2 2]) 1 10) 1).1 ≠ some 10) ∧
    (Reachable 2 2 (run (new 2 2 : ArcCache Nat Nat)
        [.put 1 10, .put 2 20, .put 1 10, .put 3 30, .put 2 20]) ∧
      (get (put (run (new 2 2 : ArcCache Nat Nat)
        [.put 1 10, .put 2 20, .put 1 10, .put 3 30, .put 2 20]) 1 99) 1).1 = some 10) :=
  ⟨⟨⟨_, rfl⟩, by decide⟩, ⟨⟨_, rfl⟩, by decide⟩⟩

/-- C18 (ARC overwrite idempotence), as the code has it: for every state
reachable from the empty cache by `put` and `get`, every value `v` and every key
`k` that is in neither ghost list and is resident in one of the two main caches
or finds the recency capacity at least 1, `put(k, v)` immediately followed by
`get(k, out)` returns true with value `v`. -/
theorem arc_overwrite_idempotence (c t : Nat) (s : ArcCache K V) (hs : Reachable c t s)
    (k : K) (v : V) (h1 : k ∉ recencyGhost s) (h2 : k ∉ frequencyGhost s)
    (h3 : k ∈ recencyMain s ∨ k ∈ frequencyMain s ∨ 1 ≤ s.lruPart.capacity) :
    (get (put s k v) k).1 = some v := by
  have hI := arc_reachable_inv hs
  have hI2 := arc_inv_put hI k v
  obtain ⟨g1, g2, hv⟩ := arc_put_then_lookup hI k v h1 h2 h3
  rcases hv with ⟨n, hn, hnv⟩ | ⟨hnone, n, hn, hnv⟩
  · rw [(arc_get_recency_resident hI2.1.1 k g1 g2 n hn).1, hnv]
  · rw [arc_get_frequency_resident _ k g1 g2 hnone n hn, hnv]

theorem arc_overwrite_idempotence_witness :
    Reachable 4 2 (run (new 4 2 : ArcCache Nat Nat) scenario5) ∧
    5 ∉ recencyGhost (run (new 4 2 : ArcCache Nat Nat) scenario5) ∧
    5 ∉ frequencyGhost (run (new 4 2 : ArcCache Nat Nat) scenario5) ∧
    5 ∈ recencyMain (run (new 4 2 : ArcCache Nat Nat) scenario5) ∧
    (get (put (run (new 4 2 : ArcCache Nat Nat) scenario5) 5 50) 5).1 = some 50 :=
  ⟨⟨_, rfl⟩, by decide, by decide, by decide,
    arc_overwrite_idempotence 4 2 _ ⟨_, rfl⟩ 5 50 (by decide) (by decide) (Or.inl (by decide))⟩

end ArcCache
end MyCache

namespace MyCache
namespace ArcLruPart
variable {K V : Type} [DecidableEq K]

theorem arc_lru_threshold_evict (s : ArcLruPart K V) :
    (evictLeastRecent s).transformThreshold = s.transformThreshold := by
  unfold evictLeastRecent
  split
  · rfl
  · split
    · rfl
    · simp only [addToGhost, removeOldestGhost]
      split
      · split <;> rfl
      · rfl

theorem arc_lru_threshold_put (s : ArcLruPart K V) (key : K) (value : V) :
    (put s key value).2.transformThreshold = s.transformThreshold := by
  unfold put
  split
  · rfl
  · split
    · rfl
    · simp only [addNewNode, addToFront]
      split
      · exact arc_lru_threshold_evict s
      · rfl

theorem arc_lru_threshold_get (s : ArcLruPart K V) (key : K) :
    (get s key).2.transformThreshold = s.transformThreshold := by
  unfold get
  split <;> rfl

theorem arc_lru_threshold_checkGhost (s : ArcLruPart K V) (key : K) :
    (checkGhost s key).2.transformThreshold = s.transformThreshold := by
  unfold checkGhost
  split <;> rfl

theorem arc_lru_threshold_decrease (s : ArcLruPart K V) :
    (decreaseCapacity s).2.transformThreshold = s.transformThreshold := by
  unfold decreaseCapacity
  split
  · rfl
  · simp only
    split
    · exact arc_lru_threshold_evict s
    · rfl

end ArcLruPart

namespace ArcCache
variable {K V : Type} [DecidableEq K]

theorem arc_threshold_checkGhostCaches (s : ArcCache K V) (key : K) :
    (checkGhostCaches s key).2.lruPart.transformThreshold = s.lruPart.transformThreshold := by
  unfold checkGhostCaches
  simp only
  split
  · split
    · exact ArcLruPart.arc_lru_threshold_checkGhost s.lruPart key
    · exact ArcLruPart.arc_lru_threshold_checkGhost s.lruPart key
  · split
    · split
      · exact (ArcLruPart.arc_lru_threshold_decrease _).trans
          (ArcLruPart.arc_lru_threshold_checkGhost s.lruPart key)
      · exact (ArcLruPart.arc_lru_threshold_decrease _).trans
          (ArcLruPart.arc_lru_threshold_checkGhost s.lruPart key)
    · exact ArcLruPart.arc_lru_threshold_checkGhost s.lruPart key

theorem arc_threshold_put (s : ArcCache K V) (key : K) (value : V) :
    (put s key value).lruPart.transformThreshold = s.lruPart.transformThreshold := by
  have hc := arc_threshold_checkGhostCaches s key
  unfold put
  simp only
  split
  · split
    · split
      · simp [ArcLruPart.arc_lru_threshold_put, ArcLruPart.arc_lru_threshold_get, hc]
      · simp [ArcLruPart.arc_lru_threshold_put, ArcLruPart.arc_lru_threshold_get, hc]
    · split
      · simp [ArcLruPart.arc_lru_threshold_get, hc]
      · simp [ArcLruPart.arc_lru_threshold_put, ArcLruPart.arc_lru_threshold_get, hc]
  · split
    · simp [ArcLruPart.arc_lru_threshold_put, ArcLruPart.arc_lru_threshold_checkGhost, hc]
    · simp [ArcLruPart.arc_lru_threshold_checkGhost, hc]

theorem arc_threshold_get (s : ArcCache K V) (key : K) :
    (get s key).2.lruPart.transformThreshold = s.lruPart.transformThreshold := by
  have hc := arc_threshold_checkGhostCaches s key
  unfold get
  simp only
  split
  · split
    · simp [ArcLruPart.arc_lru_threshold_get, hc]
    · simp [ArcLruPart.arc_lru_threshold_get, hc]
  · simp [ArcLruPart.arc_lru_threshold_get, hc]

theorem arc_threshold_run (s : ArcCache K V) (ops : List (Op K V)) :
    (run s ops).lruPart.transformThreshold = s.lruPart.transformThreshold := by
  induction ops generalizing s with
  | nil => rfl
  | cons op ops ih =>
    show (run (step s op) ops).lruPart.transformThreshold = _
    rw [ih]
    cases op with
    | put key value => exact arc_threshold_put s key value
    | get key => exact arc_threshold_get s key

theorem arc_reachable_threshold {c t : Nat} {s : ArcCache K V} (h : Reachable c t s) :
    s.lruPart.transformThreshold = t := by
  obtain ⟨ops, rfl⟩ := h
  rw [arc_threshold_run]
  rfl

/-- C19 (ARC promotion at threshold), the claim as stated fails.  On a cache of
capacity 1, after `put(1, 1), put(2, 2), put(1, 10)` the frequency capacity is 0
and key 2 is resident in the recency main cache with access count 1; `get(2)`
raises the count to the threshold 2, yet key 2 is not resident in the frequency
main cache afterwards.  On a cache of capacity 2, after
`put 1, put 1, put 1, put 2, put 2, put 3, put 3`, key 2 is resident in the
recency main cache and recorded in the frequency ghost; `get(2)` is a ghost hit
that evicts key 2 from the recency part first, and returns false. -/
theorem arc_promotion_counterexample :
    (Reachable 1 2 (run (new 1 2 : ArcCache Nat Nat) [.put 1 1, .put 2 2, .put 1 10]) ∧
      recencyCount (run (new 1 2 : ArcCache Nat Nat) [.put 1 1, .put 2 2, .put 1 10]) 2
        = some 1 ∧
      recencyCount (get (run (new 1 2 : ArcCache Nat Nat) [.put 1 1, .put 2 2, .put 1 10]) 2).2 2
        = some 2 ∧
      2 ∉ frequencyMain
        (get (run (new 1 2 : ArcCache Nat Nat) [.put 1 1, .put 2 2, .put 1 10]) 2).2) ∧
    (Reachable 2 2 (run (new 2 2 : ArcCache Nat Nat)
        [.put 1 10, .put 1 10, .put 1 10, .put 2 20, .put 2 20, .put 3 30, .put 3 30]) ∧
      2 ∈ recencyMain (run (new 2 2 : ArcCache Nat Nat)
        [.put 1 10, .put 1 10, .put 1 10, .put 2 20, .put 2 20, .put 3 30, .put 3 30]) ∧
      (get (run (new 2 2 : ArcCache Nat Nat)
        [.put 1 10, .put 1 10, .put 1 10, .put 2 20, .put 2 20, .put 3 30, .put 3 30]) 2).1
        = none) :=
  ⟨⟨⟨_, rfl⟩, by decide, by decide, by decide⟩, ⟨⟨_, rfl⟩, by decide, by decide⟩⟩

/-- C19 (ARC promotion at threshold `T`), as the code has it: for every state
reachable from the empty cache built with threshold `T` and every key `k` that is
resident in the recency main cache with access count `c` and is not in the
frequency ghost list, `get(k, out)` returns true with the stored value and raises
the access count of `k` to `c + 1`; if `c + 1 ≥ T` and the frequency capacity is
at least 1, then after the call `k` is also resident in the frequency main cache
with the same value, and if `c + 1 < T` the frequency part is unchanged. -/
theorem arc_promotion (c T : Nat) (s : ArcCache K V) (hs : Reachable c T s) (k : K)
    (node : ArcNode K V) (hk : s.lruPart.mainCache.lookup k = some node)
    (hg : k ∉ frequencyGhost s) :
    (get s k).1 = some node.value ∧
    recencyCount (get s k).2 k = some (node.accessCount + 1) ∧
    (node.accessCount + 1 ≥ T → 1 ≤ s.lfuPart.capacity →
      frequencyValue (get s k).2 k = some node.value) ∧
    (node.accessCount + 1 < T → (get s k).2.lfuPart = s.lfuPart) := by
  have hI := arc_reachable_inv hs
  have hT := arc_reachable_threshold hs
  have hgr : k ∉ recencyGhost s := fun hin =>
    hI.1.1.2.2.2 k hin (mem_keys_of_lookup _ _ _ hk)
  obtain ⟨e1, e2, e3⟩ := arc_get_recency_resident hI.1.1 k hgr hg node hk
  rw [hT] at e3
  refine ⟨e1, ?_, ?_, ?_⟩
  · unfold recencyCount
    rw [e2, ArcLruPart.arc_lru_get_eq hI.1.1 k node hk]
    show ((mapUpdate s.lruPart.mainCache k ArcNode.incrementAccessCount).lookup k).map _ = _
    rw [lookup_mapUpdate, if_pos rfl, hk]
    rfl
  · intro h1 h2
    unfold frequencyValue
    rw [e3, if_pos h1]
    obtain ⟨n, hn, hnv⟩ := (ArcLfuPart.arc_lfu_inv_put hI.2 k node.value).2.2 (by omega)
    rw [hn]
    show some n.value = _
    rw [hnv]
  · intro h1
    rw [e3, if_neg (by omega)]

theorem arc_promotion_witness :
    Reachable 4 2 (run (new 4 2 : ArcCache Nat Nat) [.put 1 1, .put 2 2]) ∧
    (run (new 4 2 : ArcCache Nat Nat) [.put 1 1, .put 2 2]).lruPart.mainCache.lookup 1
      = some (ArcNode.mk1 1 1) ∧
    1 ∉ frequencyGhost (run (new 4 2 : ArcCache Nat Nat) [.put 1 1, .put 2 2]) ∧
    (get (run (new 4 2 : ArcCache Nat Nat) [.put 1 1, .put 2 2]) 1).1 = some 1 ∧
    frequencyValue (get (run (new 4 2 : ArcCache Nat Nat) [.put 1 1, .put 2 2]) 1).2 1 = some 1 :=
  ⟨⟨_, rfl⟩, by decide, by decide,
    (arc_promotion 4 2 _ ⟨_, rfl⟩ 1 (ArcNode.mk1 1 1) (by decide) (by decide)).1,
    (arc_promotion 4 2 _ ⟨_, rfl⟩ 1 (ArcNode.mk1 1 1) (by decide) (by decide)).2.2.1
      (by decide) (by decide)⟩

end ArcCache
end MyCache

namespace MyCache
namespace ArcLruPart
variable {K V : Type} [DecidableEq K]

theorem arc_lru_decreaseCapacity_pos (s : ArcLruPart K V) (h : 0 < s.capacity) :
    (decreaseCapacity s).1 = true ∧ (decreaseCapacity s).2.capacity = s.capacity - 1 := by
  unfold decreaseCapacity
  have : ¬ s.capacity ≤ 0 := by omega
  simp only [this, if_false, true_and]
  split
  · rw [arc_lru_capacity_evict]
  · rfl

theorem arc_lru_decreaseCapacity_zero (s : ArcLruPart K V) (h : s.capacity = 0) :
    decreaseCapacity s = (false, s) := by
  unfold decreaseCapacity
  simp [h]

end ArcLruPart

namespace ArcCache
variable {K V : Type} [DecidableEq K]

/-- The member `checkGhostCaches` on a key of the frequency ghost that is not in
the recency ghost: what it does to the two capacities. -/
theorem arc_frequency_hit_capacity (s : ArcCache K V) (key : K) (h1 : key ∉ recencyGhost s)
    (h2 : key ∈ frequencyGhost s) :
    (checkGhostCaches s key).2.lruPart.capacity = s.lruPart.capacity - 1 ∧
    (checkGhostCaches s key).2.lfuPart.capacity =
      (if 0 < s.lruPart.capacity then s.lfuPart.capacity + 1 else s.lfuPart.capacity) := by
  have hm := ArcLruPart.arc_lru_checkGhost_miss s.lruPart key h1
  have hf := (ArcLfuPart.arc_lfu_checkGhost_fst s.lfuPart key).2 h2
  have hfc := ArcLfuPart.arc_lfu_capacity_checkGhost s.lfuPart key
  unfold checkGhostCaches
  simp only [hm, Bool.false_eq_true, if_false, hf, if_true]
  by_cases hpos : 0 < s.lruPart.capacity
  · obtain ⟨d1, d2⟩ := ArcLruPart.arc_lru_decreaseCapacity_pos s.lruPart hpos
    simp only [d1, if_true, hpos, ArcLfuPart.increaseCapacity, d2, hfc, and_self]
  · have hz : s.lruPart.capacity = 0 := by omega
    have hd := ArcLruPart.arc_lru_decreaseCapacity_zero s.lruPart hz
    simp [hd, hfc, hz]

theorem arc_checkGhostCaches_sum (s : ArcCache K V) (key : K) :
    (checkGhostCaches s key).2.lruPart.capacity + (checkGhostCaches s key).2.lfuPart.capacity
      = s.lruPart.capacity + s.lfuPart.capacity := by
  by_cases h1 : key ∈ recencyGhost s
  · obtain ⟨e1, e2⟩ := arc_recency_hit_capacity s key h1
    rw [e1, e2]
    split <;> omega
  · by_cases h2 : key ∈ frequencyGhost s
    · obtain ⟨e1, e2⟩ := arc_frequency_hit_capacity s key h1 h2
      rw [e1, e2]
      split <;> omega
    · rw [arc_checkGhostCaches_miss s key h1 h2]

theorem arc_step_sum (s : ArcCache K V) (op : Op K V) :
    (step s op).lruPart.capacity + (step s op).lfuPart.capacity
      = s.lruPart.capacity + s.lfuPart.capacity := by
  cases op with
  | put key value =>
    show (put s key value).lruPart.capacity + (put s key value).lfuPart.capacity = _
    rw [(arc_put_capacity s key value).1, (arc_put_capacity s key value).2]
    exact arc_checkGhostCaches_sum s key
  | get key =>
    show (get s key).2.lruPart.capacity + (get s key).2.lfuPart.capacity = _
    rw [(arc_get_capacity s key).1, (arc_get_capacity s key).2]
    exact arc_checkGhostCaches_sum s key

theorem arc_run_sum (s : ArcCache K V) (ops : List (Op K V)) :
    (run s ops).lruPart.capacity + (run s ops).lfuPart.capacity
      = s.lruPart.capacity + s.lfuPart.capacity := by
  induction ops generalizing s with
  | nil => rfl
  | cons op ops ih =>
    show (run (step s op) ops).lruPart.capacity + (run (step s op) ops).lfuPart.capacity = _
    rw [ih, arc_step_sum]

/-- C24 (ARC capacity conservation): for a cache constructed with capacity `c`,
after each call of any finite sequence of `put` and `get` calls (after every
prefix `ops.take n`) the capacities of the two parts add up to `2 * c`.  They are
`size_t` values, decremented only when positive: for every state and key, a
`put` and a `get` alike move one unit from the frequency part to the recency part
when the key is in the recency ghost and the frequency capacity is positive, one
unit from the recency part to the frequency part when the key is in the frequency
ghost only and the recency capacity is positive, and leave both capacities as
they are when the donor's capacity is 0 or the key is in neither ghost. -/
theorem arc_capacity_conservation (c t : Nat) (ops : List (Op K V)) :
    (∀ n : Nat,
      (run (new c t) (ops.take n)).lruPart.capacity
        + (run (new c t) (ops.take n)).lfuPart.capacity = 2 * c) ∧
    ∀ (s : ArcCache K V) (key : K) (value : V) (r : ArcCache K V),
      (r = put s key value ∨ r = (get s key).2) →
      (key ∈ recencyGhost s → 0 < s.lfuPart.capacity →
        r.lruPart.capacity = s.lruPart.capacity + 1 ∧
        r.lfuPart.capacity + 1 = s.lfuPart.capacity) ∧
      (key ∈ recencyGhost s → s.lfuPart.capacity = 0 →
        r.lruPart.capacity = s.lruPart.capacity ∧ r.lfuPart.capacity = 0) ∧
      (key ∉ recencyGhost s → key ∈ frequencyGhost s → 0 < s.lruPart.capacity →
        r.lruPart.capacity + 1 = s.lruPart.capacity ∧
        r.lfuPart.capacity = s.lfuPart.capacity + 1) ∧
      (key ∉ recencyGhost s → key ∈ frequencyGhost s → s.lruPart.capacity = 0 →
        r.lruPart.capacity = 0 ∧ r.lfuPart.capacity = s.lfuPart.capacity) ∧
      (key ∉ recencyGhost s → key ∉ frequencyGhost s →
        r.lruPart.capacity = s.lruPart.capacity ∧
        r.lfuPart.capacity = s.lfuPart.capacity) := by
  constructor
  · intro n
    rw [arc_run_sum]
    show c + c = 2 * c
    omega
  · intro s key value r hr
    have hcap : r.lruPart.capacity = (checkGhostCaches s key).2.lruPart.capacity ∧
        r.lfuPart.capacity = (checkGhostCaches s key).2.lfuPart.capacity := by
      rcases hr with hr | hr
      · rw [hr]; exact arc_put_capacity s key value
      · rw [hr]; exact arc_get_capacity s key
    rw [hcap.1, hcap.2]
    refine ⟨?_, ?_, ?_, ?_, ?_⟩
    · intro h1 hpos
      obtain ⟨e1, e2⟩ := arc_recency_hit_capacity s key h1
      rw [e1, e2, if_pos hpos]
      omega
    · intro h1 hz
      obtain ⟨e1, e2⟩ := arc_recency_hit_capacity s key h1
      rw [e1, e2, if_neg (by omega), hz]
      exact ⟨rfl, rfl⟩
    · intro h1 h2 hpos
      obtain ⟨e1, e2⟩ := arc_frequency_hit_capacity s key h1 h2
      rw [e1, e2, if_pos hpos]
      omega
    · intro h1 h2 hz
      obtain ⟨e1, e2⟩ := arc_frequency_hit_capacity s key h1 h2
      rw [e1, e2, if_neg (by omega), hz]
      exact ⟨rfl, rfl⟩
    · intro h1 h2
      rw [arc_checkGhostCaches_miss s key h1 h2]
      exact ⟨rfl, rfl⟩

theorem arc_capacity_conservation_witness :
    (run (new 4 2 : ArcCache Nat Nat) (scenario5.take 7)).lruPart.capacity
      + (run (new 4 2 : ArcCache Nat Nat) (scenario5.take 7)).lfuPart.capacity = 2 * 4 ∧
    (2 ∈ recencyGhost (run (new 4 2 : ArcCache Nat Nat) scenario5) ∧
      0 < (run (new 4 2 : ArcCache Nat Nat) scenario5).lfuPart.capacity ∧
      (put (run (new 4 2 : ArcCache Nat Nat) scenario5) 2 20).lruPart.capacity
        = (run (new 4 2 : ArcCache Nat Nat) scenario5).lruPart.capacity + 1) :=
  ⟨(arc_capacity_conservation 4 2 scenario5).1 7,
    by decide, by decide,
    ((((arc_capacity_conservation 4 2 scenario5).2
      (run (new 4 2 : ArcCache Nat Nat) scenario5) 2 20 _ (Or.inl rfl)).1)
      (by decide) (by decide)).1⟩

end ArcCache
end MyCache

namespace MyCache
namespace LfuBase
variable {K V : Type} [DecidableEq K]

/-- C21 (LFU running-total invariant), failing input: capacity 2, `maxAverageNum`
10, the calls `put(1,1), purge()`.  `purge` clears `nodeMap_` and the index and
leaves `curTotalNum_` as it was: no node is resident, the sum of `freq` over the
resident nodes is 0, and `curTotalNum_` is 1.  The difference stays: after a
further `put(2,2)` the one resident node has `freq` 1 and `curTotalNum_` is 2.
Without `purge`, the `kickOut` that meets an empty list (capacity 1,
`maxAverageNum = -2`, `put(1,1), put(2,2)`) subtracts the `freq` of a sentinel:
`curTotalNum_` is 4 and the resident nodes have `freq` 3 and 2. -/
theorem lfu_total_after_purge :
    (run intEnv (new 2 10) [Op.put 1 1, Op.purge]).map
        (fun s => (keys s, totalFreq s, s.curTotalNum)) = some ([], 0, 1) ∧
    (run intEnv (new 2 10) [Op.put 1 1, Op.purge, Op.put 2 2]).map
        (fun s => (keys s, totalFreq s, s.curTotalNum)) = some ([2], 1, 2) ∧
    (run intEnv (new 1 (-2)) [Op.put 1 1, Op.put 2 2]).map
        (fun s => (keys s, totalFreq s, s.curTotalNum)) = some ([1, 2], 5, 4) := by
  decide

/-- C22 (LFU minimum-frequency invariant), failing inputs.  Capacity 1 and
`maxAverageNum = -2`: after `put(1,1)` the aging step has moved the only resident
node to frequency 2, and `putInternal` then sets `minFreq_ = min(minFreq_, 1) = 1`;
the list of frequency 1 is empty.  Capacity 1 and `maxAverageNum = 1`, with
`INI8_MAX` read as `INT8_MAX`: after `put(1,1)` and 126 calls of `get(1)` the only
resident node has frequency 127, the aging step finds `minFreq_ == INI8_MAX` and
resets it to 1; the list of frequency 1 is empty. -/
theorem lfu_minFreq_not_minimum :
    (run intEnv (new 1 (-2)) [Op.put 1 1]).map
        (fun s => (keys s, s.minFreq, freqAt s 0, bucket s 1, bucket s 2))
      = some ([1], 1, 2, [], [0]) ∧
    ∃ s, run intEnv (new 1 1) (Op.put 1 1 :: List.replicate 126 (Op.get 1)) = some s ∧
      s.nodeMap = [(1, 0)] ∧ s.minFreq = 1 ∧ freqAt s 0 = 127 ∧ bucket s 1 = [] := by
  refine ⟨by decide, ?_⟩
  obtain ⟨s1, hrun, hs1⟩ := lfu_overflow_gets intEnv (by decide) (by decide) [] 126 0
    (overflowStart intEnv) (lfu_overflow_base intEnv) (by decide)
  obtain ⟨-, hmap, -, -, -, hheap, ⟨l, hl, -, hitems⟩, hmin⟩ := hs1
  refine ⟨s1, ?_, hmap, ?_, ?_, ?_⟩
  · rw [lfu_run_cons intEnv (new 1 1) (overflowStart intEnv) (Op.put 1 1) _
      (lfu_overflow_start intEnv)]
    have := hrun
    rw [List.append_nil] at this
    rw [this]
    rfl
  · rw [hmin]
    decide
  · unfold freqAt
    rw [hheap]
    decide
  · unfold bucket
    rw [hl]
    show l.items = []
    rw [hitems]
    rfl

end LfuBase
end MyCache

namespace MyCache
namespace LfuBase
variable {K V : Type} [DecidableEq K]

theorem lfu_sentinels_congr {s t : LfuBase K V} (h1 : t.nodeMap = s.nodeMap)
    (h2 : t.heap = s.heap) (h3 : t.freqToFreqList = s.freqToFreqList) (h : Sentinels s) :
    Sentinels t := by
  unfold Sentinels at h ⊢
  rw [h1, h2, h3]
  exact h

theorem lfu_index_ne_nil_of_lookup {L : List (Int × FreqList)} {f : Int} {l : FreqList}
    (h : L.lookup f = some l) : L ≠ [] := by
  intro h0
  rw [h0] at h
  cases h

theorem lfu_removeFromFreqList_frame (s s1 : LfuBase K V) (i : Nat)
    (h : removeFromFreqList s i = some s1) :
    s1 = { s with freqToFreqList := FreqList.removeNode s.freqToFreqList i } ∧
    ∃ n l, s.heap[i]? = some n ∧ s.freqToFreqList.lookup n.freq = some l := by
  unfold removeFromFreqList at h
  cases hn : s.heap[i]? with
  | none => rw [hn] at h; cases h
  | some n =>
    rw [hn] at h
    simp only at h
    cases hl : s.freqToFreqList.lookup n.freq with
    | none => rw [hl] at h; cases h
    | some l =>
      rw [hl] at h
      simp only [Option.some.injEq] at h
      exact ⟨h.symm, n, l, rfl, hl⟩

theorem lfu_lookup_removeNode_isSome (L : List (Int × FreqList)) (i : Nat) (f : Int) :
    ((FreqList.removeNode L i).lookup f).isSome = (L.lookup f).isSome := by
  rw [lfu_lookup_removeNode]
  cases L.lookup f <;> rfl

theorem lfu_sentinels_removeNode (s : LfuBase K V) (i : Nat) (h : Sentinels s) :
    Sentinels { s with freqToFreqList := FreqList.removeNode s.freqToFreqList i } := by
  obtain ⟨hb, h1, ht⟩ := h
  refine ⟨hb, ?_, ?_⟩
  · intro hne
    have hne0 : s.freqToFreqList ≠ [] := by
      intro h0
      apply hne
      simp [h0, FreqList.removeNode]
    obtain ⟨l, hl⟩ := h1 hne0
    refine ⟨{ l with items := l.items.erase i }, ?_⟩
    show (FreqList.removeNode s.freqToFreqList i).lookup 1 = _
    rw [lfu_lookup_removeNode, hl]
    rfl
  · intro f l hl
    have hl2 : (FreqList.removeNode s.freqToFreqList i).lookup f = some l := hl
    rw [lfu_lookup_removeNode] at hl2
    cases hl0 : s.freqToFreqList.lookup f with
    | none => rw [hl0] at hl2; cases hl2
    | some l0 =>
      rw [hl0] at hl2
      simp only [Option.map_some', Option.some.injEq] at hl2
      subst hl2
      exact ht f l0 hl0

theorem lfu_sentinels_set (s : LfuBase K V) (i : Nat) (m : Node K V) (h : Sentinels s)
    (hi : ∃ e ∈ s.nodeMap, e.2 = i) :
    Sentinels { s with heap := s.heap.set i m } := by
  obtain ⟨hb, h1, ht⟩ := h
  obtain ⟨e0, he0, hei⟩ := hi
  refine ⟨?_, h1, ?_⟩
  · intro e he
    show e.2 < (s.heap.set i m).length
    rw [List.length_set]
    exact hb e he
  · intro f l hl
    obtain ⟨hne, n, hn, hf⟩ := ht f l hl
    refine ⟨hne, n, ?_, hf⟩
    show (s.heap.set i m)[l.tail]? = some n
    have hne2 : i ≠ l.tail := by
      rw [← hei]
      exact hne e0 he0
    rw [List.getElem?_set_ne hne2]
    exact hn


theorem lfu_isSome_of_eq_some {A : Type} {o : Option A} {a : A} (h : o = some a) :
    o.isSome = true := by
  rw [h]
  rfl

theorem lfu_exists_of_isSome {A : Type} {o : Option A} (h : o.isSome = true) :
    ∃ a, o = some a := by
  cases o with
  | none => cases h
  | some a => exact ⟨a, rfl⟩

/-- The member `addToFreqList` keeps the sentinels in place and every list of the
index, and leaves a list for the frequency of the node. -/
theorem lfu_addToFreqList_frame (env : LfuEnv K V) (s s1 : LfuBase K V) (i : Nat) (n : Node K V)
    (hn : s.heap[i]? = some n) (h : addToFreqList env s i = some s1) (hs : Sentinels s)
    (h1 : s.freqToFreqList ≠ [] ∨ n.freq = 1) :
    Sentinels s1 ∧ s1.nodeMap = s.nodeMap ∧ s1.minFreq = s.minFreq ∧
    (∀ f, (s.freqToFreqList.lookup f).isSome = true →
      (s1.freqToFreqList.lookup f).isSome = true) ∧
    (s1.freqToFreqList.lookup n.freq).isSome = true := by
  obtain ⟨hb, hone, ht⟩ := hs
  unfold addToFreqList at h
  rw [hn] at h
  simp only at h
  cases hl : s.freqToFreqList.lookup n.freq with
  | some l =>
    simp only [hl, Option.isNone_some, Bool.false_eq_true, if_false, Option.some.injEq] at h
    subst h
    have hlk : ∀ f, (mapAssign s.freqToFreqList n.freq (l.addNode i)).lookup f
        = if f = n.freq then some (l.addNode i) else s.freqToFreqList.lookup f := by
      intro f
      by_cases hf : f = n.freq
      · rw [if_pos hf, hf]
        exact lookup_mapAssign_self _ _ _
      · rw [if_neg hf]
        exact lookup_mapAssign_ne _ _ hf
    refine ⟨⟨hb, ?_, ?_⟩, rfl, rfl, ?_, ?_⟩
    · intro _
      show ∃ l1, (mapAssign s.freqToFreqList n.freq (l.addNode i)).lookup 1 = some l1
      rw [hlk]
      by_cases hf : (1 : Int) = n.freq
      · rw [if_pos hf]
        exact ⟨_, rfl⟩
      · rw [if_neg hf]
        exact hone (lfu_index_ne_nil_of_lookup hl)
    · intro f l1 hl1
      have hl2 : (mapAssign s.freqToFreqList n.freq (l.addNode i)).lookup f = some l1 := hl1
      rw [hlk] at hl2
      by_cases hf : f = n.freq
      · rw [if_pos hf] at hl2
        simp only [Option.some.injEq] at hl2
        subst hl2
        exact ht n.freq l hl
      · rw [if_neg hf] at hl2
        exact ht f l1 hl2
    · intro f hf
      show ((mapAssign s.freqToFreqList n.freq (l.addNode i)).lookup f).isSome = true
      rw [hlk]
      by_cases hf2 : f = n.freq
      · rw [if_pos hf2]
        rfl
      · rw [if_neg hf2]
        exact hf
    · show ((mapAssign s.freqToFreqList n.freq (l.addNode i)).lookup n.freq).isSome = true
      rw [hlk, if_pos rfl]
      rfl
  | none =>
    simp only [hl, Option.isNone_none, if_true] at h
    have hnew : (newFreqList env s n.freq).freqToFreqList.lookup n.freq
        = some { freq := n.freq, head := s.heap.length, tail := s.heap.length + 1, items := [] } := by
      simp only [newFreqList]
      exact lookup_mapAssign_self _ _ _
    rw [hnew] at h
    simp only [Option.some.injEq] at h
    subst h
    have hlk : ∀ f, f ≠ n.freq →
        (mapAssign (newFreqList env s n.freq).freqToFreqList n.freq
          (FreqList.addNode
            { freq := n.freq, head := s.heap.length, tail := s.heap.length + 1, items := [] }
            i)).lookup f
        = s.freqToFreqList.lookup f := by
      intro f hf
      simp only [newFreqList]
      rw [lookup_mapAssign_ne _ _ hf, lookup_mapAssign_ne _ _ hf]
    have hself : (mapAssign (newFreqList env s n.freq).freqToFreqList n.freq
          (FreqList.addNode
            { freq := n.freq, head := s.heap.length, tail := s.heap.length + 1, items := [] }
            i)).lookup n.freq
        = some (FreqList.addNode
            { freq := n.freq, head := s.heap.length, tail := s.heap.length + 1, items := [] }
            i) := lookup_mapAssign_self _ _ _
    have hheap : (newFreqList env s n.freq).heap
        = s.heap ++ [Node.sentinel env, Node.sentinel env] := rfl
    have hmap : (newFreqList env s n.freq).nodeMap = s.nodeMap := rfl
    refine ⟨⟨?_, ?_, ?_⟩, rfl, rfl, ?_, ?_⟩
    · intro e he
      show e.2 < (newFreqList env s n.freq).heap.length
      rw [hheap, List.length_append]
      have := hb e he
      omega
    · intro _
      by_cases hf : (1 : Int) = n.freq
      · show ∃ l1, (mapAssign (newFreqList env s n.freq).freqToFreqList n.freq _).lookup 1
            = some l1
        rw [hf]
        exact ⟨_, hself⟩
      · have hne : s.freqToFreqList ≠ [] := by
          rcases h1 with h1 | h1
          · exact h1
          · exact absurd h1.symm hf
        obtain ⟨l1, hl1⟩ := hone hne
        refine ⟨l1, ?_⟩
        show (mapAssign (newFreqList env s n.freq).freqToFreqList n.freq _).lookup 1 = _
        rw [hlk 1 hf]
        exact hl1
    · intro f l1 hl1
      have hl2 : (mapAssign (newFreqList env s n.freq).freqToFreqList n.freq
          (FreqList.addNode
            { freq := n.freq, head := s.heap.length, tail := s.heap.length + 1, items := [] }
            i)).lookup f = some l1 := hl1
      by_cases hf : f = n.freq
      · rw [hf, hself] at hl2
        simp only [Option.some.injEq] at hl2
        subst hl2
        refine ⟨?_, Node.sentinel env, ?_, rfl⟩
        · intro e he
          have := hb e he
          show e.2 ≠ s.heap.length + 1
          omega
        · show (newFreqList env s n.freq).heap[s.heap.length + 1]? = _
          rw [hheap, List.getElem?_append_right (by omega)]
          have hsub : s.heap.length + 1 - s.heap.length = 1 := by omega
          rw [hsub]
          rfl
      · rw [hlk f hf] at hl2
        obtain ⟨hne, m, hm, hmf⟩ := ht f l1 hl2
        refine ⟨hne, m, ?_, hmf⟩
        show (newFreqList env s n.freq).heap[l1.tail]? = _
        rw [hheap]
        have hlt : l1.tail < s.heap.length := by
          rcases Nat.lt_or_ge l1.tail s.heap.length with h | h
          · exact h
          · rw [List.getElem?_eq_none h] at hm; cases hm
        rw [List.getElem?_append_left hlt]
        exact hm
    · intro f hf
      by_cases hf2 : f = n.freq
      · show ((mapAssign (newFreqList env s n.freq).freqToFreqList n.freq _).lookup f).isSome = true
        rw [hf2, hself]
        rfl
      · show ((mapAssign (newFreqList env s n.freq).freqToFreqList n.freq _).lookup f).isSome = true
        rw [hlk f hf2]
        exact hf
    · show ((mapAssign (newFreqList env s n.freq).freqToFreqList n.freq _).lookup n.freq).isSome
        = true
      rw [hself]
      rfl


/-- Moving a resident node to the list of another frequency keeps the sentinels
in place and every list of the index. -/
theorem lfu_relocate_frame (env : LfuEnv K V) (s s2 s3 : LfuBase K V) (i : Nat) (n : Node K V)
    (f2 : Int) (hs : Sentinels s) (hi : ∃ e ∈ s.nodeMap, e.2 = i) (hn : s.heap[i]? = some n)
    (hl : (s.freqToFreqList.lookup n.freq).isSome = true)
    (hmap : s2.nodeMap = s.nodeMap)
    (hheap : s2.heap = s.heap.set i { n with freq := f2 })
    (hlists : s2.freqToFreqList = FreqList.removeNode s.freqToFreqList i)
    (h : addToFreqList env s2 i = some s3) :
    Sentinels s3 ∧ s3.nodeMap = s.nodeMap ∧ s3.minFreq = s2.minFreq ∧
    (∀ f, (s.freqToFreqList.lookup f).isSome = true →
      (s3.freqToFreqList.lookup f).isSome = true) ∧
    (s3.freqToFreqList.lookup f2).isSome = true := by
  have hs2 : Sentinels s2 := by
    have h0 := lfu_sentinels_set _ i { n with freq := f2 } (lfu_sentinels_removeNode s i hs) hi
    unfold Sentinels at h0 ⊢
    rw [hmap, hheap, hlists]
    exact h0
  have hlt : i < s.heap.length := by
    rcases Nat.lt_or_ge i s.heap.length with h | h
    · exact h
    · rw [List.getElem?_eq_none h] at hn; cases hn
  have hn2 : s2.heap[i]? = some { n with freq := f2 } := by
    rw [hheap, List.getElem?_set_self hlt]
  have hne : s2.freqToFreqList ≠ [] := by
    obtain ⟨l, hl⟩ := lfu_exists_of_isSome hl
    have : (s2.freqToFreqList.lookup n.freq).isSome = true := by
      rw [hlists, lfu_lookup_removeNode_isSome]
      exact lfu_isSome_of_eq_some hl
    obtain ⟨l2, hl2⟩ := lfu_exists_of_isSome this
    exact lfu_index_ne_nil_of_lookup hl2
  obtain ⟨h1, h2, h3, h4, h5⟩ :=
    lfu_addToFreqList_frame env s2 s3 i _ hn2 h hs2 (Or.inl hne)
  refine ⟨h1, by rw [h2, hmap], h3, ?_, h5⟩
  intro f hf
  apply h4
  rw [hlists, lfu_lookup_removeNode_isSome]
  exact hf

theorem lfu_ageNode_frame (env : LfuEnv K V) (s s1 : LfuBase K V) (i : Nat)
    (hi : ∃ e ∈ s.nodeMap, e.2 = i) (hs : Sentinels s) (h : ageNode env s i = some s1) :
    Sentinels s1 ∧ s1.nodeMap = s.nodeMap ∧
    (∀ f, (s.freqToFreqList.lookup f).isSome = true →
      (s1.freqToFreqList.lookup f).isSome = true) ∧
    (s1.minFreq = s.minFreq ∨
      (1 ≤ s1.minFreq ∧ (s1.freqToFreqList.lookup s1.minFreq).isSome = true)) := by
  unfold ageNode at h
  split at h
  · cases h
  · rename_i t hr
    obtain ⟨ht, n, l, hn, hl⟩ := lfu_removeFromFreqList_frame s t i hr
    split at h
    · cases h
    · rename_i n2 hn2
      simp only at h
      split at h
      · cases h
      · rename_i s2 hset
        have hth : t.heap = s.heap := by rw [ht]
        have htm : t.nodeMap = s.nodeMap := by rw [ht]
        have htl : t.freqToFreqList = FreqList.removeNode s.freqToFreqList i := by rw [ht]
        have htf : t.minFreq = s.minFreq := by rw [ht]
        have hnn : n2 = n := by
          rw [hth, hn] at hn2
          simp only [Option.some.injEq] at hn2
          exact hn2.symm
        subst hnn
        generalize hF : (if n2.freq - t.maxAverageNum.tdiv 2 < 1 then 1
          else n2.freq - t.maxAverageNum.tdiv 2) = F at h hset
        have hF1 : 1 ≤ F := by
          rw [← hF]
          split <;> omega
        rw [lfu_setFreq_eq t i n2 F hn2] at hset
        simp only [Option.some.injEq] at hset
        obtain ⟨hd1, hd2, hd3, hd4, hd5, hd6, hd7⟩ := lfu_decreaseFreqNum_fields s2 (n2.freq - F)
        have hs2h : s2.heap = s.heap.set i { n2 with freq := F } := by rw [← hset, hth]
        have hs2m : s2.nodeMap = s.nodeMap := by rw [← hset, htm]
        have hs2l : s2.freqToFreqList = FreqList.removeNode s.freqToFreqList i := by
          rw [← hset, htl]
        have hs2f : s2.minFreq = s.minFreq := by rw [← hset, htf]
        obtain ⟨h1, h2, h3, h4, h5⟩ := lfu_relocate_frame env s _ s1 i n2 F hs hi hn
          (lfu_isSome_of_eq_some hl) (by simp only; rw [hd5, hs2m]) (by simp only; rw [hd7, hs2h])
          (by simp only; rw [hd6, hs2l]) h
        simp only at h3
        rw [hd2, hs2f] at h3
        refine ⟨h1, h2, h4, ?_⟩
        by_cases hle : s.minFreq ≤ F
        · left
          rw [h3]
          exact min_eq_left hle
        · right
          have hmin : s1.minFreq = F := by
            rw [h3]
            exact min_eq_right (by omega)
          rw [hmin]
          exact ⟨hF1, h5⟩


theorem lfu_ageLoop_frame (env : LfuEnv K V) (es : List (K × Nat)) (t t1 : LfuBase K V)
    (hsub : ∀ e ∈ es, e ∈ t.nodeMap) (hs : Sentinels t) (h : ageLoop env es t = some t1) :
    Sentinels t1 ∧ t1.nodeMap = t.nodeMap ∧
    (∀ f, (t.freqToFreqList.lookup f).isSome = true →
      (t1.freqToFreqList.lookup f).isSome = true) ∧
    (t1.minFreq = t.minFreq ∨
      (1 ≤ t1.minFreq ∧ (t1.freqToFreqList.lookup t1.minFreq).isSome = true)) := by
  induction es generalizing t with
  | nil =>
    simp only [ageLoop, Option.some.injEq] at h
    subst h
    exact ⟨hs, rfl, fun f hf => hf, Or.inl rfl⟩
  | cons e rest ih =>
    unfold ageLoop at h
    split at h
    · cases h
    · rename_i u hu
      obtain ⟨h1, h2, h3, h4⟩ := lfu_ageNode_frame env t u e.2
        ⟨e, hsub e (List.mem_cons_self _ _), rfl⟩ hs hu
      obtain ⟨k1, k2, k3, k4⟩ := ih u
        (fun x hx => by rw [h2]; exact hsub x (List.mem_cons_of_mem _ hx)) h1 h
      refine ⟨k1, by rw [k2, h2], fun f hf => k3 f (h3 f hf), ?_⟩
      rcases k4 with k4 | k4
      · rcases h4 with h4 | h4
        · left
          rw [k4, h4]
        · right
          rw [k4]
          exact ⟨h4.1, k3 _ h4.2⟩
      · exact Or.inr k4

theorem lfu_handleOver_frame (env : LfuEnv K V) (s s1 : LfuBase K V) (hs : Sentinels s)
    (hmin : 1 ≤ s.minFreq) (hne : s.freqToFreqList ≠ [])
    (h : handleOverMaxAverageNum env s = some s1) :
    Sentinels s1 ∧ 1 ≤ s1.minFreq ∧ s1.nodeMap = s.nodeMap ∧
    (∀ f, (s.freqToFreqList.lookup f).isSome = true →
      (s1.freqToFreqList.lookup f).isSome = true) ∧
    (s1.minFreq = s.minFreq ∨ (s1.freqToFreqList.lookup s1.minFreq).isSome = true) := by
  unfold handleOverMaxAverageNum at h
  split at h
  · simp only [Option.some.injEq] at h
    subst h
    exact ⟨hs, hmin, rfl, fun f hf => hf, Or.inl rfl⟩
  · split at h
    · cases h
    · rename_i r hr
      simp only [Option.some.injEq] at h
      obtain ⟨h1, h2, h3, h4⟩ := lfu_ageLoop_frame env s.nodeMap { s with minFreq := env.INI8_MAX } r
        (fun e he => he) (lfu_sentinels_congr rfl rfl rfl hs) hr
      simp only at h2 h3 h4
      by_cases hr2 : r.minFreq = env.INI8_MAX
      · rw [if_pos hr2] at h
        subst h
        obtain ⟨l, hl⟩ := hs.2.1 hne
        have h5 : (r.freqToFreqList.lookup 1).isSome = true := h3 1 (lfu_isSome_of_eq_some hl)
        exact ⟨lfu_sentinels_congr rfl rfl rfl h1, le_refl _, h2, h3, Or.inr h5⟩
      · rw [if_neg hr2] at h
        subst h
        rcases h4 with h4 | h4
        · exact absurd h4 hr2
        · exact ⟨h1, h4.1, h2, h3, Or.inr h4.2⟩

theorem lfu_addFreqNum_frame (env : LfuEnv K V) (s s1 : LfuBase K V) (hs : Sentinels s)
    (hmin : 1 ≤ s.minFreq) (hne : s.freqToFreqList ≠ [])
    (h : addFreqNum env s = some s1) :
    Sentinels s1 ∧ 1 ≤ s1.minFreq ∧ s1.nodeMap = s.nodeMap ∧
    (∀ f, (s.freqToFreqList.lookup f).isSome = true →
      (s1.freqToFreqList.lookup f).isSome = true) ∧
    (s1.minFreq = s.minFreq ∨ (s1.freqToFreqList.lookup s1.minFreq).isSome = true) := by
  obtain ⟨h1, h2, h3, h4, h5, h6, h7⟩ :=
    lfu_recomputeAverage_fields { s with curTotalNum := s.curTotalNum + 1 }
  simp only at h2 h5 h6 h7
  have hs0 : Sentinels (recomputeAverage { s with curTotalNum := s.curTotalNum + 1 }) :=
    lfu_sentinels_congr h5 h7 h6 hs
  unfold addFreqNum at h
  simp only at h
  split at h
  · obtain ⟨k1, k2, k3, k4, k5⟩ := lfu_handleOver_frame env _ s1 hs0 (by rw [h2]; exact hmin)
      (by rw [h6]; exact hne) h
    rw [h5] at k3
    rw [h6] at k4
    rw [h2] at k5
    exact ⟨k1, k2, k3, k4, k5⟩
  · simp only [Option.some.injEq] at h
    subst h
    exact ⟨hs0, by rw [h2]; exact hmin, h5, by rw [h6]; exact fun f hf => hf, Or.inl h2⟩


theorem lfu_live_congr {s t : LfuBase K V} (h1 : t.nodeMap = s.nodeMap)
    (h2 : t.heap = s.heap) (h3 : t.freqToFreqList = s.freqToFreqList)
    (h4 : t.minFreq = s.minFreq) (h : Live s) : Live t := by
  unfold Live at h ⊢
  rw [h1, h3, h4]
  exact ⟨lfu_sentinels_congr h1 h2 h3 h.1, h.2⟩

theorem lfu_bumpMinFreq_frame (s s1 : LfuBase K V) (f : Int) (h : bumpMinFreq s f = some s1) :
    s1.nodeMap = s.nodeMap ∧ s1.heap = s.heap ∧ s1.freqToFreqList = s.freqToFreqList ∧
    (s1.minFreq = s.minFreq ∨ (s1.minFreq = s.minFreq + 1 ∧ f - 1 = s.minFreq)) := by
  unfold bumpMinFreq at h
  split at h
  · rename_i hf
    split at h
    · cases h
    · simp only [Option.some.injEq] at h
      split at h
      · subst h
        exact ⟨rfl, rfl, rfl, Or.inr ⟨rfl, hf⟩⟩
      · subst h
        exact ⟨rfl, rfl, rfl, Or.inl rfl⟩
  · simp only [Option.some.injEq] at h
    subst h
    exact ⟨rfl, rfl, rfl, Or.inl rfl⟩

/-- The member `getInternal` on a resident node keeps what makes every call
return, and every list of the index. -/
theorem lfu_getInternal_frame (env : LfuEnv K V) (s s1 : LfuBase K V) (i : Nat) (v : V)
    (hi : ∃ e ∈ s.nodeMap, e.2 = i) (hs : Live s) (h : getInternal env s i = some (v, s1)) :
    Live s1 ∧ s1.nodeMap = s.nodeMap ∧
    (∀ f, (s.freqToFreqList.lookup f).isSome = true →
      (s1.freqToFreqList.lookup f).isSome = true) := by
  obtain ⟨hsent, hmin, hA⟩ := hs
  have hnm : s.nodeMap ≠ [] := by
    obtain ⟨e, he, _⟩ := hi
    intro h0
    rw [h0] at he
    cases he
  unfold getInternal at h
  split at h
  · cases h
  · rename_i n hn
    split at h
    · cases h
    · rename_i t hr
      obtain ⟨ht, n0, l, hn0, hl⟩ := lfu_removeFromFreqList_frame s t i hr
      have hnn : n0 = n := by
        rw [hn] at hn0
        simp only [Option.some.injEq] at hn0
        exact hn0.symm
      subst hnn
      have hth : t.heap = s.heap := by rw [ht]
      have htm : t.nodeMap = s.nodeMap := by rw [ht]
      have htl : t.freqToFreqList = FreqList.removeNode s.freqToFreqList i := by rw [ht]
      have htf : t.minFreq = s.minFreq := by rw [ht]
      split at h
      · cases h
      · rename_i s2 hset
        rw [lfu_setFreq_eq t i n0 (n0.freq + 1) (by rw [hth]; exact hn)] at hset
        simp only [Option.some.injEq] at hset
        have hs2h : s2.heap = s.heap.set i { n0 with freq := n0.freq + 1 } := by rw [← hset, hth]
        have hs2m : s2.nodeMap = s.nodeMap := by rw [← hset, htm]
        have hs2l : s2.freqToFreqList = FreqList.removeNode s.freqToFreqList i := by
          rw [← hset, htl]
        have hs2f : s2.minFreq = s.minFreq := by rw [← hset, htf]
        split at h
        · cases h
        · rename_i s3 hadd
          obtain ⟨h1, h2, h3, h4, h5⟩ := lfu_relocate_frame env s s2 s3 i n0 (n0.freq + 1) hsent hi
            hn (lfu_isSome_of_eq_some hl) hs2m hs2h hs2l hadd
          rw [hs2f] at h3
          split at h
          · cases h
          · rename_i s4 hbump
            obtain ⟨b1, b2, b3, b4⟩ := lfu_bumpMinFreq_frame s3 s4 (n0.freq + 1) hbump
            split at h
            · cases h
            · rename_i s5 hfreq
              simp only [Option.some.injEq, Prod.mk.injEq] at h
              obtain ⟨_, h⟩ := h
              subst h
              have hs4 : Sentinels s4 := lfu_sentinels_congr b1 b2 b3 h1
              have hmin4 : 1 ≤ s4.minFreq := by
                rcases b4 with b4 | b4
                · rw [b4, h3]; exact hmin
                · rw [b4.1, h3]; omega
              have hA4 : (s4.freqToFreqList.lookup s4.minFreq).isSome = true := by
                rw [b3]
                rcases b4 with b4 | b4
                · rw [b4, h3]
                  obtain ⟨l0, hl0⟩ := hA hnm
                  exact h4 _ (lfu_isSome_of_eq_some hl0)
                · have : s4.minFreq = n0.freq + 1 := by
                    rw [b4.1]
                    omega
                  rw [this]
                  exact h5
              have hne4 : s4.freqToFreqList ≠ [] := by
                obtain ⟨l4, hl4⟩ := lfu_exists_of_isSome hA4
                exact lfu_index_ne_nil_of_lookup hl4
              obtain ⟨c1, c2, c3, c4, c5⟩ := lfu_addFreqNum_frame env s4 s5 hs4 hmin4 hne4 hfreq
              refine ⟨⟨c1, c2, ?_⟩, by rw [c3, b1, h2], ?_⟩
              · intro _
                apply lfu_exists_of_isSome
                rcases c5 with c5 | c5
                · rw [c5]
                  exact c4 _ hA4
                · exact c5
              · intro f hf
                apply c4
                rw [b3]
                exact h4 f hf


theorem lfu_sentinels_sub {s t : LfuBase K V} (h1 : ∀ e ∈ t.nodeMap, e ∈ s.nodeMap)
    (h2 : t.heap = s.heap) (h3 : t.freqToFreqList = s.freqToFreqList) (h : Sentinels s) :
    Sentinels t := by
  obtain ⟨hb, hone, ht⟩ := h
  unfold Sentinels
  rw [h2, h3]
  refine ⟨fun e he => hb e (h1 e he), hone, ?_⟩
  intro f l hl
  obtain ⟨hne, hn⟩ := ht f l hl
  exact ⟨fun e he => hne e (h1 e he), hn⟩

/-- The member `kickOut` keeps what makes every call return, and every list of
the index. -/
theorem lfu_kickOut_frame (s s1 : LfuBase K V) (hs : Live s) (h : kickOut s = some s1) :
    Live s1 ∧
    (∀ f, (s.freqToFreqList.lookup f).isSome = true →
      (s1.freqToFreqList.lookup f).isSome = true) := by
  obtain ⟨hsent, hmin, hA⟩ := hs
  unfold kickOut at h
  split at h
  · cases h
  · rename_i l hl
    simp only at h
    split at h
    · cases h
    · rename_i t hr
      obtain ⟨ht, n0, l0, hn0, hl0⟩ := lfu_removeFromFreqList_frame s t _ hr
      have hth : t.heap = s.heap := by rw [ht]
      have htm : t.nodeMap = s.nodeMap := by rw [ht]
      have htl : t.freqToFreqList = FreqList.removeNode s.freqToFreqList l.getFirstNode := by
        rw [ht]
      have htf : t.minFreq = s.minFreq := by rw [ht]
      split at h
      · cases h
      · rename_i n hn
        simp only [Option.some.injEq] at h
        obtain ⟨hd1, hd2, hd3, hd4, hd5, hd6, hd7⟩ :=
          lfu_decreaseFreqNum_fields { t with nodeMap := mapErase t.nodeMap n.key } n.freq
        simp only at hd2 hd5 hd6 hd7
        rw [h] at hd2 hd5 hd6 hd7
        have hmono : ∀ f, (s.freqToFreqList.lookup f).isSome = true →
            (s1.freqToFreqList.lookup f).isSome = true := by
          intro f hf
          rw [hd6, htl, lfu_lookup_removeNode_isSome]
          exact hf
        refine ⟨⟨?_, by rw [hd2, htf]; exact hmin, ?_⟩, hmono⟩
        · have h0 := lfu_sentinels_removeNode s l.getFirstNode hsent
          refine lfu_sentinels_sub ?_ ?_ ?_ h0
          · intro e he
            rw [hd5] at he
            have := (mapErase_sublist t.nodeMap n.key).subset he
            rw [htm] at this
            exact this
          · rw [hd7, hth]
          · rw [hd6, htl]
        · intro _
          apply lfu_exists_of_isSome
          rw [hd2, htf]
          exact hmono _ (lfu_isSome_of_eq_some hl)

theorem lfu_mem_mapAssign_cases {B : Type} (m : List (K × B)) (k : K) (b : B) (e : K × B)
    (h : e ∈ mapAssign m k b) : e ∈ m ∨ e.2 = b := by
  unfold mapAssign at h
  split at h
  · obtain ⟨x, hx, hxe⟩ := List.mem_map.1 h
    by_cases hk : x.1 = k
    · rw [if_pos hk] at hxe
      right
      rw [← hxe]
    · rw [if_neg hk] at hxe
      left
      rw [← hxe]
      exact hx
  · rcases List.mem_append.1 h with h | h
    · exact Or.inl h
    · right
      simp only [List.mem_singleton] at h
      rw [h]

theorem lfu_sentinels_insert (s : LfuBase K V) (key : K) (m : Node K V) (h : Sentinels s) :
    Sentinels { s with heap := s.heap ++ [m],
                       nodeMap := mapAssign s.nodeMap key s.heap.length } := by
  obtain ⟨hb, hone, ht⟩ := h
  refine ⟨?_, hone, ?_⟩
  · intro e he
    show e.2 < (s.heap ++ [m]).length
    rw [List.length_append]
    rcases lfu_mem_mapAssign_cases _ _ _ e he with h | h
    · have := hb e h
      omega
    · rw [h]
      simp
  · intro f l hl
    obtain ⟨hne, n, hn, hf⟩ := ht f l hl
    have hlt : l.tail < s.heap.length := by
      rcases Nat.lt_or_ge l.tail s.heap.length with h | h
      · exact h
      · rw [List.getElem?_eq_none h] at hn; cases hn
    refine ⟨?_, n, ?_, hf⟩
    · intro e he
      rcases lfu_mem_mapAssign_cases _ _ _ e he with h | h
      · exact hne e h
      · rw [h]
        omega
    · show (s.heap ++ [m])[l.tail]? = some n
      rw [List.getElem?_append_left hlt]
      exact hn

/-- The member `putInternal` keeps what makes every call return, and every list
of the index. -/
theorem lfu_putInternal_frame (env : LfuEnv K V) (s s1 : LfuBase K V) (key : K) (value : V)
    (hs : Live s) (h : putInternal env s key value = some s1) :
    Live s1 ∧
    (∀ f, (s.freqToFreqList.lookup f).isSome = true →
      (s1.freqToFreqList.lookup f).isSome = true) := by
  unfold putInternal at h
  split at h
  · cases h
  · rename_i t hpre
    have ht : Live t ∧ ∀ f, (s.freqToFreqList.lookup f).isSome = true →
        (t.freqToFreqList.lookup f).isSome = true := by
      split at hpre
      · exact lfu_kickOut_frame s t hs hpre
      · simp only [Option.some.injEq] at hpre
        subst hpre
        exact ⟨hs, fun f hf => hf⟩
    obtain ⟨⟨hsent, hmin, _⟩, hmono⟩ := ht
    simp only at h
    split at h
    · cases h
    · rename_i s4 hadd
      split at h
      · cases h
      · rename_i s5 hfreq
        simp only [Option.some.injEq] at h
        subst h
        have hn : (t.heap ++ [Node.mk1 key value])[t.heap.length]? = some (Node.mk1 key value) := by
          simp
        obtain ⟨h1, h2, h3, h4, h5⟩ := lfu_addToFreqList_frame env _ s4 t.heap.length
          (Node.mk1 key value) hn hadd (lfu_sentinels_insert t key (Node.mk1 key value) hsent)
          (Or.inr rfl)
        simp only at h3 h4
        have h51 : (s4.freqToFreqList.lookup 1).isSome = true := h5
        have hne4 : s4.freqToFreqList ≠ [] := by
          obtain ⟨l4, hl4⟩ := lfu_exists_of_isSome h51
          exact lfu_index_ne_nil_of_lookup hl4
        obtain ⟨c1, c2, c3, c4, c5⟩ := lfu_addFreqNum_frame env s4 s5 h1
          (by rw [h3]; exact hmin) hne4 hfreq
        have hm1 : min s5.minFreq 1 = 1 := min_eq_right c2
        refine ⟨⟨lfu_sentinels_congr rfl rfl rfl c1, ?_, ?_⟩, ?_⟩
        · show 1 ≤ min s5.minFreq 1
          rw [hm1]
        · intro _
          apply lfu_exists_of_isSome
          show (s5.freqToFreqList.lookup (min s5.minFreq 1)).isSome = true
          rw [hm1]
          exact c4 1 h51
        · intro f hf
          exact c4 f (h4 f (hmono f hf))


/-- The member `put` keeps what makes every call return, and every list of the
index. -/
theorem lfu_put_frame (env : LfuEnv K V) (s s1 : LfuBase K V) (key : K) (value : V)
    (hs : Live s) (h : put env s key value = some s1) :
    Live s1 ∧
    (∀ f, (s.freqToFreqList.lookup f).isSome = true →
      (s1.freqToFreqList.lookup f).isSome = true) := by
  unfold put at h
  split at h
  · simp only [Option.some.injEq] at h
    subst h
    exact ⟨hs, fun f hf => hf⟩
  · split at h
    · rename_i node hl
      have he := mem_of_lookup_eq_some hl
      split at h
      · cases h
      · rename_i t hset
        split at h
        · cases h
        · rename_i r hget
          simp only [Option.some.injEq] at h
          subst h
          unfold setValue at hset
          split at hset
          · rename_i n hn
            simp only [Option.some.injEq] at hset
            have ht : Live t := by
              rw [← hset]
              exact ⟨lfu_sentinels_set s node _ hs.1 ⟨_, he, rfl⟩, hs.2⟩
            have htm : t.nodeMap = s.nodeMap := by rw [← hset]
            have htl : t.freqToFreqList = s.freqToFreqList := by rw [← hset]
            obtain ⟨h1, h2, h3⟩ := lfu_getInternal_frame env t r.2 node r.1
              ⟨_, by rw [htm]; exact he, rfl⟩ ht hget
            rw [htl] at h3
            exact ⟨h1, h3⟩
          · cases hset
    · exact lfu_putInternal_frame env s s1 key value hs h

/-- The member `get` keeps what makes every call return, and every list of the
index. -/
theorem lfu_get_frame (env : LfuEnv K V) (s : LfuBase K V) (key : K)
    (r : Option V × LfuBase K V) (hs : Live s) (h : get env s key = some r) :
    Live r.2 ∧
    (∀ f, (s.freqToFreqList.lookup f).isSome = true →
      (r.2.freqToFreqList.lookup f).isSome = true) := by
  unfold get at h
  split at h
  · rename_i node hl
    have he := mem_of_lookup_eq_some hl
    split at h
    · cases h
    · rename_i q hget
      simp only [Option.some.injEq] at h
      subst h
      obtain ⟨h1, h2, h3⟩ := lfu_getInternal_frame env s q.2 node q.1 ⟨_, he, rfl⟩ hs hget
      exact ⟨h1, h3⟩
  · simp only [Option.some.injEq] at h
    subst h
    exact ⟨hs, fun f hf => hf⟩

theorem lfu_live_new (cap maxAvg : Int) : Live (new cap maxAvg : LfuBase K V) := by
  refine ⟨⟨?_, ?_, ?_⟩, ?_, ?_⟩
  · intro e he
    cases he
  · intro h
    exact absurd rfl h
  · intro f l hl
    cases hl
  · show (1 : Int) ≤ INT8_MAX
    decide
  · intro h
    exact absurd rfl h

theorem lfu_live_purge (s : LfuBase K V) (hs : Live s) : Live (purge s) := by
  refine ⟨⟨?_, ?_, ?_⟩, hs.2.1, ?_⟩
  · intro e he
    cases he
  · intro h
    exact absurd rfl h
  · intro f l hl
    cases hl
  · intro h
    exact absurd rfl h

theorem lfu_step_live (env : LfuEnv K V) (s s1 : LfuBase K V) (hs : Live s) (op : Op K V)
    (h : step env s op = some s1) : Live s1 := by
  cases op with
  | put key value => exact (lfu_put_frame env s s1 key value hs h).1
  | get key =>
    simp only [step] at h
    cases hg : get env s key with
    | none => rw [hg] at h; cases h
    | some r =>
      rw [hg] at h
      simp only [Option.map_some', Option.some.injEq] at h
      subst h
      exact (lfu_get_frame env s key r hs hg).1
  | purge =>
    simp only [step, Option.some.injEq] at h
    subst h
    exact lfu_live_purge s hs

theorem lfu_run_live (env : LfuEnv K V) (ops : List (Op K V)) (s s1 : LfuBase K V) (hs : Live s)
    (h : run env s ops = some s1) : Live s1 := by
  induction ops generalizing s with
  | nil =>
    simp only [run, Option.some.injEq] at h
    subst h
    exact hs
  | cons op ops ih =>
    unfold run at h
    cases hst : step env s op with
    | none => rw [hst] at h; cases h
    | some t =>
      rw [hst] at h
      exact ih t (lfu_step_live env s t hs op hst) h

/-- Every state reachable from the empty cache has what makes every call
return. -/
theorem lfu_reachable_live {env : LfuEnv K V} {cap maxAvg : Int} {s : LfuBase K V}
    (h : Reachable env cap maxAvg s) : Live s := by
  obtain ⟨ops, hops⟩ := h
  exact lfu_run_live env ops _ s (lfu_live_new cap maxAvg) hops

/-- The member `kickOut` returns on a cache that holds a key: the list of
`minFreq_` exists, and so does the node it hands out, be it a resident node or
the `tail_` sentinel of an empty list, together with the list of its `freq`. -/
theorem lfu_kickOut_total (s : LfuBase K V) (hinv : Inv s) (hs : Live s) (hne : s.nodeMap ≠ []) :
    ∃ s1, kickOut s = some s1 := by
  obtain ⟨⟨hb, hone, ht⟩, hmin, hA⟩ := hs
  obtain ⟨l, hl⟩ := hA hne
  cases hitems : l.items with
  | nil =>
    have hfirst : l.getFirstNode = l.tail := by
      unfold FreqList.getFirstNode
      rw [hitems]
    obtain ⟨_, n, hn, hf⟩ := ht _ l hl
    obtain ⟨l2, hl2⟩ := hone (lfu_index_ne_nil_of_lookup hl)
    exact ⟨_, lfu_kickOut_eq s l l2 n hl (by rw [hfirst]; exact hn) (by rw [hf]; exact hl2)⟩
  | cons first rest =>
    have hfirst : l.getFirstNode = first := by
      unfold FreqList.getFirstNode
      rw [hitems]
    obtain ⟨m, hm, hmf⟩ := (hinv.2.2.2 _ l hl).2 first (by rw [hitems]; exact List.mem_cons_self _ _)
    exact ⟨_, lfu_kickOut_eq s l l m hl (by rw [hfirst]; exact hm) (by rw [hmf]; exact hl)⟩

/-- The member `put` returns on every state that has the invariant and what the
sentinels need. -/
theorem lfu_put_total (env : LfuEnv K V) (s : LfuBase K V) (hinv : Inv s) (hs : Live s)
    (key : K) (value : V) : ∃ s1, put env s key value = some s1 := by
  by_cases hcap : s.capacity ≤ 0
  · exact ⟨s, lfu_put_of_capacity_nonpos env s hcap key value⟩
  · cases hl : s.nodeMap.lookup key with
    | some node =>
      have he := mem_of_lookup_eq_some hl
      obtain ⟨t, n, hn, hset, hinvt, hteq⟩ := lfu_setValue_spec s hinv (key, node) he value
      have het : (key, node) ∈ t.nodeMap := by rw [hteq]; exact he
      obtain ⟨n1, s4, s5, extra, hn1, hget, _⟩ :=
        lfu_getInternal_spec env t hinvt (key, node) het
      refine ⟨s5, ?_⟩
      unfold put
      rw [if_neg hcap, hl]
      simp only
      rw [hset]
      simp only
      rw [hget]
    | none =>
      rw [lfu_put_eq_putInternal env s key value hcap hl]
      have hpre : ∃ t, (if (s.nodeMap.length : Int) = s.capacity then kickOut s else some s)
          = some t ∧ Inv t ∧ t.nodeMap.lookup key = none := by
        by_cases hfull : (s.nodeMap.length : Int) = s.capacity
        · rw [if_pos hfull]
          have hne : s.nodeMap ≠ [] := by
            intro h0
            rw [h0] at hfull
            simp only [List.length_nil, Nat.cast_zero] at hfull
            omega
          obtain ⟨t, ht⟩ := lfu_kickOut_total s hinv hs hne
          obtain ⟨hi, _, _, _, hsub⟩ := lfu_kickOut_inv s t hinv ht
          refine ⟨t, ht, hi, ?_⟩
          rw [lookup_eq_none_iff_not_mem]
          intro hmem
          obtain ⟨e, he, hek⟩ := List.mem_map.1 hmem
          exact (lookup_eq_none_iff_not_mem _ _).1 hl (List.mem_map.2 ⟨e, hsub e he, hek⟩)
        · rw [if_neg hfull]
          exact ⟨s, rfl, hinv, hl⟩
      obtain ⟨t, hpre, hit, hkt⟩ := hpre
      obtain ⟨s4, hadd, hinv4, _⟩ := lfu_insert_spec env t hit key value hkt
      obtain ⟨s5, hs5, _⟩ := lfu_addFreqNum_spec env s4 hinv4
      exact ⟨_, lfu_putInternal_eq env s t s4 s5 key value hpre hadd hs5⟩


/-- A sequence of `put` and `get` calls returns, and leaves every list of the
index in the index. -/
theorem lfu_run_keeps_index (env : LfuEnv K V) (ops : List (Op K V)) (s : LfuBase K V)
    (hinv : Inv s) (hs : Live s) (hp : Op.purge ∉ ops) :
    ∃ s1, run env s ops = some s1 ∧
      ∀ f, (s.freqToFreqList.lookup f).isSome = true →
        (s1.freqToFreqList.lookup f).isSome = true := by
  induction ops generalizing s with
  | nil => exact ⟨s, rfl, fun f hf => hf⟩
  | cons op ops ih =>
    have hp2 : Op.purge ∉ ops := fun h => hp (List.mem_cons_of_mem _ h)
    have hstep : ∃ t, step env s op = some t ∧ Inv t ∧ Live t ∧
        ∀ f, (s.freqToFreqList.lookup f).isSome = true →
          (t.freqToFreqList.lookup f).isSome = true := by
      cases op with
      | put key value =>
        obtain ⟨t, ht⟩ := lfu_put_total env s hinv hs key value
        obtain ⟨h1, h2⟩ := lfu_put_frame env s t key value hs ht
        exact ⟨t, ht, (lfu_put_inv env s t hinv key value ht).1, h1, h2⟩
      | get key =>
        obtain ⟨r, hr, hi, _⟩ := lfu_get_inv env s hinv key
        obtain ⟨h1, h2⟩ := lfu_get_frame env s key r hs hr
        refine ⟨r.2, ?_, hi, h1, h2⟩
        simp only [step, hr, Option.map_some']
      | purge => exact absurd (List.mem_cons_self _ _) hp
    obtain ⟨t, ht, hit, hlt, hmono⟩ := hstep
    obtain ⟨s1, hrun, hmono2⟩ := ih t hit hlt hp2
    refine ⟨s1, ?_, fun f hf => hmono2 f (hmono f hf)⟩
    rw [lfu_run_cons env s t op ops ht]
    exact hrun

/-- C23 (LFU frequency-index invariant), the claim as stated fails: after
`put(1,1), get(1)` the frequency 1 is a key of the index and its list is empty
(the node has moved to the list of frequency 2; no list is ever removed from the
index). -/
theorem lfu_index_counterexample :
    (run intEnv (new 2 10) [Op.put 1 1, Op.get 1]).map
        (fun s => (keys s, indexKeys s, bucket s 1, bucket s 2))
      = some ([1], [1, 2], [], [0]) := by
  decide

/-- C23 (LFU frequency-index invariant), as the code has it: in every state
reachable from the empty cache by `put`, `get` (and `purge`), each resident node
carries the key it is stored under and is linked in exactly one list of the
index, the list of its current `freq`, at exactly one position; every frequency
whose list is non-empty is a key of the index; and every further sequence of
`put` and `get` calls returns and leaves every key of the index a key of the
index, whether or not its list has become empty. -/
theorem lfu_index_invariant (env : LfuEnv K V) (cap maxAvg : Int) (s : LfuBase K V)
    (hs : Reachable env cap maxAvg s) :
    (∀ e ∈ s.nodeMap, ∃ n, s.heap[e.2]? = some n ∧ n.key = e.1 ∧
      (bucket s n.freq).count e.2 = 1 ∧ ∀ f, e.2 ∈ bucket s f → f = n.freq) ∧
    (∀ f, bucket s f ≠ [] → f ∈ indexKeys s) ∧
    (∀ ops : List (Op K V), Op.purge ∉ ops →
      ∃ s1, run env s ops = some s1 ∧ ∀ f ∈ indexKeys s, f ∈ indexKeys s1) := by
  have hinv := (lfu_reachable_inv hs).1
  have hlive := lfu_reachable_live hs
  obtain ⟨-, -, hres, hlist⟩ := hinv
  refine ⟨?_, ?_, ?_⟩
  · intro e he
    obtain ⟨n, l, hn, hkey, hl, hmem⟩ := hres e he
    refine ⟨n, hn, hkey, ?_, ?_⟩
    · unfold bucket
      rw [hl]
      exact List.count_eq_one_of_mem (hlist _ l hl).1 hmem
    · intro f hf
      unfold bucket at hf
      cases hlf : s.freqToFreqList.lookup f with
      | none => rw [hlf] at hf; simp at hf
      | some l2 =>
        rw [hlf] at hf
        obtain ⟨m, hm, hmf⟩ := (hlist f l2 hlf).2 e.2 hf
        rw [hn] at hm
        simp only [Option.some.injEq] at hm
        rw [← hmf, ← hm]
  · intro f hf
    unfold bucket at hf
    cases hlf : s.freqToFreqList.lookup f with
    | none => rw [hlf] at hf; exact absurd rfl hf
    | some l2 => exact (lookup_isSome_iff_mem _ _).1 (by rw [hlf]; rfl)
  · intro ops hp
    obtain ⟨s1, hrun, hmono⟩ :=
      lfu_run_keeps_index env ops s (lfu_reachable_inv hs).1 hlive hp
    refine ⟨s1, hrun, ?_⟩
    intro f hf
    exact (lookup_isSome_iff_mem _ _).1 (hmono f ((lookup_isSome_iff_mem _ _).2 hf))

theorem lfu_index_invariant_witness :
    Reachable intEnv 2 4 sample ∧
    (∀ e ∈ sample.nodeMap, ∃ n, sample.heap[e.2]? = some n ∧ n.key = e.1 ∧
      (bucket sample n.freq).count e.2 = 1 ∧ ∀ f, e.2 ∈ bucket sample f → f = n.freq) ∧
    (∀ f, bucket sample f ≠ [] → f ∈ indexKeys sample) ∧
    (∀ ops : List (Op Nat Nat), Op.purge ∉ ops →
      ∃ s1, run intEnv sample ops = some s1 ∧ ∀ f ∈ indexKeys sample, f ∈ indexKeys s1) :=
  ⟨lfu_sample_reachable, lfu_index_invariant intEnv 2 4 sample lfu_sample_reachable⟩

end LfuBase
end MyCache
